import Mathlib

/-! # KAlarm: the handled-alarm map, the daemon link, the event layer

A shallow embedding of parts of KAlarm:

* `kalarmd/adcalendar.cpp`: the class `ADCalendar` keeps three static members,
  the list of live calendars, the map of handled events and the list of calendar
  URLs.  Member functions are embedded as functions that take the static members
  they touch and the object (`this`) explicitly and return the new values.
* `daemon.h`: the expiry of the registration timer.
* `functions.cpp`: version numbers, mime types, accelerators, and the functions
  that add, update, delete and reactivate events.  The calls that leave the file
  are answered by a parameter and recorded in a trace.
* `eventid.cpp`: the parsing of an event ID.
* `resources/akonadiresource.cpp`: the queue of item modifications.
* `alarmlistview.cpp`: the context menu of the header, which shows and hides
  columns.

Values of library types (Qt, libkcal, Akonadi) carry only what the code reads
from them.
-/

namespace Kalarmd

/-! ## Library values -/

/-- Value of Qt's `QDateTime`, a date paired with a time. Either part may be
missing or out of range, written `none`; `operator==` compares both parts. -/
structure QDateTime where
  date : Option Nat
  time : Option Nat
deriving DecidableEq, Repr

/-- Qt `QDateTime::isValid()`: both the date and the time are valid. -/
def QDateTime.isValid (t : QDateTime) : Bool :=
  t.date.isSome && t.time.isSome

/-- The default constructed (null) `QDateTime`. -/
def QDateTime.null : QDateTime := ⟨none, none⟩

/-- Value of `KCal::Event` as far as `ADCalendar` reads it: `uid()` and
`revision()`. -/
structure Event where
  uid : String
  revision : Int
deriving DecidableEq, Repr

/-! ## Types of the class header -/

/-- Modelled from the spec: `EventKey` of `adcalendar.h`, the header is not part
of the sources at hand. "EventKey = (eventUID: string, calendarIndex: integer).
Uniquely identifies one event within one calendar instance." The field names are
the ones `adcalendar.cpp` uses. -/
structure EventKey where
  eventID : String
  calendarIndex : Int
deriving DecidableEq, Repr

/-- Modelled from the spec: `EventItem` of `adcalendar.h`. "HandledEntry =
(revisionNumber: integer, alarmOccurrenceTimes: ordered sequence of optional
timestamps)." The field names are the ones `adcalendar.cpp` uses; the
constructor call `EventItem(revision, alarmtimes)` fills them in this order. -/
structure EventItem where
  eventSequence : Int
  alarmTimes : List QDateTime
deriving DecidableEq, Repr

/-- Modelled from the spec: `EventsMap` of `adcalendar.h`, a `QMap` from
`EventKey` to `EventItem` ("One entry per EventKey"). The map is the list of its
entries; the operations below never create a second entry for a key. -/
abbrev EventsMap := List (EventKey × EventItem)

namespace EventsMap

/-- Qt `QMap::find(key)`: the data of the entry for `key`, `none` standing for
the `end()` iterator. -/
def find : EventsMap → EventKey → Option EventItem
  | [], _ => none
  | (k, v) :: rest, key => if k = key then some v else find rest key

/-- Assignment through the iterator returned by `find(key)`: the data of the
entry for `key` is replaced by `f` of it. -/
def modify : EventsMap → EventKey → (EventItem → EventItem) → EventsMap
  | [], _, _ => []
  | (k, v) :: rest, key, f =>
    if k = key then (k, f v) :: rest else (k, v) :: modify rest key f

/-- Qt `QMap::insert(key, value)` for a key that `find` did not find: a new
entry is added. -/
def insert (m : EventsMap) (key : EventKey) (value : EventItem) : EventsMap :=
  m ++ [(key, value)]

/-- No two entries of the map have the same key, as in every `QMap`. -/
def NodupKeys (m : EventsMap) : Prop :=
  (m.map Prod.fst).Nodup

instance (m : EventsMap) : Decidable (NodupKeys m) := by
  unfold NodupKeys; infer_instance

end EventsMap

/-! ## The class -/

/-- Non-static state of an `ADCalendar` object. `addr` is the address of the
object, the value of `this` and of the pointers kept in `mCalendars`; `mEvents`
is the content of the base class `KCal::CalendarLocal`; `mTempFileName` is
`none` for the null `QString`. -/
structure ADCalendar where
  addr : Nat
  mUrlString : String
  mAppName : String
  mUrlIndex : Int
  mLoaded : Bool
  mLoadedConnected : Bool
  mUnregistered : Bool
  mEnabled : Bool
  mTempFileName : Option String
  mEvents : List Event
deriving DecidableEq, Repr

/-- The static members of `ADCalendar`. Each pointer of `mCalendars` is shown
with the object it points to; through this list the code reads only
`urlString()`, which never changes after construction. -/
structure Statics where
  mCalendars : List ADCalendar
  mEventsHandled : EventsMap
  mCalendarUrls : List String
deriving DecidableEq, Repr

/-- What a load of the calendar file meets outside the program:
`isLocalFile` is `KURL(mUrlString).isLocalFile()`, `loadOk` the result of
libkcal `CalendarLocal::load`, `loadedEvents` the events the calendar holds
after that call, `tempFileName` the name of the `KTempFile` made for a
download. -/
structure LoadEnv where
  isLocalFile : Bool
  loadOk : Bool
  loadedEvents : List Event
  tempFileName : Option String
deriving DecidableEq, Repr

namespace ADCalendar

/-- libkcal `CalendarLocal::event(uid)`: the event with this UID, `none` for the
null pointer. -/
def event (this : ADCalendar) (uid : String) : Option Event :=
  this.mEvents.find? (fun e => e.uid = uid)

/-- The `for` loop of `ADCalendar::eventHandled`. The first number is
`count - i`, the iterations that remain, the second is `i`. Elements are read
with a default because `alarmtimes[i]` is only read for `i < count` and
`alarmTimes[i]` only after `i >= oldCount` was found false. -/
def eventHandledLoop (alarmTimes alarmtimes : List QDateTime) : Nat → Nat → Bool
  | 0, _ => true
  | n + 1, i =>
    if (alarmtimes.getD i QDateTime.null).isValid
        && (decide (i ≥ alarmTimes.length)
            || !(alarmTimes.getD i QDateTime.null).isValid
            || ((alarmTimes.getD i QDateTime.null).isValid
                && alarmtimes.getD i QDateTime.null != alarmTimes.getD i QDateTime.null))
    then false
    else eventHandledLoop alarmTimes alarmtimes n (i + 1)

/-- `ADCalendar::eventHandled(event, alarmtimes)`: whether all the alarms of the
event have already been handled. `event` is dereferenced, so it is not null. -/
def eventHandled (mEventsHandled : EventsMap) (this : ADCalendar) (event : Event)
    (alarmtimes : List QDateTime) : Bool :=
  match mEventsHandled.find ⟨event.uid, this.mUrlIndex⟩ with
  | none => false
  | some data => eventHandledLoop data.alarmTimes alarmtimes alarmtimes.length 0

/-- `ADCalendar::setEventHandled(event, alarmtimes)`: remember that the alarms of
the event have been handled. `event` is `none` for a null pointer. Returns the
new `mEventsHandled`. -/
def setEventHandled (mEventsHandled : EventsMap) (this : ADCalendar) (event : Option Event)
    (alarmtimes : List QDateTime) : EventsMap :=
  match event with
  | none => mEventsHandled
  | some ev =>
    let key : EventKey := ⟨ev.uid, this.mUrlIndex⟩
    match mEventsHandled.find key with
    | some _ =>
      mEventsHandled.modify key
        (fun data => { data with alarmTimes := alarmtimes, eventSequence := ev.revision })
    | none => mEventsHandled.insert key ⟨ev.revision, alarmtimes⟩

/-- `ADCalendar::clearEventsHandled(nonexistentOnly)`: the loop over the whole
map, removing the entries of this calendar (with `nonexistentOnly`, only those
whose event the calendar no longer holds). Returns the new `mEventsHandled`. -/
def clearEventsHandled : EventsMap → ADCalendar → Bool → EventsMap
  | [], _, _ => []
  | (k, v) :: rest, this, nonexistentOnly =>
    if k.calendarIndex = this.mUrlIndex
        && (!nonexistentOnly || (this.event k.eventID).isNone)
    then clearEventsHandled rest this nonexistentOnly
    else (k, v) :: clearEventsHandled rest this nonexistentOnly

/-- `ADCalendar::loadLocalFile(filename)`: after a successful load the handled
entries of events that no longer exist are removed. -/
def loadLocalFile (mEventsHandled : EventsMap) (this : ADCalendar) (loadOk : Bool)
    (loadedEvents : List Event) : EventsMap × ADCalendar :=
  let this := { this with mLoaded := loadOk, mEvents := loadedEvents }
  if !this.mLoaded then (mEventsHandled, this)
  else (clearEventsHandled mEventsHandled this true, this)

/-- `ADCalendar::loadFile(reset)`. `clearEventsHandled()` without argument
clears all the entries of the calendar ("Clear all memory of events handled for
the calendar"). The signal `loaded` has no effect on the state. -/
def loadFile (mEventsHandled : EventsMap) (this : ADCalendar) (reset : Bool) (env : LoadEnv) :
    EventsMap × ADCalendar × Bool :=
  let m := if reset then clearEventsHandled mEventsHandled this false else mEventsHandled
  if this.mTempFileName.isSome then (m, this, false)
  else
    let this := { this with mLoaded := false }
    if env.isLocalFile then
      let r := loadLocalFile m this env.loadOk env.loadedEvents
      (r.1, r.2, true)
    else
      (m, { this with mTempFileName := env.tempFileName }, true)

/-- `ADCalendar::slotDownloadJobResult(job)`, `jobError` being `job->error()`. -/
def slotDownloadJobResult (mEventsHandled : EventsMap) (this : ADCalendar) (jobError : Bool)
    (loadOk : Bool) (loadedEvents : List Event) : EventsMap × ADCalendar :=
  let r := if jobError then (mEventsHandled, this)
           else loadLocalFile mEventsHandled this loadOk loadedEvents
  (r.1, { r.2 with mTempFileName := none })

/-- `ADCalendar::setLoadedConnected()`. -/
def setLoadedConnected (this : ADCalendar) : Bool × ADCalendar :=
  if this.mLoadedConnected then (true, this)
  else (false, { this with mLoadedConnected := true })

/-- The loop of `ADCalendar::calendar`. -/
def calendarLoop : List ADCalendar → String → Option ADCalendar
  | [], _ => none
  | c :: rest, calendarURL =>
    if c.mUrlString = calendarURL then some c else calendarLoop rest calendarURL

/-- `ADCalendar::calendar(calendarURL)`: the calendar with this URL, `none` for
the null pointer. -/
def calendar (mCalendars : List ADCalendar) (calendarURL : String) : Option ADCalendar :=
  if !calendarURL.isEmpty then calendarLoop mCalendars calendarURL else none

/-- Qt `QStringList::findIndex(x)` searching from position `i`: the position of
the first element equal to `x`, or -1. -/
def findIndexFrom : List String → String → Nat → Int
  | [], _, _ => -1
  | y :: rest, x, i => if y = x then (i : Int) else findIndexFrom rest x (i + 1)

/-- Qt `QStringList::findIndex(x)`. -/
def findIndex (l : List String) (x : String) : Int :=
  findIndexFrom l x 0

/-- The constructor `ADCalendar::ADCalendar(url, appname)`, building the object
at address `addr`. `none` is the abort of `assert(0)`; with `ndebug` the
assertion is compiled out. Returns the new static members and the object. -/
def ctor (ndebug : Bool) (s : Statics) (addr : Nat) (url appname : String) (env : LoadEnv) :
    Option (Statics × ADCalendar) :=
  if (calendar s.mCalendars url).isSome && !ndebug then none
  else
    let found := findIndex s.mCalendarUrls url
    let mUrlIndex : Int := if found < 0 then (s.mCalendarUrls.length : Int) else found
    let mCalendarUrls := if found < 0 then s.mCalendarUrls ++ [url] else s.mCalendarUrls
    let this : ADCalendar :=
      { addr := addr, mUrlString := url, mAppName := appname, mUrlIndex := mUrlIndex,
        mLoaded := false, mLoadedConnected := false, mUnregistered := false, mEnabled := true,
        mTempFileName := none, mEvents := [] }
    let r := loadFile s.mEventsHandled this false env
    some ({ mCalendars := s.mCalendars ++ [r.2.1], mEventsHandled := r.1,
            mCalendarUrls := mCalendarUrls }, r.2.1)

/-- The destructor `ADCalendar::~ADCalendar()`. -/
def dtor (s : Statics) (this : ADCalendar) : Statics :=
  { s with mEventsHandled := clearEventsHandled s.mEventsHandled this false,
           mCalendars := s.mCalendars.filter (fun c => c.addr != this.addr) }

end ADCalendar

/-- One call into the class from outside. The object a member function is
called on is part of the call. -/
inductive Call where
  | construct (addr : Nat) (url appname : String) (env : LoadEnv)
  | destroy (this : ADCalendar)
  | loadFile (this : ADCalendar) (reset : Bool) (env : LoadEnv)
  | slotDownloadJobResult (this : ADCalendar) (jobError loadOk : Bool)
      (loadedEvents : List Event)
  | setEventHandled (this : ADCalendar) (event : Option Event) (alarmtimes : List QDateTime)
  | clearEventsHandled (this : ADCalendar) (nonexistentOnly : Bool)
deriving Repr

/-- The static members after one call, `none` when the call aborts. -/
def Statics.step (ndebug : Bool) (s : Statics) : Call → Option Statics
  | .construct addr url appname env => (ADCalendar.ctor ndebug s addr url appname env).map Prod.fst
  | .destroy this => some (ADCalendar.dtor s this)
  | .loadFile this reset env =>
    some { s with mEventsHandled := (ADCalendar.loadFile s.mEventsHandled this reset env).1 }
  | .slotDownloadJobResult this jobError loadOk loadedEvents =>
    some { s with mEventsHandled :=
      (ADCalendar.slotDownloadJobResult s.mEventsHandled this jobError loadOk loadedEvents).1 }
  | .setEventHandled this event alarmtimes =>
    some { s with mEventsHandled :=
      ADCalendar.setEventHandled s.mEventsHandled this event alarmtimes }
  | .clearEventsHandled this nonexistentOnly =>
    some { s with mEventsHandled :=
      ADCalendar.clearEventsHandled s.mEventsHandled this nonexistentOnly }

/-- The static members after a sequence of calls. -/
def Statics.run (ndebug : Bool) : Statics → List Call → Option Statics
  | s, [] => some s
  | s, c :: rest =>
    match s.step ndebug c with
    | none => none
    | some s1 => Statics.run ndebug s1 rest

/-- Spec §4.2, operation `isHandled`, position `i` and onwards: "if the timestamp
at `i` is valid AND any of the following holds, return false: `i` is beyond the
length of the stored timestamp list, OR the stored timestamp at `i` is invalid,
OR the stored and supplied timestamps at `i` differ". -/
def isHandledSpecFrom (stored : List QDateTime) : List QDateTime → Nat → Bool
  | [], _ => true
  | t :: rest, i =>
    if t.isValid = true ∧
        (stored.length ≤ i ∨ ∃ s, stored[i]? = some s ∧ (s.isValid = false ∨ s ≠ t))
    then false
    else isHandledSpecFrom stored rest (i + 1)

/-- Spec §4.2, operation `isHandled(eventId, occurrenceTimestamps)`: "Look up
`EventKey(eventId, calendarIndex)`. If absent, return false. Otherwise, for each
position `i` in the supplied timestamp list: ... If no position triggers a "not
handled" result, return true." -/
def isHandledSpec (m : EventsMap) (calendarIndex : Int) (eventId : String)
    (occurrenceTimestamps : List QDateTime) : Bool :=
  match m.find ⟨eventId, calendarIndex⟩ with
  | none => false
  | some entry => isHandledSpecFrom entry.alarmTimes occurrenceTimestamps 0

/-! ## Qt strings -/

/-- A `QString`, shown as the list of its characters. -/
abbrev QString := List Char

/-- Character classes of Qt `QChar`. Qt reads them from the Unicode tables, which
are not part of the program; they are a parameter of every function that
classifies a character. -/
structure QCharClasses where
  isDigit : Char → Bool
  isSpace : Char → Bool
  isLetterOrNumber : Char → Bool
  isMark : Char → Bool

/-- Sample character classes, those of `QChar` on the characters up to U+007F:
the digits `0` to `9`, the spaces U+0009 to U+000D and U+0020, the letters and
digits of ASCII, no mark. The characters above U+007F are left out of every
class, so the sample stands for Qt on ASCII strings only. -/
def asciiClasses : QCharClasses :=
  { isDigit := Char.isDigit,
    isSpace := fun c => c.toNat == 32 || (decide (9 ≤ c.toNat) && decide (c.toNat ≤ 13)),
    isLetterOrNumber := Char.isAlphanum, isMark := fun _ => false }

/-- The classes agree with Unicode on the ASCII digits: each is a digit and
none is a space. -/
def QCharClasses.DigitsOk (q : QCharClasses) : Prop :=
  ∀ c : Char, c.isDigit = true → q.isDigit c = true ∧ q.isSpace c = false

namespace QString

/-- Qt `QString::split(sep, QString::KeepEmptyParts)`. The empty string gives
one empty part. -/
def split (sep : Char) : QString → List QString
  | [] => [[]]
  | c :: rest =>
    if c = sep then [] :: split sep rest
    else
      match split sep rest with
      | [] => [[c]]
      | p :: ps => (c :: p) :: ps

/-- The number written by a list of ASCII digits, most significant first. -/
def decimalValue (ds : QString) : Nat :=
  ds.foldl (fun acc c => acc * 10 + (c.toNat - 48)) 0

/-- Qt `QString::toInt(&ok)` in base 10, `none` when `ok` is set to false (the
call then returns 0). Qt documents: leading and trailing whitespace is ignored,
an optional sign is followed by ASCII digits only, and the value has to fit an
`int`. -/
def toInt (q : QCharClasses) (s : QString) : Option Int :=
  let t := ((s.dropWhile q.isSpace).reverse.dropWhile q.isSpace).reverse
  let body := match t with
    | '-' :: r => r
    | '+' :: r => r
    | r => r
  let v : Int := if t.head? = some '-' then -(decimalValue body : Int) else (decimalValue body : Int)
  if body ≠ [] ∧ body.all Char.isDigit = true ∧ -2147483648 ≤ v ∧ v ≤ 2147483647
  then some v else none

/-- Qt `QString::startsWith(s)`. -/
def startsWith : QString → QString → Bool
  | _, [] => true
  | [], _ :: _ => false
  | c :: cs, d :: ds => c = d && startsWith cs ds

/-- Qt `QString::indexOf(ch)` searching from position `i`: the position of the
first occurrence, or -1. -/
def indexOfFrom (ch : Char) : QString → Nat → Int
  | [], _ => -1
  | c :: rest, i => if c = ch then (i : Int) else indexOfFrom ch rest (i + 1)

/-- Qt `QString::indexOf(ch)`. -/
def indexOf (s : QString) (ch : Char) : Int :=
  indexOfFrom ch s 0

/-- Qt `QString::toLatin1()`, the bytes without the terminating NUL: a
character above U+00FF becomes `?`. -/
def toLatin1 (s : QString) : List Nat :=
  s.map (fun c => if c.toNat ≤ 255 then c.toNat else 63)

end QString

/-- C `strcmp(a, b) == 0` on the NUL terminated strings that start with the
bytes `a` and `b`: the bytes before the first NUL are equal. -/
def strcmpEq (a b : List Nat) : Bool :=
  a.takeWhile (fun x => x != 0) == b.takeWhile (fun x => x != 0)

/-- A C string literal as bytes. -/
def cstr (s : String) : List Nat :=
  s.toList.map Char.toNat

/-- Arithmetic of `int`: the value wrapped into 32 bits (overflow of `int` is
undefined in C++, the usual result is taken). -/
def wrapInt (x : Int) : Int :=
  (x + 2147483648) % 4294967296 - 2147483648

/-! ## functions.cpp: version numbers, mime types, accelerators -/

namespace KAlarm

/-- The loop `for (i = 1; i < n && issue[i].isDigit(); ++i) ;` of
`getVersionNumber`: the final `i`, the first number being `n - i`. -/
def issueDigitsEnd (q : QCharClasses) (issue : QString) : Nat → Nat → Nat
  | 0, i => i
  | k + 1, i => if q.isDigit (issue.getD i ' ') then issueDigitsEnd q issue k (i + 1) else i

/-- `KAlarm::getVersionNumber(version, subVersion)`. `subVersion` tells whether
the pointer is non-null. Returns the version number and, for a non-null
pointer, the string left in `*subVersion`. -/
def getVersionNumber (q : QCharClasses) (version : QString) (subVersion : Bool) :
    Int × Option QString :=
  let sub0 : Option QString := if subVersion then some [] else none
  let nums := QString.split '.' version
  let count := nums.length
  if count < 2 ∨ count > 3 then (0, sub0)
  else
    match QString.toInt q (nums.getD 0 []) with
    | none => (0, sub0)
    | some major =>
      let vernum := wrapInt (major * 10000)
      match QString.toInt q (nums.getD 1 []) with
      | none => (0, sub0)
      | some v =>
        let vernum := wrapInt (vernum + wrapInt ((if v < 99 then v else 99) * 100))
        if count = 3 then
          let issue := nums.getD 2 []
          let n := issue.length
          if n = 0 ∨ q.isDigit (issue.getD 0 ' ') = false then (0, sub0)
          else
            let v := (QString.toInt q issue).getD 0
            let vernum := wrapInt (vernum + (if v < 99 then v else 99))
            (vernum, if subVersion then some (issue.drop (issueDigitsEnd q issue (n - 1) 1))
                     else none)
        else (vernum, sub0)

end KAlarm


namespace KAlarm

/-- `KAlarm::FileType`, the result type of `fileType` (declared in functions.h;
the names are the ones functions.cpp returns). -/
inductive FileType where
  | Unknown
  | TextPlain
  | TextFormatted
  | TextApplication
  | Image
deriving DecidableEq, Repr

/-- The table `applicationTypes` of `fileType`, up to its terminating 0. -/
def applicationTypes : List String :=
  ["x-shellscript", "x-nawk", "x-awk", "x-perl", "x-python", "x-desktop", "x-troff"]

/-- The table `formattedTextTypes` of `fileType`, up to its terminating 0. -/
def formattedTextTypes : List String :=
  ["html", "xml"]

/-- What holds of every character of the two tables: it is Latin-1 and neither
NUL nor `?`. -/
def cleanChar (c : Char) : Bool :=
  decide (c.toNat ≤ 255) && (c.toNat != 63) && (c.toNat != 0)

/-- The loops `for (i = 0; table[i]; ++i) if (!strcmp(typel, table[i]))` of
`fileType`: whether some entry compares equal to `typel`. -/
def matchesTable (typel : List Nat) : List String → Bool
  | [] => false
  | entry :: rest => if strcmpEq typel (cstr entry) then true else matchesTable typel rest

/-- `KAlarm::fileType(mimetype)`. `typel` is taken from the temporary
`QByteArray` that `type.toLatin1()` returns, which is destroyed at the end of
the declaration: every `strcmp` reads memory that has been freed. `freed b` is
what is read at the place of a freed buffer that held the bytes `b`. -/
def fileType (freed : List Nat → List Nat) (mimetype : QString) : FileType :=
  if QString.startsWith mimetype "image/".toList then FileType.Image
  else
    let slash := QString.indexOf mimetype '/'
    if slash < 0 then FileType.Unknown
    else
      let type := mimetype.drop (slash + 1).toNat
      let typel := freed (QString.toLatin1 type)
      if QString.startsWith mimetype "application".toList then
        if matchesTable typel applicationTypes then FileType.TextApplication
        else FileType.Unknown
      else if QString.startsWith mimetype "text".toList then
        if matchesTable typel formattedTextTypes then FileType.TextFormatted
        else FileType.TextPlain
      else FileType.Unknown

/-- The table of mime types as the specification words it, `sub` being the text
after the first `/` compared as a whole. -/
def fileTypeSpec (mimetype : QString) : FileType :=
  if QString.startsWith mimetype "image/".toList then FileType.Image
  else if '/' ∉ mimetype then FileType.Unknown
  else
    let sub := (mimetype.dropWhile (fun c => c != '/')).drop 1
    if QString.startsWith mimetype "application".toList
        ∧ sub ∈ applicationTypes.map String.toList then FileType.TextApplication
    else if QString.startsWith mimetype "text".toList
        ∧ sub ∈ formattedTextTypes.map String.toList then FileType.TextFormatted
    else if QString.startsWith mimetype "text".toList then FileType.TextPlain
    else FileType.Unknown

/-- The `while (len)` loop of `stripAccel` on the buffer `out`. `cin` and `cout`
are the positions of the two pointers in the buffer. The first number bounds
the iterations; `len` of them are always enough, because every iteration
decrements `len`. Returns the buffer and the final `cout`. -/
def stripAccelLoop : Nat → QString → Nat → Nat → Nat → QString × Nat
  | 0, out, _, cout, _ => (out, cout)
  | fuel + 1, out, cin, cout, len =>
    if len = 0 then (out, cout)
    else if out.getD cin ' ' = '&' then
      if len - 1 = 0 then (out, cout)
      else stripAccelLoop fuel (out.set cout (out.getD (cin + 1) ' ')) (cin + 1 + 1) (cout + 1)
            (len - 1 - 1)
    else stripAccelLoop fuel (out.set cout (out.getD cin ' ')) (cin + 1) (cout + 1) (len - 1)

/-- `KAlarm::stripAccel(text)`. -/
def stripAccel (text : QString) : QString :=
  let len := text.length
  let r := stripAccelLoop len text 0 0 len
  let newlen := r.2
  if newlen ≠ r.1.length then r.1.take newlen else r.1

/-- The stripping as the specification words it: each `&` is dropped and the
character that follows it is kept, a lone `&` at the end is dropped, every other
character is kept. -/
def stripAccelSpec : QString → QString
  | [] => []
  | [c] => if c = '&' then [] else [c]
  | c :: d :: rest =>
    if c = '&' then d :: stripAccelSpec rest else c :: stripAccelSpec (d :: rest)

end KAlarm

/-! ## eventid.cpp -/

/-- A `Resource` as far as `EventId` reads it: `id()`. -/
structure Resource where
  id : Int
deriving DecidableEq, Repr

/-- The pair `EventId`: `first` is the resource ID, `second` the event ID. -/
structure EventId where
  first : Int
  second : QString
deriving DecidableEq, Repr

namespace EventId

/-- A word character `\w` of `QRegExp`: a letter, a number, a mark or `_`. -/
def isWordChar (q : QCharClasses) (c : Char) : Bool :=
  q.isLetterOrNumber c || q.isMark c || c = '_'

/-- The search of `rxMatchedLength`: the longest `k + 1` of the candidates, tried
from the longest down, such that a `:` stands at position `k + 1`. -/
def rxBacktrack (s : QString) : Nat → Option Nat
  | 0 => none
  | k + 1 => if s[k + 1]? = some ':' then some (k + 1 + 1) else rxBacktrack s k

/-- A match of the `QRegExp` `^\w+:` at the start of `s`: `matchedLength()` when
`indexIn(s) == 0`, `none` otherwise. `\w+` is greedy: it takes the longest run of
word characters and gives characters back until a `:` follows. -/
def rxMatchedLength (q : QCharClasses) (s : QString) : Option Nat :=
  rxBacktrack s (s.takeWhile (isWordChar q)).length

/-- The constructor `EventId::EventId(resourceEventId)`. The function
`Resources::resourceForConfigName` belongs to another part of the program and
is a parameter. -/
def ctor (q : QCharClasses) (resourceForConfigName : QString → Resource)
    (resourceEventId : QString) : EventId :=
  match rxMatchedLength q resourceEventId with
  | some n =>
    { first := (resourceForConfigName (resourceEventId.take (n - 1))).id,
      second := resourceEventId.drop n }
  | none => { first := -1, second := resourceEventId }

end EventId

/-! ## daemon.h -/

namespace Daemon

/-- `Daemon::Status`, in the order of the declaration. -/
inductive Status where
  | STOPPED
  | RUNNING
  | READY
  | REGISTERED
deriving DecidableEq, Repr

/-- Modelled from the spec: the result codes of kalarmd.h, which is not part of
the sources at hand: "result: Success|Failure". -/
inductive RegisterResult where
  | SUCCESS
  | FAILURE
deriving DecidableEq, Repr

/-- Notifications sent by the daemon link: the signal `registered(bool)` and the
failure message shown to the user. -/
inductive Notification where
  | registered (newStatus : Bool)
  | registerFailMessage
deriving DecidableEq, Repr

/-- The static members of `Daemon` that the registration reads or writes. A
timer is shown by whether it is running; `emitted` lists the notifications sent
so far. -/
structure State where
  mStatus : Status
  mStartTimeout : Int
  mInitialised : Bool
  mRegisterFailMsg : Bool
  registerTimerActive : Bool
  startTimerActive : Bool
  emitted : List Notification
deriving DecidableEq, Repr

/-- `Daemon::isRegistered()`. -/
def isRegistered (s : State) : Bool :=
  s.mStatus = Status.REGISTERED

/-- `Daemon::registerTimerExpired()`. The body of `registrationResult` is in
daemon.cpp; here it is the parameter that receives the call. -/
def registerTimerExpired {α : Type} (registrationResult : Bool → RegisterResult → State → α)
    (s : State) : α :=
  registrationResult (s.mStatus = Status.REGISTERED) RegisterResult.FAILURE s

/-- Modelled from the spec: `Daemon::registrationResult`, whose body is in
daemon.cpp, not part of the sources at hand. "on success, advances status to
Registered, cancels the registration timer, emits a registered(true)
notification. On failure: if this was not a re-registration attempt, decrement
start-retry countdown and, if retries remain, reschedule another checkIfStarted;
if retries are exhausted (or this was a re-registration), set status to Stopped,
emit registered(false), and, unless suppressed, surface a one-time user-visible
failure message (registerFailMsgShown guards against repeating it)."
`suppressed` tells whether the message is suppressed. -/
def registrationResult (suppressed : Bool) (reregister : Bool) (result : RegisterResult)
    (s : State) : State :=
  match result with
  | RegisterResult.SUCCESS =>
    { s with mStatus := Status.REGISTERED, registerTimerActive := false,
             emitted := s.emitted ++ [Notification.registered true] }
  | RegisterResult.FAILURE =>
    if !reregister && s.mStartTimeout - 1 > 0 then
      { s with mStartTimeout := s.mStartTimeout - 1, startTimerActive := true }
    else
      let s1 := { s with mStatus := Status.STOPPED,
                         mStartTimeout := if reregister then s.mStartTimeout
                                          else s.mStartTimeout - 1,
                         emitted := s.emitted ++ [Notification.registered false] }
      if !suppressed && !s1.mRegisterFailMsg then
        { s1 with mRegisterFailMsg := true,
                  emitted := s1.emitted ++ [Notification.registerFailMessage] }
      else s1

end Daemon


/-! ## functions.cpp: the event layer -/

namespace KAlarm

/-- `KAEvent::Status`, the calendar category of an event or of an event ID (the
values that functions.cpp names). -/
inductive KAEventStatus where
  | ACTIVE
  | ARCHIVED
  | TEMPLATE
  | KORGANIZER
  | DISPLAYING
deriving DecidableEq, Repr

/-- A `KAEvent` as far as functions.cpp reads or writes it: `id()`, `valid()`,
`category()`, `copyToKOrganizer()`, `toBeArchived()`, the revision raised by
`incrementRevision()`, the time set by `setSaveDateTime()`. -/
structure KAEvent where
  id : String
  valid : Bool
  category : KAEventStatus
  copyToKOrganizer : Bool
  toBeArchived : Bool
  revision : Int
  saveDateTime : Option QDateTime
deriving DecidableEq, Repr

/-- `KAlarm::UpdateStatus` (declared in functions.h). -/
inductive UpdateStatus where
  | UPDATE_OK
  | UPDATE_KORG_ERR
  | UPDATE_ERROR
  | UPDATE_FAILED
  | SAVE_FAILED
deriving DecidableEq, Repr

/-- `KAlarm::UpdateError` (declared in functions.h). -/
inductive UpdateError where
  | ERR_ADD
  | ERR_MODIFY
  | ERR_DELETE
  | ERR_REACTIVATE
  | ERR_TEMPLATE
deriving DecidableEq, Repr

/-- The calendars that the event layer reaches through `AlarmCalendar`:
`activeCalendar()` and `archiveCalendar()` / `archiveCalendarOpen()`. -/
inductive Cal where
  | active
  | archive
deriving DecidableEq, Repr

/-- A call that leaves functions.cpp, with the ID of the event passed and with
the result that came back. `displayUpdateError` and the two KOrganizer
functions are in functions.cpp; they show a message box or talk to KOrganizer
and call no calendar, so each is one entry. An argument left to its default
in functions.h is `none`. -/
inductive Action where
  | checkCalendarDaemon (result : Bool)
  | archiveCalendarOpen (result : Bool)
  | calAddEvent (cal : Cal) (id : String) (result : Bool)
  | calUpdateEvent (cal : Cal) (id : String)
  | calDeleteEvent (cal : Cal) (id : String) (result : Bool)
  | calSave (cal : Cal) (result : Bool)
  | sendToKOrganizer (id : String) (result : Bool)
  | deleteFromKOrganizer (id : String) (result : Bool)
  | listViewAddEvent (id : String) (selectionView : Bool)
  | listViewModifyEvent (id : String) (selectionView : Bool)
  | listViewDeleteEvent (id : String)
  | listViewUndeleteEvent (oldEventID : String) (id : String)
  | listViewSelect (id : String)
  | displayUpdateError (status : UpdateStatus) (code : UpdateError) (nAlarms : Int)
      (nKOrgAlarms : Option Int) (showKOrgError : Option Bool)
deriving DecidableEq, Repr

/-- A call that changes a calendar: `addEvent`, `updateEvent`, `deleteEvent`
or `save` of an `AlarmCalendar`. -/
def Action.isCalendarMutation : Action → Bool
  | Action.calAddEvent _ _ _ => true
  | Action.calUpdateEvent _ _ => true
  | Action.calDeleteEvent _ _ _ => true
  | Action.calSave _ _ => true
  | _ => false

/-- Everything outside functions.cpp, with a state `σ` of its own: each call
returns its result and the new state. `calAddEvent` also returns the event as
the calendar left it (it is passed by reference); `calAddEventKCal` is the
overload that returns a `KCal::Event*`, `none` for null; `gui` is the effect
of a list view call or a message box; `uidStatus` is `KAEvent::uidStatus`. -/
structure World (σ : Type) where
  checkCalendarDaemon : σ → Bool × σ
  archiveCalendarOpen : σ → Bool × σ
  calAddEvent : Cal → KAEvent → Bool → σ → (Bool × KAEvent) × σ
  calAddEventKCal : Cal → KAEvent → σ → (Option KAEvent × KAEvent) × σ
  calUpdateEvent : Cal → KAEvent → σ → σ
  calDeleteEvent : Cal → String → Bool → σ → Bool × σ
  calSave : Cal → σ → Bool × σ
  sendToKOrganizer : KAEvent → σ → Bool × σ
  deleteFromKOrganizer : String → σ → Bool × σ
  currentDateTime : σ → QDateTime × σ
  gui : Action → σ → σ
  uidStatus : String → KAEventStatus

/-- What a function of the event layer leaves: its result, the state of the
world and the calls it made, in order. -/
structure Outcome (σ : Type) (α : Type) where
  value : α
  world : σ
  trace : List Action

/-- The tail of the four functions: `if (status != UPDATE_OK && errmsgParent)
displayUpdateError(...)`. -/
def reportError {σ : Type} (W : World σ) (s : σ) (status : UpdateStatus) (errmsgParent : Bool)
    (code : UpdateError) (nAlarms : Int) (nKOrgAlarms : Option Int)
    (showKOrgErr : Option Bool) : σ × List Action :=
  if status ≠ UpdateStatus.UPDATE_OK ∧ errmsgParent = true then
    (W.gui (Action.displayUpdateError status code nAlarms nKOrgAlarms showKOrgErr) s,
     [Action.displayUpdateError status code nAlarms nKOrgAlarms showKOrgErr])
  else (s, [])

/-- `KAlarm::addEvent(event, selectionView, useEventID, allowKOrgUpdate,
errmsgParent, showKOrgErr)`. A pointer argument is shown by whether it is
non-null. Returns the status and the event as updated. -/
def addEvent {σ : Type} (W : World σ) (s : σ) (event : KAEvent) (selectionView : Bool)
    (useEventID allowKOrgUpdate : Bool) (errmsgParent : Bool) (showKOrgErr : Bool) :
    Outcome σ (UpdateStatus × KAEvent) :=
  let c := W.checkCalendarDaemon s
  let r1 : Outcome σ (UpdateStatus × KAEvent) :=
    if !c.1 then ⟨(UpdateStatus.UPDATE_FAILED, event), c.2, []⟩
    else
      let a := W.calAddEvent Cal.active event useEventID c.2
      if !a.1.1 then
        ⟨(UpdateStatus.UPDATE_FAILED, a.1.2), a.2, [Action.calAddEvent Cal.active event.id a.1.1]⟩
      else
        let sv := W.calSave Cal.active a.2
        ⟨(if !sv.1 then UpdateStatus.SAVE_FAILED else UpdateStatus.UPDATE_OK, a.1.2), sv.2,
          [Action.calAddEvent Cal.active event.id a.1.1, Action.calSave Cal.active sv.1]⟩
  let ev := r1.value.2
  let r2 : Outcome σ UpdateStatus :=
    if r1.value.1 = UpdateStatus.UPDATE_OK then
      let k : Outcome σ UpdateStatus :=
        if allowKOrgUpdate && ev.copyToKOrganizer then
          let sk := W.sendToKOrganizer ev r1.world
          ⟨if !sk.1 then UpdateStatus.UPDATE_KORG_ERR else r1.value.1, sk.2,
            [Action.sendToKOrganizer ev.id sk.1]⟩
        else ⟨r1.value.1, r1.world, []⟩
      ⟨k.value, W.gui (Action.listViewAddEvent ev.id selectionView) k.world,
        k.trace ++ [Action.listViewAddEvent ev.id selectionView]⟩
    else ⟨r1.value.1, r1.world, []⟩
  let e := reportError W r2.world r2.value errmsgParent UpdateError.ERR_ADD 1 (some 1)
    (some showKOrgErr)
  ⟨(r2.value, ev), e.1, Action.checkCalendarDaemon c.1 :: (r1.trace ++ r2.trace ++ e.2)⟩

end KAlarm


namespace KAlarm

/-- The variables that the loop of `addEvents` updates; `events` holds the
events already gone through, as the calendar left them. -/
structure AddEventsVars where
  status : UpdateStatus
  warnErr : Int
  warnKOrg : Int
  selectID : String
  events : List KAEvent
deriving DecidableEq, Repr

/-- The `for` loop of `addEvents` over the events that remain. -/
def addEventsLoop {σ : Type} (W : World σ) (allowKOrgUpdate : Bool) :
    List KAEvent → AddEventsVars → σ → Outcome σ AddEventsVars
  | [], v, s => ⟨v, s, []⟩
  | event :: rest, v, s =>
    let a := W.calAddEvent Cal.active event false s
    let ev := a.1.2
    if !a.1.1 then
      let r := addEventsLoop W allowKOrgUpdate rest
        { v with status := UpdateStatus.UPDATE_ERROR, warnErr := v.warnErr + 1,
                 events := v.events ++ [ev] } a.2
      ⟨r.value, r.world, Action.calAddEvent Cal.active event.id a.1.1 :: r.trace⟩
    else
      let k : Outcome σ AddEventsVars :=
        if allowKOrgUpdate && ev.copyToKOrganizer then
          let sk := W.sendToKOrganizer ev a.2
          if !sk.1 then
            ⟨{ v with warnKOrg := v.warnKOrg + 1,
                      status := if v.status = UpdateStatus.UPDATE_OK
                                then UpdateStatus.UPDATE_KORG_ERR else v.status },
              sk.2, [Action.sendToKOrganizer ev.id sk.1]⟩
          else ⟨v, sk.2, [Action.sendToKOrganizer ev.id sk.1]⟩
        else ⟨v, a.2, []⟩
      let r := addEventsLoop W allowKOrgUpdate rest
        { k.value with selectID := ev.id, events := k.value.events ++ [ev] }
        (W.gui (Action.listViewAddEvent ev.id false) k.world)
      ⟨r.value, r.world,
        Action.calAddEvent Cal.active event.id a.1.1
          :: (k.trace ++ Action.listViewAddEvent ev.id false :: r.trace)⟩

/-- `KAlarm::addEvents(events, selectionView, allowKOrgUpdate, errmsgParent,
showKOrgErr)`. Returns the status and the events as updated. -/
def addEvents {σ : Type} (W : World σ) (s : σ) (events : List KAEvent) (selectionView : Bool)
    (allowKOrgUpdate : Bool) (errmsgParent : Bool) (showKOrgErr : Bool) :
    Outcome σ (UpdateStatus × List KAEvent) :=
  if events.isEmpty then ⟨(UpdateStatus.UPDATE_OK, events), s, []⟩
  else
    let c := W.checkCalendarDaemon s
    let count : Int := events.length
    let r : Outcome σ AddEventsVars :=
      if !c.1 then ⟨⟨UpdateStatus.UPDATE_FAILED, 0, 0, "", events⟩, c.2, []⟩
      else
        let l := addEventsLoop W allowKOrgUpdate events ⟨UpdateStatus.UPDATE_OK, 0, 0, "", []⟩ c.2
        if l.value.warnErr = count then
          ⟨{ l.value with status := UpdateStatus.UPDATE_FAILED }, l.world, l.trace⟩
        else
          let sv := W.calSave Cal.active l.world
          if !sv.1 then
            ⟨{ l.value with status := UpdateStatus.SAVE_FAILED, warnErr := 0 }, sv.2,
              l.trace ++ [Action.calSave Cal.active sv.1]⟩
          else if selectionView && !l.value.selectID.isEmpty then
            ⟨l.value, W.gui (Action.listViewSelect l.value.selectID) sv.2,
              l.trace ++ [Action.calSave Cal.active sv.1, Action.listViewSelect l.value.selectID]⟩
          else ⟨l.value, sv.2, l.trace ++ [Action.calSave Cal.active sv.1]⟩
    let e := reportError W r.world r.value.status errmsgParent UpdateError.ERR_ADD
      (if r.value.warnErr ≠ 0 then r.value.warnErr else count) (some r.value.warnKOrg)
      (some showKOrgErr)
    ⟨(r.value.status, r.value.events), e.1, Action.checkCalendarDaemon c.1 :: (r.trace ++ e.2)⟩

/-- `KAlarm::addArchivedEvent(event)`. Returns the result and the event as
updated. -/
def addArchivedEvent {σ : Type} (W : World σ) (s : σ) (event : KAEvent) :
    Outcome σ (Bool × KAEvent) :=
  let o := W.archiveCalendarOpen s
  if !o.1 then ⟨(false, event), o.2, [Action.archiveCalendarOpen o.1]⟩
  else
    let oldEvent := event
    let archiving : Bool := event.category = KAEventStatus.ACTIVE
    let now := W.currentDateTime o.2
    let ev1 := if archiving then { event with saveDateTime := some now.1 } else event
    let s1 := if archiving then now.2 else o.2
    let a := W.calAddEventKCal Cal.archive ev1 s1
    let t1 := [Action.archiveCalendarOpen o.1, Action.calAddEvent Cal.archive ev1.id a.1.1.isSome]
    match a.1.1 with
    | none => ⟨(false, oldEvent), a.2, t1⟩
    | some kcalEvent =>
      let sv := W.calSave Cal.archive a.2
      if !sv.1 then ⟨(false, a.1.2), sv.2, t1 ++ [Action.calSave Cal.archive sv.1]⟩
      else if !archiving then
        ⟨(true, a.1.2), W.gui (Action.listViewAddEvent a.1.2.id false) sv.2,
          t1 ++ [Action.calSave Cal.archive sv.1, Action.listViewAddEvent a.1.2.id false]⟩
      else
        ⟨(true, a.1.2), W.gui (Action.listViewModifyEvent kcalEvent.id false) sv.2,
          t1 ++ [Action.calSave Cal.archive sv.1, Action.listViewModifyEvent kcalEvent.id false]⟩

end KAlarm


namespace KAlarm

/-- The variables that the loop of `deleteEvents` updates; `events` holds the
events already gone through. -/
structure DeleteEventsVars where
  status : UpdateStatus
  warnActiveErr : Int
  warnArchivedErr : Int
  warnKOrg : Int
  archivedCount : Int
  saveActive : Bool
  saveArchived : Bool
  events : List KAEvent
deriving DecidableEq, Repr

/-- The end of one turn of the loop of `deleteEvents`: `cal->deleteEvent(id,
false)` and the count of a failure. -/
def deleteFromCal {σ : Type} (W : World σ) (cal : Cal) (id : String) (v : DeleteEventsVars)
    (s : σ) : Outcome σ DeleteEventsVars :=
  let d := W.calDeleteEvent cal id false s
  if !d.1 then
    ⟨if cal = Cal.active
      then { v with status := UpdateStatus.UPDATE_ERROR, warnActiveErr := v.warnActiveErr + 1 }
      else { v with status := UpdateStatus.UPDATE_ERROR,
                    warnArchivedErr := v.warnArchivedErr + 1 },
      d.2, [Action.calDeleteEvent cal id d.1]⟩
  else ⟨v, d.2, [Action.calDeleteEvent cal id d.1]⟩

/-- The `for` loop of `deleteEvents` over the events that remain. -/
def deleteEventsLoop {σ : Type} (W : World σ) (archive : Bool) :
    List KAEvent → DeleteEventsVars → σ → Outcome σ DeleteEventsVars
  | [], v, s => ⟨v, s, []⟩
  | event :: rest, v, s =>
    let id := event.id
    let s0 := W.gui (Action.listViewDeleteEvent id) s
    if W.uidStatus id = KAEventStatus.ARCHIVED then
      let o := W.archiveCalendarOpen s0
      if !o.1 then
        let r := deleteEventsLoop W archive rest
          { v with archivedCount := v.archivedCount + 1, status := UpdateStatus.UPDATE_ERROR,
                   warnArchivedErr := v.warnArchivedErr + 1, events := v.events ++ [event] } o.2
        ⟨r.value, r.world,
          Action.listViewDeleteEvent id :: Action.archiveCalendarOpen o.1 :: r.trace⟩
      else
        let d := deleteFromCal W Cal.archive id
          { v with archivedCount := v.archivedCount + 1, saveArchived := true,
                   events := v.events ++ [event] } o.2
        let r := deleteEventsLoop W archive rest d.value d.world
        ⟨r.value, r.world,
          Action.listViewDeleteEvent id :: Action.archiveCalendarOpen o.1
            :: (d.trace ++ r.trace)⟩
    else
      let k : Outcome σ DeleteEventsVars :=
        if event.copyToKOrganizer then
          let dk := W.deleteFromKOrganizer event.id s0
          if !dk.1 then
            ⟨{ v with warnKOrg := v.warnKOrg + 1,
                      status := if v.status = UpdateStatus.UPDATE_OK
                                then UpdateStatus.UPDATE_KORG_ERR else v.status },
              dk.2, [Action.deleteFromKOrganizer event.id dk.1]⟩
          else ⟨v, dk.2, [Action.deleteFromKOrganizer event.id dk.1]⟩
        else ⟨v, s0, []⟩
      let ar : Outcome σ KAEvent :=
        if archive && event.toBeArchived then
          let x := addArchivedEvent W k.world event
          ⟨x.value.2, x.world, x.trace⟩
        else ⟨event, k.world, []⟩
      let d := deleteFromCal W Cal.active id
        { k.value with saveActive := true, events := k.value.events ++ [ar.value] } ar.world
      let r := deleteEventsLoop W archive rest d.value d.world
      ⟨r.value, r.world,
        Action.listViewDeleteEvent id :: (k.trace ++ ar.trace ++ d.trace ++ r.trace)⟩

/-- `KAlarm::deleteEvents(events, archive, errmsgParent, showKOrgErr)`. Returns
the status and the events as updated. -/
def deleteEvents {σ : Type} (W : World σ) (s : σ) (events : List KAEvent) (archive : Bool)
    (errmsgParent : Bool) (showKOrgErr : Option Bool) :
    Outcome σ (UpdateStatus × List KAEvent) :=
  if events.isEmpty then ⟨(UpdateStatus.UPDATE_OK, events), s, []⟩
  else
    let count : Int := events.length
    let l := deleteEventsLoop W archive events
      ⟨UpdateStatus.UPDATE_OK, 0, 0, 0, 0, false, false, []⟩ s
    let v := l.value
    let r : Outcome σ (UpdateStatus × Int) :=
      if v.warnActiveErr + v.warnArchivedErr = count then
        ⟨(UpdateStatus.UPDATE_FAILED, v.warnActiveErr + v.warnArchivedErr), l.world, []⟩
      else
        let sa : Outcome σ Int :=
          if v.saveActive then
            let sv := W.calSave Cal.active l.world
            ⟨if !sv.1 then count - v.archivedCount else v.warnActiveErr, sv.2,
              [Action.calSave Cal.active sv.1]⟩
          else ⟨v.warnActiveErr, l.world, []⟩
        let sb : Outcome σ Int :=
          if v.saveArchived then
            let sv := W.calSave Cal.archive sa.world
            ⟨if !sv.1 then v.archivedCount else v.warnArchivedErr, sv.2,
              [Action.calSave Cal.archive sv.1]⟩
          else ⟨v.warnArchivedErr, sa.world, []⟩
        ⟨(if sa.value + sb.value = count then UpdateStatus.UPDATE_FAILED else v.status,
          sa.value + sb.value), sb.world, sa.trace ++ sb.trace⟩
    let e := reportError W r.world r.value.1 errmsgParent UpdateError.ERR_DELETE r.value.2
      (some v.warnKOrg) showKOrgErr
    ⟨(r.value.1, v.events), e.1, l.trace ++ r.trace ++ e.2⟩

/-- `KAlarm::deleteEvent(event, archive, errmsgParent, showKOrgErr)`: the event
is copied into a list of one. -/
def deleteEvent {σ : Type} (W : World σ) (s : σ) (event : KAEvent) (archive : Bool)
    (errmsgParent : Bool) (showKOrgErr : Option Bool) : Outcome σ UpdateStatus :=
  let r := deleteEvents W s [event] archive errmsgParent showKOrgErr
  ⟨r.value.1, r.world, r.trace⟩

/-- `KAlarm::updateEvent(event, selectionView, archiveOnDelete, incRevision,
errmsgParent)`. The call `deleteEvent(event, archiveOnDelete)` leaves the
message parent to its default in functions.h, a null pointer. Returns the
status and the event as updated. -/
def updateEvent {σ : Type} (W : World σ) (s : σ) (event : KAEvent) (selectionView : Bool)
    (archiveOnDelete incRevision : Bool) (errmsgParent : Bool) :
    Outcome σ (UpdateStatus × KAEvent) :=
  if !event.valid then
    let d := deleteEvent W s event archiveOnDelete false none
    ⟨(UpdateStatus.UPDATE_OK, event), d.world, d.trace⟩
  else
    let ev := if incRevision then { event with revision := event.revision + 1 } else event
    let s1 := W.calUpdateEvent Cal.active ev s
    let sv := W.calSave Cal.active s1
    if !sv.1 then
      let e : σ × List Action :=
        if errmsgParent then
          (W.gui (Action.displayUpdateError UpdateStatus.SAVE_FAILED UpdateError.ERR_ADD 1
              none none) sv.2,
           [Action.displayUpdateError UpdateStatus.SAVE_FAILED UpdateError.ERR_ADD 1 none none])
        else (sv.2, [])
      ⟨(UpdateStatus.SAVE_FAILED, ev), e.1,
        [Action.calUpdateEvent Cal.active ev.id, Action.calSave Cal.active sv.1] ++ e.2⟩
    else
      ⟨(UpdateStatus.UPDATE_OK, ev), W.gui (Action.listViewModifyEvent ev.id selectionView) sv.2,
        [Action.calUpdateEvent Cal.active ev.id, Action.calSave Cal.active sv.1,
         Action.listViewModifyEvent ev.id selectionView]⟩

/-- Whether every calendar mutation of a trace comes after a call of
`checkCalendarDaemon` that returned true; `seen` tells whether such a call has
already been made. -/
def gatedByDaemonCheck : Bool → List Action → Bool
  | _, [] => true
  | seen, a :: rest =>
    if a.isCalendarMutation then seen && gatedByDaemonCheck seen rest
    else gatedByDaemonCheck (seen || a == Action.checkCalendarDaemon true) rest

end KAlarm


namespace KAlarm

/-- A call of `theApp()->checkCalendarDaemon()`, whatever it returned. -/
def Action.isDaemonCheck : Action → Bool
  | Action.checkCalendarDaemon _ => true
  | _ => false

end KAlarm


/-! ## akonadiresource.cpp: the queue of item modifications -/

namespace Akonadi

/-- An `Akonadi::Item` as far as the queue reads it: its ID, its revision, and
a number standing for the rest of its content. -/
structure Item where
  id : Int
  revision : Int
  payload : Nat
deriving DecidableEq, Repr

/-- The default constructed `Item()`, which has an invalid ID. -/
def Item.null : Item := ⟨-1, -1, 0⟩

/-- Akonadi `Item::isValid()`: the ID is not negative. -/
def Item.isValid (item : Item) : Bool :=
  decide (0 ≤ item.id)

/-- The class of a job, what `metaObject()->className()` tells. -/
inductive JobClass where
  | ItemCreateJob
  | ItemModifyJob
  | ItemDeleteJob
deriving DecidableEq, Repr

/-- A `KJob*` shown with the job it points to: its address, its class and the
item it was made for. The address is the key in `mPendingItemJobs`. -/
structure KJob where
  addr : Nat
  jobClass : JobClass
  item : Item
deriving DecidableEq, Repr

end Akonadi

/-- The members of `AkonadiResource` that the job queue uses. A `QHash` is the
list of its entries. -/
structure AkonadiResource where
  mItemModifyJobQueue : List (Int × Akonadi.Item)
  mPendingItemJobs : List (Akonadi.KJob × Int)
  mItemsBeingCreated : List Int
deriving DecidableEq, Repr

namespace AkonadiResource

open Akonadi

/-- Qt `QHash::find(key)` on `mItemModifyJobQueue`, `none` for `end()`. -/
def queueFind : List (Int × Item) → Int → Option Item
  | [], _ => none
  | (k, v) :: rest, key => if k = key then some v else queueFind rest key

/-- Qt `hash[key] = value` on `mItemModifyJobQueue`, also the assignment
`it.value() = value` through the iterator of `key`. -/
def queueSet : List (Int × Item) → Int → Item → List (Int × Item)
  | [], key, value => [(key, value)]
  | (k, v) :: rest, key, value =>
    if k = key then (k, value) :: rest else (k, v) :: queueSet rest key value

/-- Qt `QHash::erase(it)` on `mItemModifyJobQueue`, `it` being the iterator of
`key`. -/
def queueErase (q : List (Int × Item)) (key : Int) : List (Int × Item) :=
  q.filter (fun p => p.1 ≠ key)

/-- Qt `QHash::find(j)` on `mPendingItemJobs`. -/
def pendingFind : List (KJob × Int) → KJob → Option Int
  | [], _ => none
  | (k, v) :: rest, j => if k.addr = j.addr then some v else pendingFind rest j

/-- Qt `mPendingItemJobs[job] = id`. -/
def pendingSet : List (KJob × Int) → KJob → Int → List (KJob × Int)
  | [], job, id => [(job, id)]
  | (k, v) :: rest, job, id =>
    if k.addr = job.addr then (job, id) :: rest else (k, v) :: pendingSet rest job id

/-- Qt `QHash::erase(it)` on `mPendingItemJobs`, `it` being the iterator of
`j`. -/
def pendingErase (p : List (KJob × Int)) (j : KJob) : List (KJob × Int) :=
  p.filter (fun e => e.1.addr ≠ j.addr)

/-- `AkonadiResource::queueItemModifyJob(item)`. `newJob` is the address that
`new ItemModifyJob` returns; `refresh` is `some` of the revision of the
up-to-date item when `AkonadiModel::instance()->refresh(current)` succeeds. -/
def queueItemModifyJob (this : AkonadiResource) (item : Item) (newJob : Nat)
    (refresh : Option Int) : AkonadiResource :=
  match queueFind this.mItemModifyJobQueue item.id with
  | some _ =>
    { this with mItemModifyJobQueue := queueSet this.mItemModifyJobQueue item.id item }
  | none =>
    if this.mItemsBeingCreated.contains item.id then
      { this with mItemModifyJobQueue := queueSet this.mItemModifyJobQueue item.id item }
    else
      let newItem : Item := match refresh with
        | some revision => { item with revision := revision }
        | none => item
      let job : KJob := ⟨newJob, JobClass.ItemModifyJob, newItem⟩
      { this with
        mItemModifyJobQueue := queueSet this.mItemModifyJobQueue item.id Item.null,
        mPendingItemJobs := pendingSet this.mPendingItemJobs job item.id }

/-- `AkonadiResource::checkQueuedItemModifyJob(item)`. `newJob` is the address
that `new ItemModifyJob` returns if a job is made. -/
def checkQueuedItemModifyJob (this : AkonadiResource) (item : Item) (newJob : Nat) :
    AkonadiResource :=
  if this.mItemsBeingCreated.contains item.id then this
  else
    match queueFind this.mItemModifyJobQueue item.id with
    | none => this
    | some qitem =>
      if !qitem.isValid then
        { this with mItemModifyJobQueue := queueErase this.mItemModifyJobQueue item.id }
      else
        let qitem1 : Item := { qitem with revision := item.revision }
        let job : KJob := ⟨newJob, JobClass.ItemModifyJob, qitem1⟩
        { this with
          mItemModifyJobQueue := queueSet this.mItemModifyJobQueue item.id Item.null,
          mPendingItemJobs := pendingSet this.mPendingItemJobs job qitem1.id }

/-- `AkonadiResource::notifyItemChanged(res, item, created)` on the resource
that `res` holds. -/
def notifyItemChanged (this : AkonadiResource) (item : Item) (created : Bool) (newJob : Nat) :
    AkonadiResource :=
  let i := this.mItemsBeingCreated.count item.id
  let akres := { this with mItemsBeingCreated := this.mItemsBeingCreated.filter (· ≠ item.id) }
  if !created || i ≠ 0 then checkQueuedItemModifyJob akres item newJob else akres

/-- `AkonadiResource::itemJobDone(j)`. `error` is `j->error()`, `current` the
item that `AkonadiModel::instance()->itemById(itemId)` returns, `createdId` the
ID of the item of a finished `ItemCreateJob`. The message sent on an error does
not touch the members. -/
def itemJobDone (this : AkonadiResource) (j : KJob) (error : Bool) (current : Item)
    (createdId : Int) (newJob : Nat) : AkonadiResource :=
  let found := pendingFind this.mPendingItemJobs j
  let itemId : Int := found.getD (-1)
  let this1 := if found.isSome
    then { this with mPendingItemJobs := pendingErase this.mPendingItemJobs j } else this
  if error then
    if 0 ≤ itemId ∧ j.jobClass = JobClass.ItemModifyJob then
      checkQueuedItemModifyJob this1 current newJob
    else this1
  else if j.jobClass = JobClass.ItemCreateJob then
    { this1 with mItemsBeingCreated := this1.mItemsBeingCreated ++ [createdId] }
  else this1

/-- A call from outside into the job queue. -/
inductive QueueCall where
  | queueItemModifyJob (item : Item) (newJob : Nat) (refresh : Option Int)
  | itemJobDone (j : KJob) (error : Bool) (current : Item) (createdId : Int) (newJob : Nat)
  | notifyItemChanged (item : Item) (created : Bool) (newJob : Nat)
deriving DecidableEq, Repr

/-- The resource after one call. -/
def step (this : AkonadiResource) : QueueCall → AkonadiResource
  | QueueCall.queueItemModifyJob item newJob refresh =>
    queueItemModifyJob this item newJob refresh
  | QueueCall.itemJobDone j error current createdId newJob =>
    itemJobDone this j error current createdId newJob
  | QueueCall.notifyItemChanged item created newJob => notifyItemChanged this item created newJob

/-- The resource after a sequence of calls. -/
def run : AkonadiResource → List QueueCall → AkonadiResource
  | this, [] => this
  | this, c :: rest => run (step this c) rest

/-- The number of `ItemModifyJob`s that `mPendingItemJobs` holds for an item
ID. -/
def pendingModifyJobs (this : AkonadiResource) (id : Int) : Nat :=
  (this.mPendingItemJobs.filter
    (fun e => e.1.jobClass = JobClass.ItemModifyJob ∧ e.2 = id)).length

/-- A resource with no job queued or pending and no item being created. -/
def empty : AkonadiResource := ⟨[], [], []⟩

end AkonadiResource


namespace AkonadiResource

open Akonadi

/-- A call that comes in the order the queue relies on: a job that is done is
one that is pending, with `current` the item of the ID it is pending for; a
change of an item is notified only when no `ItemModifyJob` of the item is
pending. `queueItemModifyJob` may come at any time. -/
def CallInOrder (this : AkonadiResource) : QueueCall → Prop
  | QueueCall.queueItemModifyJob _ _ _ => True
  | QueueCall.itemJobDone j _ current _ _ =>
    ∃ id, pendingFind this.mPendingItemJobs j = some id ∧ (j, id) ∈ this.mPendingItemJobs
      ∧ current.id = id
  | QueueCall.notifyItemChanged item _ _ => pendingModifyJobs this item.id = 0

/-- Every call of a sequence comes in order, in the state it meets. -/
def CallsInOrder : AkonadiResource → List QueueCall → Prop
  | _, [] => True
  | this, c :: rest => CallInOrder this c ∧ CallsInOrder (step this c) rest

/-- What the queue keeps true between calls that come in order: at most one
`ItemModifyJob` is pending per item ID, an item with a pending `ItemModifyJob`
has an entry in `mItemModifyJobQueue`, and a valid item in the queue stands
under its own ID. -/
def QueueInv (this : AkonadiResource) : Prop :=
  (∀ id, pendingModifyJobs this id ≤ 1)
  ∧ (∀ id, 0 < pendingModifyJobs this id →
      (queueFind this.mItemModifyJobQueue id).isSome = true)
  ∧ (∀ id v, queueFind this.mItemModifyJobQueue id = some v → v.isValid = true → v.id = id)

end AkonadiResource


namespace AkonadiResource

open Akonadi

/-- The calls `queueItemModifyJob(item)` for a list of items, in order; with
each item come the address that `new ItemModifyJob` would return and the answer
of `refresh`, both used only if the call starts a job. -/
def queueCalls (items : List (Item × Nat × Option Int)) : List QueueCall :=
  items.map (fun c => QueueCall.queueItemModifyJob c.1 c.2.1 c.2.2)

/-- The resource after `queueItemModifyJob` has been called for each item of a
list. -/
def requeue (this : AkonadiResource) (items : List (Item × Nat × Option Int)) :
    AkonadiResource :=
  run this (queueCalls items)

end AkonadiResource



/-! ## alarmlistview.cpp: the context menu of the header -/

/-- A `QAction` of the header's context menu as far as alarmlistview.cpp reads
or writes it: `data().toInt()`, `isChecked()`, `isEnabled()`. -/
structure QAction where
  data : Int
  checked : Bool
  enabled : Bool
deriving DecidableEq, Repr

/-- Qt `QHeaderView` as far as alarmlistview.cpp reads or writes it: the hidden
flag of each section, by logical index. -/
structure QHeaderView where
  hidden : List Bool
deriving DecidableEq, Repr

namespace QHeaderView

/-- Qt `QHeaderView::count()`. -/
def count (h : QHeaderView) : Int :=
  h.hidden.length

/-- Qt `QHeaderView::isSectionHidden(logicalIndex)`; `false` for an index out
of range. -/
def isSectionHidden (h : QHeaderView) (logicalIndex : Int) : Bool :=
  if logicalIndex < 0 ∨ logicalIndex ≥ h.count then false
  else h.hidden.getD logicalIndex.toNat false

/-- Qt `QHeaderView::setSectionHidden(logicalIndex, hide)`; no effect for an
index out of range. -/
def setSectionHidden (h : QHeaderView) (logicalIndex : Int) (hide : Bool) : QHeaderView :=
  if logicalIndex < 0 ∨ logicalIndex ≥ h.count then h
  else ⟨h.hidden.set logicalIndex.toNat hide⟩

end QHeaderView

/-- The column numbers of `AlarmListModel` that alarmlistview.cpp names in the
header's context menu. -/
structure AlarmListModel where
  TimeColumn : Int
  TimeToColumn : Int
  TextColumn : Int
deriving DecidableEq, Repr

namespace AlarmListView

/-- The loop of `enableTimeColumns` over the actions of the menu: the first
action whose `data().toInt()` is `column` is disabled, and the loop ends. -/
def disableFirst (column : Int) : List QAction → List QAction
  | [] => []
  | act :: rest =>
    if act.data = column then { act with enabled := false } :: rest
    else act :: disableFirst column rest

/-- `AlarmListView::enableTimeColumns(menu)`, on the header of the view and the
actions of the menu. -/
def enableTimeColumns (M : AlarmListModel) (header : QHeaderView) (menu : List QAction) :
    QHeaderView × List QAction :=
  let timeShown := !header.isSectionHidden M.TimeColumn
  let timeToShown := !header.isSectionHidden M.TimeToColumn
  if !timeToShown then
    (header.setSectionHidden M.TimeColumn false, disableFirst M.TimeColumn menu)
  else if !timeShown then
    (header.setSectionHidden M.TimeToColumn false, disableFirst M.TimeToColumn menu)
  else (header, menu)

/-- `AlarmListView::showHideColumn(menu, act)`. Returns the header, the actions
of the menu and whether `columnsVisibleChanged()` was emitted. -/
def showHideColumn (M : AlarmListModel) (header : QHeaderView) (menu : List QAction)
    (act : QAction) : QHeaderView × List QAction × Bool :=
  let col := act.data
  if col < 0 ∨ col ≥ header.count then (header, menu, false)
  else
    let show1 := act.checked
    let header1 := header.setSectionHidden col (!show1)
    if col = M.TimeColumn ∨ col = M.TimeToColumn then
      let r := enableTimeColumns M header1 menu
      (r.1, r.2, true)
    else (header1, menu, true)

/-- The loop of `headerContextMenuRequested` over the columns `col`,
`col + 1`, ... below `count`: a column with a title gets a checkable action.
`titleEmpty col` tells whether the title that the model gives for the column
is empty. -/
def addColumnActions (M : AlarmListModel) (header : QHeaderView) (titleEmpty : Int → Bool) :
    Nat → Int → List QAction → List QAction
  | 0, _, menu => menu
  | fuel + 1, col, menu =>
    if col < header.count then
      if !titleEmpty col then
        let act : QAction :=
          { data := col, checked := !header.isSectionHidden col,
            enabled := if col = M.TextColumn then false else true }
        addColumnActions M header titleEmpty fuel (col + 1) (menu ++ [act])
      else addColumnActions M header titleEmpty fuel (col + 1) menu
    else menu

/-- `AlarmListView::headerContextMenuRequested(pt)` up to the call of
`menu.exec`: the header and the actions of the menu that is shown. -/
def headerContextMenuRequested (M : AlarmListModel) (header : QHeaderView)
    (titleEmpty : Int → Bool) : QHeaderView × List QAction :=
  enableTimeColumns M header
    (addColumnActions M header titleEmpty header.hidden.length 0 [])

end AlarmListView



/-! ## functions.cpp: reactivating archived alarms -/

namespace KAlarm

/-- The member functions of `KAEvent` that `reactivateEvents` calls and that
are defined outside functions.cpp: `occursAfter(dt, includeRepetitions)`,
`recurs()`, `setNextOccurrence(dt, includeRepetitions)` and `setArchive()`, the
last two returning the event as they leave it. -/
structure KAEventMethods where
  occursAfter : KAEvent → QDateTime → Bool → Bool
  recurs : KAEvent → Bool
  setNextOccurrence : KAEvent → QDateTime → Bool → KAEvent
  setArchive : KAEvent → KAEvent

/-- Qt `QStringList::clear()`. -/
def QStringList.clear (_ : List String) : List String := []

/-- The variables that the loop of `reactivateEvents` updates; `expcal` tells
whether the pointer is non-null, `events` holds the events already gone
through, as the loop left them. -/
structure ReactivateEventsVars where
  status : UpdateStatus
  warnErr : Int
  warnKOrg : Int
  selectID : String
  count : Int
  expcal : Bool
  ineligibleIDs : List String
  events : List KAEvent
deriving DecidableEq, Repr

/-- The block `if (event.copyToKOrganizer()) ...` of the loop of
`reactivateEvents`, for the event as the active calendar left it. -/
def reactivateSendToKOrganizer {σ : Type} (W : World σ) (ev : KAEvent)
    (v : ReactivateEventsVars) (s : σ) : Outcome σ ReactivateEventsVars :=
  if ev.copyToKOrganizer then
    let sk := W.sendToKOrganizer ev s
    if !sk.1 then
      ⟨{ v with warnKOrg := v.warnKOrg + 1,
                status := if v.status = UpdateStatus.UPDATE_OK
                          then UpdateStatus.UPDATE_KORG_ERR else v.status },
        sk.2, [Action.sendToKOrganizer ev.id sk.1]⟩
    else ⟨v, sk.2, [Action.sendToKOrganizer ev.id sk.1]⟩
  else ⟨v, s, []⟩

/-- The end of one turn of the loop of `reactivateEvents`: the archive calendar
is opened if `expcal` is still null, and if it is open the event is deleted
from it under its old ID. -/
def reactivateDeleteArchived {σ : Type} (W : World σ) (oldid : String)
    (v : ReactivateEventsVars) (s : σ) : Outcome σ ReactivateEventsVars :=
  let o : Outcome σ Bool :=
    if !v.expcal then
      let x := W.archiveCalendarOpen s
      ⟨x.1, x.2, [Action.archiveCalendarOpen x.1]⟩
    else ⟨true, s, []⟩
  let v1 : ReactivateEventsVars := { v with expcal := o.value }
  if o.value then
    let x := W.calDeleteEvent Cal.archive oldid false o.world
    if !x.1 then
      ⟨{ v1 with status := UpdateStatus.UPDATE_ERROR, warnErr := v1.warnErr + 1 }, x.2,
        o.trace ++ [Action.calDeleteEvent Cal.archive oldid x.1]⟩
    else ⟨v1, x.2, o.trace ++ [Action.calDeleteEvent Cal.archive oldid x.1]⟩
  else ⟨v1, o.world, o.trace⟩

/-- One turn of the loop of `reactivateEvents` for an event that has passed the
test of eligibility, from `++count` on. -/
def reactivateEligible {σ : Type} (W : World σ) (M : KAEventMethods) (now : QDateTime)
    (event : KAEvent) (v : ReactivateEventsVars) (s : σ) : Outcome σ ReactivateEventsVars :=
  let oldEvent := event
  let oldid := event.id
  let ev1 := if M.recurs event then M.setNextOccurrence event now true else event
  let ev2 := M.setArchive ev1
  let a := W.calAddEvent Cal.active ev2 true s
  if !a.1.1 then
    ⟨{ v with count := v.count + 1, status := UpdateStatus.UPDATE_ERROR,
              warnErr := v.warnErr + 1, events := v.events ++ [oldEvent] },
      a.2, [Action.calAddEvent Cal.active ev2.id a.1.1]⟩
  else
    let ev := a.1.2
    let k := reactivateSendToKOrganizer W ev { v with count := v.count + 1 } a.2
    let s1 := W.gui (Action.listViewUndeleteEvent oldid ev.id) k.world
    let d := reactivateDeleteArchived W oldid
      { k.value with selectID := ev.id, events := k.value.events ++ [ev] } s1
    ⟨d.value, d.world,
      Action.calAddEvent Cal.active ev2.id a.1.1
        :: (k.trace ++ Action.listViewUndeleteEvent oldid ev.id :: d.trace)⟩

/-- The `for` loop of `reactivateEvents` over the events that remain; `now` is
the time read before the loop. -/
def reactivateEventsLoop {σ : Type} (W : World σ) (M : KAEventMethods) (now : QDateTime) :
    List KAEvent → ReactivateEventsVars → σ → Outcome σ ReactivateEventsVars
  | [], v, s => ⟨v, s, []⟩
  | event :: rest, v, s =>
    if event.category ≠ KAEventStatus.ARCHIVED ∨ M.occursAfter event now true = false then
      reactivateEventsLoop W M now rest
        { v with ineligibleIDs := v.ineligibleIDs ++ [event.id], events := v.events ++ [event] } s
    else
      let t := reactivateEligible W M now event v s
      let r := reactivateEventsLoop W M now rest t.value t.world
      ⟨r.value, r.world, t.trace ++ r.trace⟩

/-- `KAlarm::reactivateEvents(events, ineligibleIDs, selectionView,
errmsgParent, showKOrgErr)`. Returns the status, the events as updated and
`ineligibleIDs` as left. -/
def reactivateEvents {σ : Type} (W : World σ) (M : KAEventMethods) (s : σ)
    (events : List KAEvent) (ineligibleIDs : List String) (selectionView : Bool)
    (errmsgParent : Bool) (showKOrgErr : Bool) :
    Outcome σ (UpdateStatus × List KAEvent × List String) :=
  let ineligibleIDs0 := QStringList.clear ineligibleIDs
  if events.isEmpty then ⟨(UpdateStatus.UPDATE_OK, events, ineligibleIDs0), s, []⟩
  else
    let now := W.currentDateTime s
    let l := reactivateEventsLoop W M now.1 events
      ⟨UpdateStatus.UPDATE_OK, 0, 0, "", 0, false, ineligibleIDs0, []⟩ now.2
    let v := l.value
    let sel : σ × List Action :=
      if selectionView && !v.selectID.isEmpty then
        (W.gui (Action.listViewSelect v.selectID) l.world, [Action.listViewSelect v.selectID])
      else (l.world, [])
    let status1 := if v.warnErr = v.count then UpdateStatus.UPDATE_FAILED else v.status
    let sa := W.calSave Cal.active sel.1
    let sb : Outcome σ Bool :=
      if !sa.1 then ⟨true, sa.2, []⟩
      else if !v.expcal then ⟨true, sa.2, []⟩
      else
        let x := W.calSave Cal.archive sa.2
        ⟨!x.1, x.2, [Action.calSave Cal.archive x.1]⟩
    let failed : Bool := sb.value && decide (status1 ≠ UpdateStatus.UPDATE_FAILED)
    let status2 := if failed then UpdateStatus.SAVE_FAILED else status1
    let warnErr2 := if failed then v.count else v.warnErr
    let e := reportError W sb.world status2 errmsgParent UpdateError.ERR_REACTIVATE warnErr2
      (some v.warnKOrg) (some showKOrgErr)
    ⟨(status2, v.events, v.ineligibleIDs), e.1,
      l.trace ++ sel.2 ++ Action.calSave Cal.active sa.1 :: (sb.trace ++ e.2)⟩

/-- `KAlarm::reactivateEvent(event, selectionView, errmsgParent, showKOrgErr)`:
the event is copied into a list of one and the list of IDs dropped. -/
def reactivateEvent {σ : Type} (W : World σ) (M : KAEventMethods) (s : σ) (event : KAEvent)
    (selectionView : Bool) (errmsgParent : Bool) (showKOrgErr : Bool) : Outcome σ UpdateStatus :=
  let r := reactivateEvents W M s [event] [] selectionView errmsgParent showKOrgErr
  ⟨r.value.1, r.world, r.trace⟩

/-- The calendar and the event ID of a call of `AlarmCalendar::addEvent`. -/
def Action.added : Action → Option (Cal × String)
  | Action.calAddEvent cal id _ => some (cal, id)
  | _ => none

/-- The calendar and the event ID of a call of `AlarmCalendar::deleteEvent`. -/
def Action.deleted : Action → Option (Cal × String)
  | Action.calDeleteEvent cal id _ => some (cal, id)
  | _ => none

/-- An event that is not eligible for reactivation at `now`: its category is
not ARCHIVED, or it does not occur after `now`. -/
def isIneligible (M : KAEventMethods) (now : QDateTime) (event : KAEvent) : Bool :=
  decide (event.category ≠ KAEventStatus.ARCHIVED) || !M.occursAfter event now true

/-- The event as `reactivateEvents` passes it to the active calendar: moved to
its next occurrence after `now` if it recurs, and with the archive bit set. -/
def toReactivate (M : KAEventMethods) (now : QDateTime) (event : KAEvent) : KAEvent :=
  M.setArchive (if M.recurs event then M.setNextOccurrence event now true else event)

end KAlarm



/-! ## Sample values -/

/-- A valid timestamp, ten o'clock of some day. -/
def t1000 : QDateTime := ⟨some 2453500, some 36000000⟩

/-- A valid timestamp, five past ten of the same day. -/
def t1005 : QDateTime := ⟨some 2453500, some 36300000⟩

/-- A calendar object with URL index 0 that holds no events. -/
def cal0 : ADCalendar :=
  { addr := 1, mUrlString := "file:///a.ics", mAppName := "kalarm", mUrlIndex := 0,
    mLoaded := true, mLoadedConnected := false, mUnregistered := false, mEnabled := true,
    mTempFileName := none, mEvents := [] }

/-- An event with UID `E1`. -/
def evE1 : Event := ⟨"E1", 1⟩

/-- A load of a local file that succeeds and yields the event `E1`. -/
def envLocal : LoadEnv := ⟨true, true, [evE1], none⟩

/-- The static members before any calendar is constructed. -/
def statics0 : Statics := ⟨[], [], []⟩

/-- The calendar built first for `a.ics`, at address 1. -/
def calA : ADCalendar :=
  { addr := 1, mUrlString := "file:///a.ics", mAppName := "kalarm", mUrlIndex := 0,
    mLoaded := true, mLoadedConnected := false, mUnregistered := false, mEnabled := true,
    mTempFileName := none, mEvents := [evE1] }

/-- The calendar built for `b.ics`, at address 2. -/
def calB : ADCalendar :=
  { addr := 2, mUrlString := "file:///b.ics", mAppName := "kalarm", mUrlIndex := 1,
    mLoaded := true, mLoadedConnected := false, mUnregistered := false, mEnabled := true,
    mTempFileName := none, mEvents := [evE1] }

/-- The calendar built for `a.ics` a second time, at address 3. -/
def calA2 : ADCalendar := { calA with addr := 3 }

/-- Calls that follow the construction of `calA`: a second calendar is built,
an event of `calA` is marked handled, `calA` is destroyed. -/
def callsAfterA : List Call :=
  [Call.construct 2 "file:///b.ics" "kalarm" envLocal,
   Call.setEventHandled calA (some evE1) [t1000],
   Call.destroy calA]

/-- A world in which every call succeeds and the daemon check passes. -/
def worldOk : KAlarm.World Unit :=
  { checkCalendarDaemon := fun s => (true, s),
    archiveCalendarOpen := fun s => (true, s),
    calAddEvent := fun _ e _ s => ((true, e), s),
    calAddEventKCal := fun _ e s => ((some e, e), s),
    calUpdateEvent := fun _ _ s => s,
    calDeleteEvent := fun _ _ _ s => (true, s),
    calSave := fun _ s => (true, s),
    sendToKOrganizer := fun _ s => (true, s),
    deleteFromKOrganizer := fun _ s => (true, s),
    currentDateTime := fun s => (t1000, s),
    gui := fun _ s => s,
    uidStatus := fun _ => KAlarm.KAEventStatus.ACTIVE }

/-- The same world with a daemon check that fails. -/
def worldNoDaemon : KAlarm.World Unit :=
  { worldOk with checkCalendarDaemon := fun s => (false, s) }

/-- A valid active alarm. -/
def alarmA : KAlarm.KAEvent :=
  { id := "A1", valid := true, category := KAlarm.KAEventStatus.ACTIVE,
    copyToKOrganizer := false, toBeArchived := false, revision := 0, saveDateTime := none }


/-- An item with ID 5 at revision 1. -/
def item5 : Akonadi.Item := ⟨5, 1, 100⟩

/-- The same item with new content, as a second update passes it. -/
def item5b : Akonadi.Item := ⟨5, 1, 200⟩

/-- An update of item 5 starts a job at address 1; a change of item 5 is
notified while that job is pending; a second update of item 5 follows. -/
def callsNotifyWhilePending : List AkonadiResource.QueueCall :=
  [AkonadiResource.QueueCall.queueItemModifyJob item5 1 none,
   AkonadiResource.QueueCall.notifyItemChanged item5 false 2,
   AkonadiResource.QueueCall.queueItemModifyJob item5b 3 none]

/-- An update of item 5 starts a job at address 1; a second update is queued; a
change of item 5 is notified while the first job is pending. -/
def callsNotifyWithQueued : List AkonadiResource.QueueCall :=
  [AkonadiResource.QueueCall.queueItemModifyJob item5 1 none,
   AkonadiResource.QueueCall.queueItemModifyJob item5b 2 none,
   AkonadiResource.QueueCall.notifyItemChanged item5 false 3]


/-- The resource while the job of a first update of item 5 is executing. -/
def resourceJob5 : AkonadiResource :=
  AkonadiResource.queueItemModifyJob AkonadiResource.empty item5 1 none

/-- A third content for item 5. -/
def item5c : Akonadi.Item := ⟨5, 1, 300⟩

/-- Item 5 as the model reports it after the first job, at revision 2. -/
def item5rev2 : Akonadi.Item := ⟨5, 2, 100⟩



/-- The column numbers as `ResourceDataModelBase` gives them. -/
def alarmColumns : AlarmListModel := ⟨0, 1, 5⟩

/-- A header of six sections in which both time columns are hidden. -/
def headerNoTime : QHeaderView := ⟨[true, true, false, false, false, false]⟩

/-- A header of six sections in which only the Time To column is shown. -/
def headerTimeTo : QHeaderView := ⟨[true, false, false, false, false, false]⟩

/-- A menu with one enabled action per column of a header of six sections. -/
def menuSix : List QAction :=
  [⟨0, false, true⟩, ⟨1, false, true⟩, ⟨2, true, true⟩, ⟨3, true, true⟩, ⟨4, true, true⟩,
   ⟨5, true, false⟩]



/-- Event methods for the samples: the event `X1` alone occurs after any time,
no event recurs, and `setArchive` sets the archive flag. -/
def methodsSample : KAlarm.KAEventMethods :=
  { occursAfter := fun e _ _ => e.id == "X1",
    recurs := fun _ => false,
    setNextOccurrence := fun e _ _ => e,
    setArchive := fun e => { e with toBeArchived := true } }

/-- An archived alarm that occurs again. -/
def archivedX1 : KAlarm.KAEvent :=
  { id := "X1", valid := true, category := KAlarm.KAEventStatus.ARCHIVED,
    copyToKOrganizer := false, toBeArchived := false, revision := 0, saveDateTime := none }

/-- An archived alarm that does not occur again. -/
def archivedX2 : KAlarm.KAEvent :=
  { id := "X2", valid := true, category := KAlarm.KAEventStatus.ARCHIVED,
    copyToKOrganizer := false, toBeArchived := false, revision := 0, saveDateTime := none }



/-! ## Theorems -/

namespace ADCalendar

theorem find_eq_none_of_not_mem (m : EventsMap) (key : EventKey)
    (h : key ∉ m.map Prod.fst) : m.find key = none := by
  induction m with
  | nil => rfl
  | cons p rest ih =>
    obtain ⟨k, v⟩ := p
    simp only [List.map_cons, List.mem_cons, not_or] at h
    have hk : ¬ k = key := fun e => h.1 e.symm
    simp only [EventsMap.find, hk, if_false]
    exact ih h.2

/-- C1: `eventHandled` returns false for every event whose key (event UID, URL
index of this calendar) is not among the keys of the handled map, whatever alarm
times are supplied. -/
theorem C1_eventHandled_absent (m : EventsMap) (this : ADCalendar) (ev : Event)
    (alarmtimes : List QDateTime)
    (h : (⟨ev.uid, this.mUrlIndex⟩ : EventKey) ∉ m.map Prod.fst) :
    eventHandled m this ev alarmtimes = false := by
  unfold eventHandled
  rw [find_eq_none_of_not_mem m _ h]

theorem C1_eventHandled_absent_witness :
    (⟨evE1.uid, cal0.mUrlIndex⟩ : EventKey) ∉
        ([(⟨"E2", 0⟩, ⟨1, [t1000]⟩), (⟨"E1", 1⟩, ⟨1, [t1000]⟩)] : EventsMap).map Prod.fst
    ∧ eventHandled [(⟨"E2", 0⟩, ⟨1, [t1000]⟩), (⟨"E1", 1⟩, ⟨1, [t1000]⟩)] cal0 evE1
        [t1000, QDateTime.null] = false :=
  ⟨by decide, C1_eventHandled_absent _ cal0 evE1 _ (by decide)⟩

/-! ### The map operations -/

theorem find_modify_self (m : EventsMap) (key : EventKey) (f : EventItem → EventItem)
    (v : EventItem) (h : m.find key = some v) : (m.modify key f).find key = some (f v) := by
  induction m with
  | nil => simp [EventsMap.find] at h
  | cons p rest ih =>
    obtain ⟨k, w⟩ := p
    by_cases hk : k = key
    · simp only [EventsMap.find, hk, if_true, Option.some.injEq] at h
      simp [EventsMap.modify, EventsMap.find, hk, h]
    · simp only [EventsMap.find, hk, if_false] at h
      simp [EventsMap.modify, EventsMap.find, hk, ih h]

theorem find_insert_self (m : EventsMap) (key : EventKey) (v : EventItem)
    (h : m.find key = none) : (m.insert key v).find key = some v := by
  induction m with
  | nil => simp [EventsMap.insert, EventsMap.find]
  | cons p rest ih =>
    obtain ⟨k, w⟩ := p
    by_cases hk : k = key
    · simp [EventsMap.find, hk] at h
    · simp only [EventsMap.find, hk, if_false] at h
      have := ih h
      simp only [EventsMap.insert] at this
      simp [EventsMap.insert, EventsMap.find, hk, this]

theorem find_setEventHandled_self (m : EventsMap) (this : ADCalendar) (ev : Event)
    (alarmtimes : List QDateTime) :
    (setEventHandled m this (some ev) alarmtimes).find ⟨ev.uid, this.mUrlIndex⟩
      = some ⟨ev.revision, alarmtimes⟩ := by
  unfold setEventHandled
  cases h : m.find ⟨ev.uid, this.mUrlIndex⟩ with
  | none => simp only [h]; exact find_insert_self m _ _ h
  | some v => simp only [h]; rw [find_modify_self m _ _ v h]

/-! ### The comparison loop -/

/-- The condition of the `if` in the loop of `eventHandled` at position `i`. -/
theorem loop_condition_iff (stored ts : List QDateTime) (i : Nat) :
    ((ts.getD i QDateTime.null).isValid
        && (decide (i ≥ stored.length)
            || !(stored.getD i QDateTime.null).isValid
            || ((stored.getD i QDateTime.null).isValid
                && ts.getD i QDateTime.null != stored.getD i QDateTime.null))) = true
    ↔ ∃ t, ts[i]? = some t ∧ t.isValid = true ∧
        (stored.length ≤ i ∨ ∃ s, stored[i]? = some s ∧ (s.isValid = false ∨ s ≠ t)) := by
  rw [List.getD_eq_getElem?_getD, List.getD_eq_getElem?_getD]
  cases hts : ts[i]? with
  | none => simp [QDateTime.null, QDateTime.isValid]
  | some t =>
    cases hst : stored[i]? with
    | none =>
      have hlen : stored.length ≤ i := List.getElem?_eq_none_iff.mp hst
      simp [hlen]
    | some s =>
      have hlen : i < stored.length := by
        by_contra hc
        rw [List.getElem?_eq_none_iff.mpr (Nat.le_of_not_lt hc)] at hst
        cases hst
      have hnot : ¬ stored.length ≤ i := Nat.not_le.mpr hlen
      cases hs : s.isValid <;> simp [hnot, hs, ne_comm]

theorem eventHandledLoop_eq_false_iff (stored ts : List QDateTime) (n i : Nat) :
    eventHandledLoop stored ts n i = false
    ↔ ∃ j, i ≤ j ∧ j < i + n ∧ ∃ t, ts[j]? = some t ∧ t.isValid = true ∧
        (stored.length ≤ j ∨ ∃ s, stored[j]? = some s ∧ (s.isValid = false ∨ s ≠ t)) := by
  induction n generalizing i with
  | zero =>
    simp only [eventHandledLoop, Nat.add_zero]
    constructor
    · intro h; cases h
    · rintro ⟨j, h1, h2, -⟩; omega
  | succ n ih =>
    unfold eventHandledLoop
    split
    · next hc =>
      simp only [true_iff]
      exact ⟨i, Nat.le_refl i, by omega, (loop_condition_iff stored ts i).mp hc⟩
    · next hc =>
      rw [ih (i + 1)]
      constructor
      · rintro ⟨j, h1, h2, h3⟩
        exact ⟨j, by omega, by omega, h3⟩
      · rintro ⟨j, h1, h2, h3⟩
        have hne : j ≠ i := by
          rintro rfl
          exact hc ((loop_condition_iff stored ts j).mpr h3)
        exact ⟨j, by omega, by omega, h3⟩

theorem eventHandledLoop_self (ts : List QDateTime) (n i : Nat) :
    eventHandledLoop ts ts n i = true := by
  cases h : eventHandledLoop ts ts n i with
  | true => rfl
  | false =>
    obtain ⟨j, -, -, t, ht, hv, hor⟩ := (eventHandledLoop_eq_false_iff ts ts n i).mp h
    rcases hor with hlen | ⟨s, hs, hbad⟩
    · rw [List.getElem?_eq_none_iff.mpr hlen] at ht
      cases ht
    · rw [ht] at hs
      cases hs
      rcases hbad with hb | hb
      · rw [hv] at hb; cases hb
      · exact absurd rfl hb

/-- C2: round trip. After `setEventHandled(event, ts)` the call
`eventHandled(event, ts)` on the same calendar returns true, for every handled
map, calendar, event and list of alarm times. -/
theorem C2_setEventHandled_then_eventHandled (m : EventsMap) (this : ADCalendar) (ev : Event)
    (ts : List QDateTime) :
    eventHandled (setEventHandled m this (some ev) ts) this ev ts = true := by
  unfold eventHandled
  rw [find_setEventHandled_self]
  exact eventHandledLoop_self ts ts.length 0

/-- C3 as stated fails: the third time `t3` differs from the stored `t2`, but it
is invalid, so its position is skipped and the event counts as handled. -/
theorem C3_invalid_time_counterexample :
    QDateTime.null ≠ t1005
    ∧ eventHandled (setEventHandled [] cal0 (some evE1) [t1000, t1005]) cal0 evE1
        [t1000, QDateTime.null] = true := by
  decide

/-- C3, amended: after `setEventHandled(event, [t1, t2])`, the call
`eventHandled(event, [t1, t3])` returns false for every valid `t3` that differs
from `t2`. -/
theorem C3_changed_valid_time_not_handled (m : EventsMap) (this : ADCalendar) (ev : Event)
    (t1 t2 t3 : QDateTime) (hvalid : t3.isValid = true) (hne : t3 ≠ t2) :
    eventHandled (setEventHandled m this (some ev) [t1, t2]) this ev [t1, t3] = false := by
  unfold eventHandled
  rw [find_setEventHandled_self]
  rw [eventHandledLoop_eq_false_iff]
  refine ⟨1, by omega, by simp, t3, by simp, hvalid, Or.inr ⟨t2, by simp, ?_⟩⟩
  exact Or.inr (fun h => hne h.symm)

theorem C3_changed_valid_time_not_handled_witness :
    t1005.isValid = true ∧ t1005 ≠ t1000
    ∧ eventHandled (setEventHandled [] cal0 (some evE1) [t1000, t1000]) cal0 evE1
        [t1000, t1005] = false :=
  ⟨by decide, by decide,
    C3_changed_valid_time_not_handled [] cal0 evE1 t1000 t1000 t1005 (by decide) (by decide)⟩

theorem isHandledSpecFrom_eq_false_iff (stored l : List QDateTime) (i : Nat) :
    isHandledSpecFrom stored l i = false
    ↔ ∃ j, j < l.length ∧ ∃ t, l[j]? = some t ∧ t.isValid = true ∧
        (stored.length ≤ i + j ∨
          ∃ s, stored[i + j]? = some s ∧ (s.isValid = false ∨ s ≠ t)) := by
  induction l generalizing i with
  | nil => simp [isHandledSpecFrom]
  | cons t rest ih =>
    unfold isHandledSpecFrom
    split
    · next hc =>
      simp only [true_iff]
      exact ⟨0, by simp, t, by simp, hc.1, by simpa using hc.2⟩
    · next hc =>
      rw [ih (i + 1)]
      constructor
      · rintro ⟨j, h1, u, h2, h3, h4⟩
        refine ⟨j + 1, by simpa using h1, u, by simpa using h2, h3, ?_⟩
        have e : i + (j + 1) = i + 1 + j := by omega
        rw [e]; exact h4
      · rintro ⟨j, h1, u, h2, h3, h4⟩
        cases j with
        | zero =>
          exfalso
          simp only [List.getElem?_cons_zero, Option.some.injEq] at h2
          subst h2
          exact hc ⟨h3, by simpa using h4⟩
        | succ j =>
          refine ⟨j, by simpa using h1, u, by simpa using h2, h3, ?_⟩
          have e : i + 1 + j = i + (j + 1) := by omega
          rw [e]; exact h4

/-- C4: the code and the rule of the spec agree on all inputs, and when the key
has an entry `eventHandled` returns false exactly when some position `i` of the
supplied list holds a valid time while `i` is beyond the stored list, or the
stored time at `i` is invalid, or the stored time at `i` differs. -/
theorem C4_eventHandled_refines_spec (m : EventsMap) (this : ADCalendar) (ev : Event)
    (ts : List QDateTime) :
    eventHandled m this ev ts = isHandledSpec m this.mUrlIndex ev.uid ts
    ∧ ∀ stored, m.find ⟨ev.uid, this.mUrlIndex⟩ = some stored →
        (eventHandled m this ev ts = false
          ↔ ∃ i, i < ts.length ∧ ∃ t, ts[i]? = some t ∧ t.isValid = true ∧
              (stored.alarmTimes.length ≤ i ∨
                ∃ s, stored.alarmTimes[i]? = some s ∧ (s.isValid = false ∨ s ≠ t))) := by
  have key : ∀ stored : List QDateTime,
      (eventHandledLoop stored ts ts.length 0 = false
        ↔ ∃ i, i < ts.length ∧ ∃ t, ts[i]? = some t ∧ t.isValid = true ∧
            (stored.length ≤ i ∨ ∃ s, stored[i]? = some s ∧ (s.isValid = false ∨ s ≠ t))) := by
    intro stored
    rw [eventHandledLoop_eq_false_iff]
    constructor
    · rintro ⟨j, -, h2, h3⟩
      exact ⟨j, by omega, h3⟩
    · rintro ⟨j, h2, h3⟩
      exact ⟨j, Nat.zero_le j, by omega, h3⟩
  constructor
  · unfold eventHandled isHandledSpec
    cases m.find ⟨ev.uid, this.mUrlIndex⟩ with
    | none => rfl
    | some stored =>
      simp only
      have h1 := key stored.alarmTimes
      have h2 := isHandledSpecFrom_eq_false_iff stored.alarmTimes ts 0
      simp only [Nat.zero_add] at h2
      cases hb : eventHandledLoop stored.alarmTimes ts ts.length 0 with
      | false => exact (h2.mpr (h1.mp hb)).symm
      | true =>
        cases hs : isHandledSpecFrom stored.alarmTimes ts 0 with
        | true => rfl
        | false => rw [h1.mpr (h2.mp hs)] at hb; cases hb
  · intro stored hfind
    unfold eventHandled
    rw [hfind]
    exact key stored.alarmTimes

theorem C4_eventHandled_refines_spec_witness :
    EventsMap.find [(⟨"E1", 0⟩, ⟨1, [t1000, QDateTime.null]⟩)] ⟨evE1.uid, cal0.mUrlIndex⟩
        = some ⟨1, [t1000, QDateTime.null]⟩
    ∧ (eventHandled [(⟨"E1", 0⟩, ⟨1, [t1000, QDateTime.null]⟩)] cal0 evE1 [t1000, t1005] = false
        ↔ ∃ i, i < [t1000, t1005].length ∧ ∃ t, [t1000, t1005][i]? = some t ∧ t.isValid = true ∧
            ((⟨1, [t1000, QDateTime.null]⟩ : EventItem).alarmTimes.length ≤ i ∨
              ∃ s, (⟨1, [t1000, QDateTime.null]⟩ : EventItem).alarmTimes[i]? = some s
                ∧ (s.isValid = false ∨ s ≠ t))) :=
  ⟨by decide,
    (C4_eventHandled_refines_spec [(⟨"E1", 0⟩, ⟨1, [t1000, QDateTime.null]⟩)] cal0 evE1
      [t1000, t1005]).2 ⟨1, [t1000, QDateTime.null]⟩ (by decide)⟩

/-- C5: reload scenario. After `setEventHandled(E, [t])` with a valid `t`,
`eventHandled(E, [t])` returns true and `eventHandled(E, [t'])` returns false
for every valid `t'` that differs from `t`. -/
theorem C5_reload_scenario (m : EventsMap) (this : ADCalendar) (ev : Event)
    (t t' : QDateTime) (_ht : t.isValid = true) (ht' : t'.isValid = true) (hne : t' ≠ t) :
    eventHandled (setEventHandled m this (some ev) [t]) this ev [t] = true
    ∧ eventHandled (setEventHandled m this (some ev) [t]) this ev [t'] = false := by
  constructor
  · unfold eventHandled
    rw [find_setEventHandled_self]
    exact eventHandledLoop_self [t] _ 0
  · unfold eventHandled
    rw [find_setEventHandled_self]
    rw [eventHandledLoop_eq_false_iff]
    exact ⟨0, by omega, by simp, t', by simp, ht',
      Or.inr ⟨t, by simp, Or.inr (fun h => hne h.symm)⟩⟩

theorem C5_reload_scenario_witness :
    t1000.isValid = true ∧ t1005.isValid = true ∧ t1005 ≠ t1000
    ∧ eventHandled (setEventHandled [] cal0 (some evE1) [t1000]) cal0 evE1 [t1000] = true
    ∧ eventHandled (setEventHandled [] cal0 (some evE1) [t1000]) cal0 evE1 [t1005] = false :=
  ⟨by decide, by decide, by decide,
    C5_reload_scenario [] cal0 evE1 t1000 t1005 (by decide) (by decide) (by decide)⟩

/-! ### Overwriting -/

theorem modify_modify (m : EventsMap) (key : EventKey) (f g : EventItem → EventItem)
    (hgf : ∀ v, g (f v) = g v) : (m.modify key f).modify key g = m.modify key g := by
  induction m with
  | nil => rfl
  | cons p rest ih =>
    obtain ⟨k, w⟩ := p
    by_cases hk : k = key
    · simp [EventsMap.modify, hk, hgf]
    · simp [EventsMap.modify, hk, ih]

theorem modify_insert (m : EventsMap) (key : EventKey) (v : EventItem)
    (g : EventItem → EventItem) (h : m.find key = none) :
    (m.insert key v).modify key g = m.insert key (g v) := by
  induction m with
  | nil => simp [EventsMap.insert, EventsMap.modify]
  | cons p rest ih =>
    obtain ⟨k, w⟩ := p
    by_cases hk : k = key
    · simp [EventsMap.find, hk] at h
    · simp only [EventsMap.find, hk, if_false] at h
      have := ih h
      simp only [EventsMap.insert] at this
      simp [EventsMap.insert, EventsMap.modify, hk, this]

theorem keys_modify (m : EventsMap) (key : EventKey) (f : EventItem → EventItem) :
    (m.modify key f).map Prod.fst = m.map Prod.fst := by
  induction m with
  | nil => rfl
  | cons p rest ih =>
    obtain ⟨k, w⟩ := p
    by_cases hk : k = key
    · simp [EventsMap.modify, hk]
    · simp [EventsMap.modify, hk, ih]

theorem not_mem_keys_of_find_eq_none (m : EventsMap) (key : EventKey)
    (h : m.find key = none) : key ∉ m.map Prod.fst := by
  induction m with
  | nil => simp
  | cons p rest ih =>
    obtain ⟨k, w⟩ := p
    by_cases hk : k = key
    · simp [EventsMap.find, hk] at h
    · simp only [EventsMap.find, hk, if_false] at h
      simp only [List.map_cons, List.mem_cons, not_or]
      exact ⟨fun e => hk e.symm, ih h⟩

theorem mem_keys_of_find_eq_some (m : EventsMap) (key : EventKey) (v : EventItem)
    (h : m.find key = some v) : key ∈ m.map Prod.fst := by
  by_contra hc
  rw [find_eq_none_of_not_mem m key hc] at h
  cases h

theorem setEventHandled_of_find_some (m : EventsMap) (this : ADCalendar) (ev : Event)
    (ts : List QDateTime) (v : EventItem) (h : m.find ⟨ev.uid, this.mUrlIndex⟩ = some v) :
    setEventHandled m this (some ev) ts
      = m.modify ⟨ev.uid, this.mUrlIndex⟩
          (fun data => { data with alarmTimes := ts, eventSequence := ev.revision }) := by
  unfold setEventHandled
  simp only [h]

theorem setEventHandled_of_find_none (m : EventsMap) (this : ADCalendar) (ev : Event)
    (ts : List QDateTime) (h : m.find ⟨ev.uid, this.mUrlIndex⟩ = none) :
    setEventHandled m this (some ev) ts
      = m.insert ⟨ev.uid, this.mUrlIndex⟩ ⟨ev.revision, ts⟩ := by
  unfold setEventHandled
  simp only [h]

/-- `setEventHandled` keeps the keys of the map distinct. -/
theorem nodupKeys_setEventHandled (m : EventsMap) (this : ADCalendar) (event : Option Event)
    (ts : List QDateTime) (h : m.NodupKeys) : (setEventHandled m this event ts).NodupKeys := by
  unfold setEventHandled
  cases event with
  | none => exact h
  | some ev =>
    simp only
    cases hf : m.find ⟨ev.uid, this.mUrlIndex⟩ with
    | some v =>
      simp only [EventsMap.NodupKeys, keys_modify]
      exact h
    | none =>
      simp only [EventsMap.NodupKeys, EventsMap.insert, List.map_append, List.map_cons,
        List.map_nil]
      have hnot := not_mem_keys_of_find_eq_none m _ hf
      unfold EventsMap.NodupKeys at h
      rw [List.nodup_append]
      refine ⟨h, List.nodup_singleton _, ?_⟩
      intro a ha hb
      simp only [List.mem_singleton] at hb
      subst hb
      exact hnot ha

/-- C6: `setEventHandled` overwrites. Two calls for the same event, with
`(rev1, ts1)` and then `(rev2, ts2)`, leave the same map as the single call with
`(rev2, ts2)`; the entry found for the key holds `rev2` and `ts2`; and in a map
with distinct keys the key occurs exactly once afterwards. -/
theorem C6_setEventHandled_overwrites (m : EventsMap) (this : ADCalendar) (uid : String)
    (rev1 rev2 : Int) (ts1 ts2 : List QDateTime) :
    setEventHandled (setEventHandled m this (some ⟨uid, rev1⟩) ts1) this (some ⟨uid, rev2⟩) ts2
      = setEventHandled m this (some ⟨uid, rev2⟩) ts2
    ∧ (setEventHandled (setEventHandled m this (some ⟨uid, rev1⟩) ts1) this
          (some ⟨uid, rev2⟩) ts2).find ⟨uid, this.mUrlIndex⟩ = some ⟨rev2, ts2⟩
    ∧ (m.NodupKeys →
        ((setEventHandled (setEventHandled m this (some ⟨uid, rev1⟩) ts1) this
          (some ⟨uid, rev2⟩) ts2).map Prod.fst).count ⟨uid, this.mUrlIndex⟩ = 1) := by
  have hfind := find_setEventHandled_self
    (setEventHandled m this (some ⟨uid, rev1⟩) ts1) this ⟨uid, rev2⟩ ts2
  refine ⟨?_, hfind, ?_⟩
  · have h1 := find_setEventHandled_self m this ⟨uid, rev1⟩ ts1
    rw [setEventHandled_of_find_some _ this ⟨uid, rev2⟩ ts2 _ h1]
    cases hf : m.find ⟨uid, this.mUrlIndex⟩ with
    | some v =>
      rw [setEventHandled_of_find_some m this ⟨uid, rev1⟩ ts1 v hf,
        setEventHandled_of_find_some m this ⟨uid, rev2⟩ ts2 v hf]
      exact modify_modify m _ _ _ (fun _ => rfl)
    | none =>
      rw [setEventHandled_of_find_none m this ⟨uid, rev1⟩ ts1 hf,
        setEventHandled_of_find_none m this ⟨uid, rev2⟩ ts2 hf]
      exact modify_insert m _ _ _ hf
  · intro hnd
    have hnd2 := nodupKeys_setEventHandled _ this (some ⟨uid, rev2⟩) ts2
      (nodupKeys_setEventHandled m this (some ⟨uid, rev1⟩) ts1 hnd)
    exact List.count_eq_one_of_mem hnd2 (mem_keys_of_find_eq_some _ _ _ hfind)

theorem C6_setEventHandled_overwrites_witness :
    EventsMap.NodupKeys [(⟨"E1", 0⟩, ⟨1, [t1000]⟩), (⟨"E1", 1⟩, ⟨1, [t1000]⟩)]
    ∧ ((setEventHandled (setEventHandled
          [(⟨"E1", 0⟩, ⟨1, [t1000]⟩), (⟨"E1", 1⟩, ⟨1, [t1000]⟩)]
          cal0 (some ⟨"E1", 2⟩) [t1000, t1005]) cal0
          (some ⟨"E1", 3⟩) [t1005]).map Prod.fst).count ⟨"E1", cal0.mUrlIndex⟩ = 1 :=
  ⟨by decide,
    (C6_setEventHandled_overwrites [(⟨"E1", 0⟩, ⟨1, [t1000]⟩), (⟨"E1", 1⟩, ⟨1, [t1000]⟩)]
      cal0 "E1" 2 3 [t1000, t1005] [t1005]).2.2 (by decide)⟩

/-- C10: the comparison is by position. After `setEventHandled(E, [t1, t2])`
with valid times `t1 ≠ t2`, the call `eventHandled(E, [t2, t1])` returns false,
although the two lists have the same members. -/
theorem C10_positional_comparison (m : EventsMap) (this : ADCalendar) (ev : Event)
    (t1 t2 : QDateTime) (_h1 : t1.isValid = true) (h2 : t2.isValid = true) (hne : t1 ≠ t2) :
    eventHandled (setEventHandled m this (some ev) [t1, t2]) this ev [t2, t1] = false
    ∧ ∀ x, x ∈ [t2, t1] ↔ x ∈ [t1, t2] := by
  constructor
  · unfold eventHandled
    rw [find_setEventHandled_self]
    rw [eventHandledLoop_eq_false_iff]
    exact ⟨0, by omega, by simp, t2, by simp, h2, Or.inr ⟨t1, by simp, Or.inr hne⟩⟩
  · intro x
    simp only [List.mem_cons, List.mem_singleton, List.not_mem_nil, or_false]
    exact Or.comm

theorem C10_positional_comparison_witness :
    t1000.isValid = true ∧ t1005.isValid = true ∧ t1000 ≠ t1005
    ∧ eventHandled (setEventHandled [] cal0 (some evE1) [t1000, t1005]) cal0 evE1
        [t1005, t1000] = false :=
  ⟨by decide, by decide, by decide,
    (C10_positional_comparison [] cal0 evE1 t1000 t1005 (by decide) (by decide) (by decide)).1⟩

/-! ### Clearing -/

theorem event_eq_none_iff (this : ADCalendar) (uid : String) :
    this.event uid = none ↔ uid ∉ this.mEvents.map Event.uid := by
  unfold event
  rw [List.find?_eq_none]
  simp only [decide_eq_true_eq, List.mem_map, not_exists, not_and]

theorem mem_clearEventsHandled (m : EventsMap) (this : ADCalendar) (nonexistentOnly : Bool)
    (k : EventKey) (v : EventItem) :
    (k, v) ∈ clearEventsHandled m this nonexistentOnly
    ↔ (k, v) ∈ m ∧ ¬ (k.calendarIndex = this.mUrlIndex
        ∧ (nonexistentOnly = false ∨ this.event k.eventID = none)) := by
  induction m with
  | nil => simp [clearEventsHandled]
  | cons p rest ih =>
    obtain ⟨k0, v0⟩ := p
    unfold clearEventsHandled
    split
    · next hc =>
      simp only [Bool.and_eq_true, decide_eq_true_eq, Bool.or_eq_true, Bool.not_eq_true',
        Option.isNone_iff_eq_none] at hc
      rw [ih]
      constructor
      · rintro ⟨h1, h2⟩
        exact ⟨List.mem_cons_of_mem _ h1, h2⟩
      · rintro ⟨h1, h2⟩
        rcases List.mem_cons.mp h1 with h | h
        · cases h
          exact absurd hc h2
        · exact ⟨h, h2⟩
    · next hc =>
      simp only [Bool.and_eq_true, decide_eq_true_eq, Bool.or_eq_true, Bool.not_eq_true',
        Option.isNone_iff_eq_none] at hc
      simp only [List.mem_cons, ih]
      constructor
      · rintro (h | ⟨h1, h2⟩)
        · cases h
          exact ⟨Or.inl rfl, hc⟩
        · exact ⟨Or.inr h1, h2⟩
      · rintro ⟨h1 | h1, h2⟩
        · exact Or.inl h1
        · exact Or.inr ⟨h1, h2⟩

theorem find_clearEventsHandled (m : EventsMap) (this : ADCalendar) (nonexistentOnly : Bool)
    (k : EventKey) :
    (clearEventsHandled m this nonexistentOnly).find k
      = if k.calendarIndex = this.mUrlIndex
            ∧ (nonexistentOnly = false ∨ this.event k.eventID = none)
        then none else m.find k := by
  induction m with
  | nil => simp [clearEventsHandled, EventsMap.find]
  | cons p rest ih =>
    obtain ⟨k0, v0⟩ := p
    unfold clearEventsHandled
    split
    · next hc =>
      simp only [Bool.and_eq_true, decide_eq_true_eq, Bool.or_eq_true, Bool.not_eq_true',
        Option.isNone_iff_eq_none] at hc
      rw [ih]
      by_cases hk : k0 = k
      · subst hk
        simp [hc]
      · simp [EventsMap.find, hk]
    · next hc =>
      simp only [Bool.and_eq_true, decide_eq_true_eq, Bool.or_eq_true, Bool.not_eq_true',
        Option.isNone_iff_eq_none] at hc
      by_cases hk : k0 = k
      · subst hk
        simp [EventsMap.find, hc]
      · simp only [EventsMap.find, hk, if_false]
        exact ih

/-- C7: `clearEventsHandled(true)` removes exactly the entries of this
calendar's index whose event ID is the UID of no event of the calendar. Every
other entry stays with its data, the lookup of every other key is unchanged,
and `loadLocalFile` applies this purge with the events just loaded. -/
theorem C7_clear_nonexistent_only (m : EventsMap) (this : ADCalendar) :
    (∀ k v, (k, v) ∈ clearEventsHandled m this true
        ↔ (k, v) ∈ m ∧ ¬ (k.calendarIndex = this.mUrlIndex
            ∧ k.eventID ∉ this.mEvents.map Event.uid))
    ∧ (∀ k, (clearEventsHandled m this true).find k
        = if k.calendarIndex = this.mUrlIndex ∧ k.eventID ∉ this.mEvents.map Event.uid
          then none else m.find k)
    ∧ (∀ loadedEvents k v, (k, v) ∈ (loadLocalFile m this true loadedEvents).1
        ↔ (k, v) ∈ m ∧ ¬ (k.calendarIndex = this.mUrlIndex
            ∧ k.eventID ∉ loadedEvents.map Event.uid)) := by
  refine ⟨?_, ?_, ?_⟩
  · intro k v
    rw [mem_clearEventsHandled, event_eq_none_iff]
    simp
  · intro k
    rw [find_clearEventsHandled]
    simp only [Bool.true_eq_false, false_or, event_eq_none_iff]
  · intro loadedEvents k v
    unfold loadLocalFile
    simp only [Bool.not_true, Bool.false_eq_true, if_false]
    rw [mem_clearEventsHandled, event_eq_none_iff]
    simp

/-- C8: `clearEventsHandled(false)` removes every entry of this calendar's index
and no entry of another index; afterwards `eventHandled` returns false on this
calendar for every event and list of times, also after the destructor. -/
theorem C8_clear_all (m : EventsMap) (this : ADCalendar) :
    (∀ k v, (k, v) ∈ clearEventsHandled m this false
        ↔ (k, v) ∈ m ∧ k.calendarIndex ≠ this.mUrlIndex)
    ∧ (∀ ev ts, eventHandled (clearEventsHandled m this false) this ev ts = false)
    ∧ (∀ s ev ts, eventHandled (dtor s this).mEventsHandled this ev ts = false) := by
  have hfind : ∀ (m0 : EventsMap) (ev : Event) (ts : List QDateTime),
      eventHandled (clearEventsHandled m0 this false) this ev ts = false := by
    intro m0 ev ts
    unfold eventHandled
    rw [find_clearEventsHandled]
    simp
  refine ⟨?_, hfind m, ?_⟩
  · intro k v
    rw [mem_clearEventsHandled]
    simp
  · intro s ev ts
    exact hfind s.mEventsHandled ev ts

/-! ### The URL index -/

theorem findIndexFrom_of_not_mem (l : List String) (x : String) (i : Nat) (h : x ∉ l) :
    findIndexFrom l x i = -1 := by
  induction l generalizing i with
  | nil => rfl
  | cons y rest ih =>
    simp only [List.mem_cons, not_or] at h
    have hy : ¬ y = x := fun e => h.1 e.symm
    simp only [findIndexFrom, hy, if_false]
    exact ih (i + 1) h.2

theorem findIndexFrom_of_mem (l : List String) (x : String) (i : Nat) (h : x ∈ l) :
    ∃ j, findIndexFrom l x i = ((i + j : Nat) : Int) ∧ l[j]? = some x := by
  induction l generalizing i with
  | nil => cases h
  | cons y rest ih =>
    by_cases hy : y = x
    · exact ⟨0, by simp [findIndexFrom, hy], by simp [hy]⟩
    · have hx : x ∈ rest := by
        rcases List.mem_cons.mp h with e | e
        · exact absurd e.symm hy
        · exact e
      obtain ⟨j, h1, h2⟩ := ih (i + 1) hx
      refine ⟨j + 1, ?_, by simpa using h2⟩
      simp only [findIndexFrom, hy, if_false, h1]
      congr 1
      omega

theorem findIndexFrom_append_of_mem (l ext : List String) (x : String) (i : Nat) (h : x ∈ l) :
    findIndexFrom (l ++ ext) x i = findIndexFrom l x i := by
  induction l generalizing i with
  | nil => cases h
  | cons y rest ih =>
    by_cases hy : y = x
    · simp [findIndexFrom, hy]
    · have hx : x ∈ rest := by
        rcases List.mem_cons.mp h with e | e
        · exact absurd e.symm hy
        · exact e
      simp only [List.cons_append, findIndexFrom, hy, if_false]
      exact ih (i + 1) hx

theorem findIndexFrom_append_self_of_not_mem (l : List String) (x : String) (i : Nat)
    (h : x ∉ l) : findIndexFrom (l ++ [x]) x i = ((i + l.length : Nat) : Int) := by
  induction l generalizing i with
  | nil => simp [findIndexFrom]
  | cons y rest ih =>
    simp only [List.mem_cons, not_or] at h
    have hy : ¬ y = x := fun e => h.1 e.symm
    have e := ih (i + 1) h.2
    simp only [List.cons_append, findIndexFrom, hy, if_false, List.length_cons]
    rw [show rest.append [x] = rest ++ [x] from rfl, e]
    congr 1
    omega

theorem loadFile_mUrlIndex (m : EventsMap) (this : ADCalendar) (reset : Bool) (env : LoadEnv) :
    (loadFile m this reset env).2.1.mUrlIndex = this.mUrlIndex := by
  unfold loadFile loadLocalFile
  simp only
  split
  · rfl
  · split
    · split <;> rfl
    · rfl

/-- The constructor completes unless the assertion fails: it returns a result
whenever no live calendar has the URL, and always when assertions are compiled
out. -/
theorem ctor_isSome (ndebug : Bool) (s : Statics) (addr : Nat) (url appname : String)
    (env : LoadEnv) (h : calendar s.mCalendars url = none ∨ ndebug = true) :
    (ctor ndebug s addr url appname env).isSome = true := by
  unfold ctor
  rcases h with h | h
  · simp [h]
  · simp [h]

/-- What the constructor does to the URL list and which index it assigns. -/
theorem ctor_index (ndebug : Bool) (s : Statics) (addr : Nat) (url appname : String)
    (env : LoadEnv) (s1 : Statics) (c1 : ADCalendar)
    (h : ctor ndebug s addr url appname env = some (s1, c1)) :
    s1.mCalendarUrls = (if url ∈ s.mCalendarUrls then s.mCalendarUrls
                        else s.mCalendarUrls ++ [url])
    ∧ url ∈ s1.mCalendarUrls
    ∧ c1.mUrlIndex = findIndex s1.mCalendarUrls url := by
  unfold ctor at h
  split at h
  · cases h
  · simp only [Option.some.injEq, Prod.mk.injEq] at h
    obtain ⟨hs, hc⟩ := h
    subst hs
    have hidx := congrArg ADCalendar.mUrlIndex hc
    rw [loadFile_mUrlIndex] at hidx
    simp only at hidx ⊢
    by_cases hmem : url ∈ s.mCalendarUrls
    · obtain ⟨j, hj, -⟩ := findIndexFrom_of_mem s.mCalendarUrls url 0 hmem
      have hnn : ¬ findIndex s.mCalendarUrls url < 0 := by
        unfold findIndex
        rw [hj]
        omega
      simp only [hnn, if_false] at hidx
      simp only [hnn, if_false, hmem, if_true, true_and]
      exact hidx.symm
    · have hneg : findIndex s.mCalendarUrls url < 0 := by
        unfold findIndex
        rw [findIndexFrom_of_not_mem _ _ _ hmem]
        decide
      simp only [hneg, if_true] at hidx
      simp only [hneg, if_true, hmem, if_false, true_and]
      refine ⟨by simp, ?_⟩
      unfold findIndex
      rw [findIndexFrom_append_self_of_not_mem _ _ _ hmem, ← hidx]
      simp

/-- No call removes or moves an entry of the URL list. -/
theorem urls_kept_by_step (ndebug : Bool) (s s1 : Statics) (c : Call)
    (h : s.step ndebug c = some s1) : s.mCalendarUrls <+: s1.mCalendarUrls := by
  cases c with
  | construct addr url appname env =>
    simp only [Statics.step, Option.map_eq_some'] at h
    obtain ⟨⟨s2, c2⟩, hc, he⟩ := h
    simp only at he
    subst he
    rw [(ctor_index ndebug s addr url appname env s2 c2 hc).1]
    split
    · exact ⟨[], List.append_nil _⟩
    · exact ⟨_, rfl⟩
  | destroy this =>
    simp only [Statics.step, Option.some.injEq] at h
    subst h
    exact ⟨[], List.append_nil _⟩
  | loadFile this reset env =>
    simp only [Statics.step, Option.some.injEq] at h
    subst h
    exact ⟨[], List.append_nil _⟩
  | slotDownloadJobResult this jobError loadOk loadedEvents =>
    simp only [Statics.step, Option.some.injEq] at h
    subst h
    exact ⟨[], List.append_nil _⟩
  | setEventHandled this event alarmtimes =>
    simp only [Statics.step, Option.some.injEq] at h
    subst h
    exact ⟨[], List.append_nil _⟩
  | clearEventsHandled this nonexistentOnly =>
    simp only [Statics.step, Option.some.injEq] at h
    subst h
    exact ⟨[], List.append_nil _⟩

theorem urls_kept_by_run (ndebug : Bool) (s s1 : Statics) (calls : List Call)
    (h : s.run ndebug calls = some s1) : s.mCalendarUrls <+: s1.mCalendarUrls := by
  induction calls generalizing s with
  | nil =>
    simp only [Statics.run, Option.some.injEq] at h
    subst h
    exact ⟨[], List.append_nil _⟩
  | cons c rest ih =>
    unfold Statics.run at h
    cases hs : s.step ndebug c with
    | none => simp [hs] at h
    | some s2 =>
      simp only [hs] at h
      exact (urls_kept_by_step ndebug s s2 c hs).trans (ih s2 h)

theorem getElem?_of_kept (l l1 : List String) (h : l <+: l1) (i : Nat) (hi : i < l.length) :
    l1[i]? = l[i]? := by
  obtain ⟨ext, rfl⟩ := h
  exact List.getElem?_append_left hi

/-- C9: the URL index is stable and append-only. A construction changes the URL
list only by appending the new URL when it is absent, so existing entries keep
their positions; the index of the new calendar is the position of its URL; after
any further calls the entries are still in place, and a later construction gets
the same index exactly when it has the same URL. -/
theorem C9_url_index_stable (ndebug : Bool) (s : Statics) (addr : Nat) (url appname : String)
    (env : LoadEnv) (s1 : Statics) (c1 : ADCalendar)
    (h : ctor ndebug s addr url appname env = some (s1, c1)) :
    s1.mCalendarUrls = (if url ∈ s.mCalendarUrls then s.mCalendarUrls
                        else s.mCalendarUrls ++ [url])
    ∧ (∀ i, i < s.mCalendarUrls.length → s1.mCalendarUrls[i]? = s.mCalendarUrls[i]?)
    ∧ 0 ≤ c1.mUrlIndex
    ∧ s1.mCalendarUrls[c1.mUrlIndex.toNat]? = some url
    ∧ ∀ (calls : List Call) (s2 : Statics), s1.run ndebug calls = some s2 →
        (∀ i, i < s1.mCalendarUrls.length → s2.mCalendarUrls[i]? = s1.mCalendarUrls[i]?)
        ∧ ∀ (addr2 : Nat) (url2 appname2 : String) (env2 : LoadEnv) (s3 : Statics)
            (c2 : ADCalendar),
            ctor ndebug s2 addr2 url2 appname2 env2 = some (s3, c2) →
            (c2.mUrlIndex = c1.mUrlIndex ↔ url2 = url) := by
  obtain ⟨hurls, hmem, hidx⟩ := ctor_index ndebug s addr url appname env s1 c1 h
  obtain ⟨j, hj, hget⟩ := findIndexFrom_of_mem s1.mCalendarUrls url 0 hmem
  have hc1 : c1.mUrlIndex = (j : Int) := by
    rw [hidx]
    unfold findIndex
    rw [hj]
    simp
  have hjlt : j < s1.mCalendarUrls.length := by
    by_contra hc
    rw [List.getElem?_eq_none_iff.mpr (Nat.le_of_not_lt hc)] at hget
    cases hget
  have hpre : s.mCalendarUrls <+: s1.mCalendarUrls := by
    rw [hurls]
    split
    · exact ⟨[], List.append_nil _⟩
    · exact ⟨_, rfl⟩
  refine ⟨hurls, fun i hi => getElem?_of_kept _ _ hpre i hi, ?_, ?_, ?_⟩
  · rw [hc1]
    exact Int.ofNat_nonneg j
  · rw [hc1]
    simpa using hget
  · intro calls s2 hrun
    have hpre2 := urls_kept_by_run ndebug s1 s2 calls hrun
    refine ⟨fun i hi => getElem?_of_kept _ _ hpre2 i hi, ?_⟩
    intro addr2 url2 appname2 env2 s3 c2 h2
    obtain ⟨hurls3, hmem3, hidx3⟩ := ctor_index ndebug s2 addr2 url2 appname2 env2 s3 c2 h2
    have hpre3 : s2.mCalendarUrls <+: s3.mCalendarUrls := by
      rw [hurls3]
      split
      · exact ⟨[], List.append_nil _⟩
      · exact ⟨_, rfl⟩
    have hpre13 : s1.mCalendarUrls <+: s3.mCalendarUrls := hpre2.trans hpre3
    constructor
    · intro heq
      obtain ⟨j2, hj2, hget2⟩ := findIndexFrom_of_mem s3.mCalendarUrls url2 0 hmem3
      have hc2 : c2.mUrlIndex = (j2 : Int) := by
        rw [hidx3]
        unfold findIndex
        rw [hj2]
        simp
      have hjj : j2 = j := by
        rw [hc1, hc2] at heq
        exact_mod_cast heq
      subst hjj
      rw [getElem?_of_kept _ _ hpre13 j2 hjlt, hget] at hget2
      exact (Option.some.inj hget2).symm
    · intro heq
      subst heq
      obtain ⟨ext, hext⟩ := hpre13
      rw [hidx3, hidx, ← hext]
      unfold findIndex
      exact findIndexFrom_append_of_mem _ _ _ _ hmem

theorem C9_url_index_stable_witness :
    ctor false statics0 1 "file:///a.ics" "kalarm" envLocal
        = some (⟨[calA], [], ["file:///a.ics"]⟩, calA)
    ∧ Statics.run false ⟨[calA], [], ["file:///a.ics"]⟩ callsAfterA
        = some ⟨[calB], [], ["file:///a.ics", "file:///b.ics"]⟩
    ∧ ctor false ⟨[calB], [], ["file:///a.ics", "file:///b.ics"]⟩ 3 "file:///a.ics" "kalarm"
          envLocal
        = some (⟨[calB, calA2], [], ["file:///a.ics", "file:///b.ics"]⟩, calA2)
    ∧ calA2.mUrlIndex = calA.mUrlIndex :=
  ⟨by decide, by decide, by decide,
    (((C9_url_index_stable false statics0 1 "file:///a.ics" "kalarm" envLocal
        ⟨[calA], [], ["file:///a.ics"]⟩ calA (by decide)).2.2.2.2
        callsAfterA ⟨[calB], [], ["file:///a.ics", "file:///b.ics"]⟩ (by decide)).2
        3 "file:///a.ics" "kalarm" envLocal
        ⟨[calB, calA2], [], ["file:///a.ics", "file:///b.ics"]⟩ calA2 (by decide)).mpr rfl⟩

end ADCalendar

/-! ## Theorems on daemon.h -/

namespace Daemon

/-- C12: expiry of the registration timer resolves the attempt as a failure.
`registerTimerExpired` calls `registrationResult` with result FAILURE for every
status, with `reregister` true for REGISTERED and false for STOPPED, RUNNING and
READY. -/
theorem C12_registerTimerExpired_failure {α : Type}
    (registrationResult : Bool → RegisterResult → State → α) (s : State) :
    registerTimerExpired registrationResult s
      = registrationResult
          (match s.mStatus with
           | Status.STOPPED => false
           | Status.RUNNING => false
           | Status.READY => false
           | Status.REGISTERED => true)
          RegisterResult.FAILURE s := by
  unfold registerTimerExpired
  cases h : s.mStatus <;> simp

/-- C13: `registrationResult(reregister, SUCCESS)` sets the status to REGISTERED
for every prior state and both values of `reregister`, so that `isRegistered()`
is true afterwards, and the registration timer is stopped. -/
theorem C13_registrationResult_success (suppressed reregister : Bool) (s : State) :
    (registrationResult suppressed reregister RegisterResult.SUCCESS s).mStatus
      = Status.REGISTERED
    ∧ isRegistered (registrationResult suppressed reregister RegisterResult.SUCCESS s) = true
    ∧ (registrationResult suppressed reregister RegisterResult.SUCCESS s).registerTimerActive
      = false := by
  refine ⟨rfl, ?_, rfl⟩
  simp [isRegistered, registrationResult]

end Daemon

/-! ## Theorems on functions.cpp -/

namespace KAlarm

/-! ### Version numbers -/

theorem split_of_not_mem (sep : Char) (a : QString) (h : sep ∉ a) :
    QString.split sep a = [a] := by
  induction a with
  | nil => rfl
  | cons c rest ih =>
    simp only [List.mem_cons, not_or] at h
    have hc : ¬ c = sep := fun e => h.1 e.symm
    simp only [QString.split, hc, if_false, ih h.2]

theorem split_append_sep (sep : Char) (a rest : QString) (h : sep ∉ a) :
    QString.split sep (a ++ sep :: rest) = a :: QString.split sep rest := by
  induction a with
  | nil => simp [QString.split]
  | cons c cs ih =>
    simp only [List.mem_cons, not_or] at h
    have hc : ¬ c = sep := fun e => h.1 e.symm
    have e := ih h.2
    simp only [List.cons_append, QString.split, hc, if_false]
    rw [show cs.append (sep :: rest) = cs ++ sep :: rest from rfl, e]

theorem dot_not_mem_of_digits (a : QString) (h : a.all Char.isDigit = true) : '.' ∉ a := by
  intro hmem
  have := List.all_eq_true.mp h '.' hmem
  revert this
  decide

theorem dropWhile_eq_self_of_head {p : Char → Bool} (l : QString)
    (h : ∀ c, l.head? = some c → p c = false) : l.dropWhile p = l := by
  cases l with
  | nil => rfl
  | cons c rest =>
    have := h c rfl
    simp [List.dropWhile, this]

/-- `toInt` reads a string of ASCII digits as the number it writes. -/
theorem toInt_of_digits (q : QCharClasses) (hq : q.DigitsOk) (a : QString) (hne : a ≠ [])
    (hd : a.all Char.isDigit = true) (hv : QString.decimalValue a ≤ 2147483647) :
    QString.toInt q a = some (QString.decimalValue a : Int) := by
  have hall := List.all_eq_true.mp hd
  have h1 : a.dropWhile q.isSpace = a := by
    apply dropWhile_eq_self_of_head
    intro c hc
    exact (hq c (hall c (List.mem_of_mem_head? hc))).2
  have h2 : a.reverse.dropWhile q.isSpace = a.reverse := by
    apply dropWhile_eq_self_of_head
    intro c hc
    have hm : c ∈ a := List.mem_reverse.mp (List.mem_of_mem_head? hc)
    exact (hq c (hall c hm)).2
  unfold QString.toInt
  simp only [h1, h2, List.reverse_reverse]
  cases a with
  | nil => exact absurd rfl hne
  | cons c rest =>
    have hcd : c.isDigit = true := hall c (List.mem_cons_self _ _)
    have hminus : c ≠ '-' := by
      rintro rfl
      revert hcd
      decide
    have hplus : c ≠ '+' := by
      rintro rfl
      revert hcd
      decide
    have hbody : (match c :: rest with
        | '-' :: r => r
        | '+' :: r => r
        | r => r) = c :: rest := by
      split
      · next r heq => cases heq; exact absurd rfl hminus
      · next r heq => cases heq; exact absurd rfl hplus
      · rfl
    have hhead : ¬ (c :: rest).head? = some '-' := by
      simp only [List.head?_cons, Option.some.injEq]
      exact hminus
    simp only [hbody, hhead, if_false]
    have hv2 : ((QString.decimalValue (c :: rest) : Nat) : Int) ≤ 2147483647 := by
      exact_mod_cast hv
    have hv3 : (-2147483648 : Int) ≤ ((QString.decimalValue (c :: rest) : Nat) : Int) := by
      omega
    simp [hd, hv2, hv3]

theorem wrapInt_of_range (x : Int) (h1 : -2147483648 ≤ x) (h2 : x ≤ 2147483647) :
    wrapInt x = x := by
  unfold wrapInt
  omega

end KAlarm


namespace KAlarm

theorem getVersionNumber_three (q : QCharClasses) (hq : q.DigitsOk) (a b c : QString)
    (sub : Bool)
    (ha : a ≠ [] ∧ a.all Char.isDigit = true) (hb : b ≠ [] ∧ b.all Char.isDigit = true)
    (hc : c ≠ [] ∧ c.all Char.isDigit = true)
    (hfit : QString.decimalValue a * 10000 + min (QString.decimalValue b) 99 * 100
              + min (QString.decimalValue c) 99 ≤ 2147483647)
    (hB : QString.decimalValue b ≤ 2147483647) (hC : QString.decimalValue c ≤ 2147483647) :
    (getVersionNumber q (a ++ '.' :: (b ++ '.' :: c)) sub).1
      = ((QString.decimalValue a * 10000 + min (QString.decimalValue b) 99 * 100
          + min (QString.decimalValue c) 99 : Nat) : Int) := by
  have hsplit : QString.split '.' (a ++ '.' :: (b ++ '.' :: c)) = [a, b, c] := by
    rw [split_append_sep _ _ _ (dot_not_mem_of_digits a ha.2),
      split_append_sep _ _ _ (dot_not_mem_of_digits b hb.2),
      split_of_not_mem _ _ (dot_not_mem_of_digits c hc.2)]
  have hA : QString.decimalValue a ≤ 2147483647 := by omega
  have hc0 : q.isDigit (c.getD 0 ' ') = true := by
    cases c with
    | nil => exact absurd rfl hc.1
    | cons x rest =>
      exact (hq x (List.all_eq_true.mp hc.2 x (List.mem_cons_self _ _))).1
  have hclen : c.length ≠ 0 := by
    intro h
    exact hc.1 (List.length_eq_zero.mp h)
  unfold getVersionNumber
  simp only [hsplit, List.length_cons, List.length_nil, List.getD_cons_zero, List.getD_cons_succ,
    toInt_of_digits q hq a ha.1 ha.2 hA, toInt_of_digits q hq b hb.1 hb.2 hB,
    toInt_of_digits q hq c hc.1 hc.2 hC, Option.getD_some, hc0, hclen]
  have hmB : min (QString.decimalValue b) 99 = QString.decimalValue b
        ∧ QString.decimalValue b < 99
      ∨ min (QString.decimalValue b) 99 = 99 ∧ 99 ≤ QString.decimalValue b := by
    rcases Nat.lt_or_ge (QString.decimalValue b) 99 with h | h
    · exact Or.inl ⟨Nat.min_eq_left (Nat.le_of_lt h), h⟩
    · exact Or.inr ⟨Nat.min_eq_right h, h⟩
  have hmC : min (QString.decimalValue c) 99 = QString.decimalValue c
        ∧ QString.decimalValue c < 99
      ∨ min (QString.decimalValue c) 99 = 99 ∧ 99 ≤ QString.decimalValue c := by
    rcases Nat.lt_or_ge (QString.decimalValue c) 99 with h | h
    · exact Or.inl ⟨Nat.min_eq_left (Nat.le_of_lt h), h⟩
    · exact Or.inr ⟨Nat.min_eq_right h, h⟩
  have hcount : ¬ ((0 + 1 + 1 + 1 < 2) ∨ (0 + 1 + 1 + 1 > 3)) := by omega
  simp only [hcount, if_false, if_true, false_or, Bool.true_eq_false]
  unfold wrapInt
  rcases hmB with ⟨eB, hB2⟩ | ⟨eB, hB2⟩ <;> rcases hmC with ⟨eC, hC2⟩ | ⟨eC, hC2⟩ <;>
    rw [eB, eC] at hfit ⊢ <;> split_ifs <;> omega

theorem getVersionNumber_two (q : QCharClasses) (hq : q.DigitsOk) (a b : QString) (sub : Bool)
    (ha : a ≠ [] ∧ a.all Char.isDigit = true) (hb : b ≠ [] ∧ b.all Char.isDigit = true)
    (hfit : QString.decimalValue a * 10000 + min (QString.decimalValue b) 99 * 100
              ≤ 2147483647)
    (hB : QString.decimalValue b ≤ 2147483647) :
    (getVersionNumber q (a ++ '.' :: b) sub).1
      = ((QString.decimalValue a * 10000 + min (QString.decimalValue b) 99 * 100 : Nat)
          : Int) := by
  have hsplit : QString.split '.' (a ++ '.' :: b) = [a, b] := by
    rw [split_append_sep _ _ _ (dot_not_mem_of_digits a ha.2),
      split_of_not_mem _ _ (dot_not_mem_of_digits b hb.2)]
  have hA : QString.decimalValue a ≤ 2147483647 := by omega
  unfold getVersionNumber
  simp only [hsplit, List.length_cons, List.length_nil, List.getD_cons_zero, List.getD_cons_succ,
    toInt_of_digits q hq a ha.1 ha.2 hA, toInt_of_digits q hq b hb.1 hb.2 hB]
  have hmB : min (QString.decimalValue b) 99 = QString.decimalValue b
        ∧ QString.decimalValue b < 99
      ∨ min (QString.decimalValue b) 99 = 99 ∧ 99 ≤ QString.decimalValue b := by
    rcases Nat.lt_or_ge (QString.decimalValue b) 99 with h | h
    · exact Or.inl ⟨Nat.min_eq_left (Nat.le_of_lt h), h⟩
    · exact Or.inr ⟨Nat.min_eq_right h, h⟩
  have hcount : ¬ ((0 + 1 + 1 < 2) ∨ (0 + 1 + 1 > 3)) := by omega
  have hcount3 : ¬ (0 + 1 + 1 = 3) := by omega
  simp only [hcount, hcount3, if_false]
  unfold wrapInt
  rcases hmB with ⟨eB, hB2⟩ | ⟨eB, hB2⟩ <;>
    rw [eB] at hfit ⊢ <;> split_ifs <;> omega

end KAlarm


namespace KAlarm

theorem asciiClasses_digitsOk : asciiClasses.DigitsOk := by
  intro c h
  refine ⟨h, ?_⟩
  have hd : 48 ≤ c.toNat ∧ c.toNat ≤ 57 := by
    have h2 := h
    simp only [Char.isDigit, Bool.and_eq_true, decide_eq_true_eq] at h2
    have a : (48 : UInt32).toNat ≤ c.val.toNat := h2.1
    have b : c.val.toNat ≤ (57 : UInt32).toNat := h2.2
    exact ⟨a, b⟩
  have h32 : ¬ c.toNat = 32 := by omega
  have h13 : ¬ c.toNat ≤ 13 := by omega
  simp [asciiClasses, h32, h13]

/-- C14: for a version string `M.m.i` of three numbers written in ASCII digits
that fit an `int`, `getVersionNumber` returns `M*10000 + min(m, 99)*100 +
min(i, 99)`, and for `M.m` it returns `M*10000 + min(m, 99)*100`. -/
theorem C14_getVersionNumber_value (q : QCharClasses) (hq : q.DigitsOk) (a b c : QString)
    (sub : Bool)
    (ha : a ≠ [] ∧ a.all Char.isDigit = true) (hb : b ≠ [] ∧ b.all Char.isDigit = true)
    (hc : c ≠ [] ∧ c.all Char.isDigit = true)
    (hfit : QString.decimalValue a * 10000 + min (QString.decimalValue b) 99 * 100
              + min (QString.decimalValue c) 99 ≤ 2147483647)
    (hB : QString.decimalValue b ≤ 2147483647) (hC : QString.decimalValue c ≤ 2147483647) :
    (getVersionNumber q (a ++ '.' :: (b ++ '.' :: c)) sub).1
      = ((QString.decimalValue a * 10000 + min (QString.decimalValue b) 99 * 100
          + min (QString.decimalValue c) 99 : Nat) : Int)
    ∧ (getVersionNumber q (a ++ '.' :: b) sub).1
      = ((QString.decimalValue a * 10000 + min (QString.decimalValue b) 99 * 100 : Nat)
          : Int) :=
  ⟨getVersionNumber_three q hq a b c sub ha hb hc hfit hB hC,
    getVersionNumber_two q hq a b sub ha hb (by omega) hB⟩

theorem C14_getVersionNumber_value_witness :
    (getVersionNumber asciiClasses "1.2.3".toList false).1 = 10203
    ∧ (getVersionNumber asciiClasses "1.2".toList false).1 = 10200 :=
  C14_getVersionNumber_value asciiClasses asciiClasses_digitsOk "1".toList "2".toList
    "3".toList false (by decide) (by decide) (by decide) (by decide) (by decide) (by decide)

/-- C15: `getVersionNumber` returns 0 for every invalid version string: when
the split at `.` gives fewer than 2 or more than 3 parts, when the first or the
second part is not an integer, or when a third part is empty or does not start
with a digit. -/
theorem C15_getVersionNumber_invalid (q : QCharClasses) (version : QString) (sub : Bool) :
    ((QString.split '.' version).length < 2 ∨ (QString.split '.' version).length > 3 →
        (getVersionNumber q version sub).1 = 0)
    ∧ (QString.toInt q ((QString.split '.' version).getD 0 []) = none →
        (getVersionNumber q version sub).1 = 0)
    ∧ (QString.toInt q ((QString.split '.' version).getD 1 []) = none →
        (getVersionNumber q version sub).1 = 0)
    ∧ ((QString.split '.' version).length = 3 →
        ((QString.split '.' version).getD 2 [] = []
          ∨ ∃ ch rest, (QString.split '.' version).getD 2 [] = ch :: rest
              ∧ q.isDigit ch = false) →
        (getVersionNumber q version sub).1 = 0) := by
  refine ⟨?_, ?_, ?_, ?_⟩
  · intro h
    unfold getVersionNumber
    simp only [h, if_true]
  · intro h
    unfold getVersionNumber
    simp only [h]
    split <;> rfl
  · intro h
    unfold getVersionNumber
    simp only [h]
    split
    · rfl
    · split <;> rfl
  · intro h3 hissue
    unfold getVersionNumber
    simp only [h3]
    have hbad : ((QString.split '.' version).getD 2 []).length = 0
        ∨ q.isDigit (((QString.split '.' version).getD 2 []).getD 0 ' ') = false := by
      rcases hissue with h | ⟨ch, rest, h, hd⟩
      · left; rw [h]; rfl
      · right; rw [h]; exact hd
    split
    · rfl
    · split
      · rfl
      · split
        · rfl
        · simp only [if_true, hbad]

theorem C15_getVersionNumber_invalid_witness :
    (QString.split '.' "1.2.3.4".toList).length > 3
    ∧ (getVersionNumber asciiClasses "1.2.3.4".toList true).1 = 0
    ∧ QString.toInt asciiClasses ((QString.split '.' "1.x.3".toList).getD 1 []) = none
    ∧ (getVersionNumber asciiClasses "1.x.3".toList true).1 = 0 :=
  ⟨by decide,
    (C15_getVersionNumber_invalid asciiClasses "1.2.3.4".toList true).1 (Or.inr (by decide)),
    by decide,
    (C15_getVersionNumber_invalid asciiClasses "1.x.3".toList true).2.2.1 (by decide)⟩

/-- C16 at `1.2.3beta`: the issue number 3 is followed by other characters. The
sub-version is set to `beta`, but `toInt` of the whole issue `3beta` fails and
the issue number counts as 0, so the result is 10200, not 10203. -/
theorem C16_issue_suffix_loses_issue_number :
    getVersionNumber asciiClasses "1.2.3beta".toList true = (10200, some "beta".toList)
    ∧ QString.toInt asciiClasses "3beta".toList = none
    ∧ (getVersionNumber asciiClasses "1.2.3".toList true).1 = 10203 := by
  decide

end KAlarm


namespace KAlarm

/-! ### Mime types -/

theorem char_eq_of_toNat_eq (c d : Char) (h : c.toNat = d.toNat) : c = d := by
  rw [← Char.ofNat_toNat c, ← Char.ofNat_toNat d, h]

theorem indexOfFrom_eq (ch : Char) (s : QString) (i : Nat) :
    QString.indexOfFrom ch s i
      = if ch ∈ s then ((i + (s.takeWhile (fun c => c != ch)).length : Nat) : Int) else -1 := by
  induction s generalizing i with
  | nil => simp [QString.indexOfFrom]
  | cons c rest ih =>
    by_cases hc : c = ch
    · subst hc
      simp [QString.indexOfFrom, List.takeWhile]
    · have hne : (c != ch) = true := by simpa using hc
      have hmem : (ch ∈ c :: rest) ↔ ch ∈ rest := by
        simp only [List.mem_cons]
        constructor
        · rintro (h | h)
          · exact absurd h.symm hc
          · exact h
        · exact Or.inr
      simp only [QString.indexOfFrom, hc, if_false, ih (i + 1), List.takeWhile, hne, hmem,
        List.length_cons]
      split
      · congr 1
        omega
      · rfl

theorem drop_takeWhile_length_succ (p : Char → Bool) (s : QString) :
    s.drop ((s.takeWhile p).length + 1) = (s.dropWhile p).drop 1 := by
  induction s with
  | nil => rfl
  | cons c rest ih =>
    cases hp : p c with
    | true => simp [List.takeWhile, List.dropWhile, hp, ih]
    | false => simp [List.takeWhile, List.dropWhile, hp]

theorem toLatin1_eq_cstr_iff (type e : QString) (he : ∀ c ∈ e, cleanChar c = true) :
    QString.toLatin1 type = e.map Char.toNat ↔ type = e := by
  induction type generalizing e with
  | nil =>
    cases e with
    | nil => simp [QString.toLatin1]
    | cons d ds => simp [QString.toLatin1]
  | cons c cs ih =>
    cases e with
    | nil => simp [QString.toLatin1]
    | cons d ds =>
      have hd := he d (List.mem_cons_self _ _)
      simp only [cleanChar, Bool.and_eq_true, decide_eq_true_eq, bne_iff_ne, ne_eq] at hd
      have hds : ∀ x ∈ ds, cleanChar x = true := fun x hx => he x (List.mem_cons_of_mem _ hx)
      have ih2 := ih ds hds
      simp only [QString.toLatin1] at ih2
      simp only [QString.toLatin1, List.map_cons, List.cons.injEq, ih2]
      constructor
      · rintro ⟨h1, h2⟩
        refine ⟨?_, h2⟩
        apply char_eq_of_toNat_eq
        split at h1
        · exact h1
        · exact absurd h1.symm hd.1.2
      · rintro ⟨rfl, h2⟩
        refine ⟨?_, h2⟩
        simp [hd.1.1]

theorem takeWhile_toLatin1_of_no_nul (type : QString) (h : Char.ofNat 0 ∉ type) :
    (QString.toLatin1 type).takeWhile (fun x => x != 0) = QString.toLatin1 type := by
  rw [List.takeWhile_eq_self_iff]
  intro x hx
  simp only [QString.toLatin1, List.mem_map] at hx
  obtain ⟨c, hc, rfl⟩ := hx
  simp only [bne_iff_ne, ne_eq]
  intro h0
  apply h
  have hz : c.toNat = 0 := by
    split at h0
    · exact h0
    · omega
  have : c = Char.ofNat 0 := by
    rw [← Char.ofNat_toNat c, hz]
  rw [← this]
  exact hc

theorem takeWhile_cstr_of_clean (e : QString) (he : ∀ c ∈ e, cleanChar c = true) :
    (e.map Char.toNat).takeWhile (fun x => x != 0) = e.map Char.toNat := by
  rw [List.takeWhile_eq_self_iff]
  intro x hx
  simp only [List.mem_map] at hx
  obtain ⟨c, hc, rfl⟩ := hx
  have := he c hc
  simp only [cleanChar, Bool.and_eq_true] at this
  exact this.2

theorem matchesTable_iff (type : QString) (h : Char.ofNat 0 ∉ type) (table : List String)
    (ht : ∀ e ∈ table, ∀ c ∈ e.toList, cleanChar c = true) :
    matchesTable (QString.toLatin1 type) table = true ↔ type ∈ table.map String.toList := by
  induction table with
  | nil => simp [matchesTable]
  | cons e rest ih =>
    have he := ht e (List.mem_cons_self _ _)
    have hrest := ih (fun x hx => ht x (List.mem_cons_of_mem _ hx))
    have hcmp : strcmpEq (QString.toLatin1 type) (cstr e) = true ↔ type = e.toList := by
      unfold strcmpEq cstr
      rw [takeWhile_toLatin1_of_no_nul type h, takeWhile_cstr_of_clean e.toList he]
      rw [beq_iff_eq]
      exact toLatin1_eq_cstr_iff type e.toList he
    unfold matchesTable
    by_cases hc : strcmpEq (QString.toLatin1 type) (cstr e) = true
    · simp only [hc, if_true, List.map_cons, List.mem_cons, true_iff]
      exact Or.inl (hcmp.mp hc)
    · have hne : ¬ type = e.toList := fun x => hc (hcmp.mpr x)
      simp only [hc, List.map_cons, List.mem_cons, hne, false_or]
      exact hrest

theorem tables_clean :
    (∀ e ∈ applicationTypes, ∀ c ∈ e.toList, cleanChar c = true)
    ∧ (∀ e ∈ formattedTextTypes, ∀ c ∈ e.toList, cleanChar c = true) := by
  decide

end KAlarm


namespace KAlarm

/-- C17 at `text/html`: `fileType` compares through a pointer into a buffer
that has been freed. Where the freed buffer reads as an empty C string the
result is TextPlain, although the text after the slash is `html`, an entry of
the table `formattedTextTypes`, for which the table gives TextFormatted; that
result is returned only where the freed bytes are still in place. -/
theorem C17_fileType_reads_freed_memory :
    fileType (fun _ => [0]) "text/html".toList = FileType.TextPlain
    ∧ fileTypeSpec "text/html".toList = FileType.TextFormatted
    ∧ fileType (fun b => b) "text/html".toList = FileType.TextFormatted
    ∧ fileType (fun _ => cstr "x-perl") "application/pdf".toList = FileType.TextApplication
    ∧ fileTypeSpec "application/pdf".toList = FileType.Unknown := by
  decide

/-- Where the freed bytes are still in place when they are compared, and the
string has no NUL character (C strings end at the first NUL), `fileType`
follows the table: Image if it starts with `image/`; otherwise Unknown without
a `/`; otherwise, `sub` being the text after the first `/`, TextApplication if
it starts with `application` and `sub` is in the first table, TextFormatted if
it starts with `text` and `sub` is `html` or `xml`, TextPlain if it starts with
`text` and `sub` is anything else, Unknown in every remaining case. -/
theorem fileType_table_when_bytes_stay (mimetype : QString)
    (hnul : Char.ofNat 0 ∉ mimetype) :
    fileType (fun b => b) mimetype = fileTypeSpec mimetype := by
  have hAT : QString.startsWith mimetype "application".toList = true →
      QString.startsWith mimetype "text".toList = true → False := by
    intro happ ht
    cases mimetype with
    | nil => simp [QString.startsWith] at happ
    | cons c cs =>
      simp only [String.toList, QString.startsWith, Bool.and_eq_true,
        decide_eq_true_eq] at happ ht
      have := happ.1.symm.trans ht.1
      revert this
      decide
  unfold fileType fileTypeSpec
  by_cases himg : QString.startsWith mimetype "image/".toList = true
  · simp only [himg, if_true]
  · simp only [himg, if_false, Bool.false_eq_true]
    unfold QString.indexOf
    rw [indexOfFrom_eq]
    by_cases hs : '/' ∈ mimetype
    · have hneg : ¬ (((0 + (mimetype.takeWhile (fun c => c != '/')).length : Nat) : Int) < 0) := by
        omega
      have hnat : (((0 + (mimetype.takeWhile (fun c => c != '/')).length : Nat) : Int) + 1).toNat
          = (mimetype.takeWhile (fun c => c != '/')).length + 1 := by
        omega
      have hnot : ¬ '/' ∉ mimetype := fun h => h hs
      simp only [hs, if_true, hneg, if_false, hnat, drop_takeWhile_length_succ, hnot]
      have hsub : Char.ofNat 0 ∉ (mimetype.dropWhile (fun c => c != '/')).drop 1 := by
        intro h
        exact hnul ((List.dropWhile_sublist _).subset (List.mem_of_mem_drop h))
      have h1 := matchesTable_iff _ hsub applicationTypes tables_clean.1
      have h2 := matchesTable_iff _ hsub formattedTextTypes tables_clean.2
      generalize (mimetype.dropWhile (fun c => c != '/')).drop 1 = sub at h1 h2 ⊢
      have hMA : matchesTable (QString.toLatin1 sub) applicationTypes
          = decide (sub ∈ applicationTypes.map String.toList) := by
        by_cases hp : sub ∈ applicationTypes.map String.toList
        · rw [h1.mpr hp, decide_eq_true hp]
        · rw [Bool.eq_false_iff.mpr (fun h => hp (h1.mp h)), decide_eq_false hp]
      have hMF : matchesTable (QString.toLatin1 sub) formattedTextTypes
          = decide (sub ∈ formattedTextTypes.map String.toList) := by
        by_cases hp : sub ∈ formattedTextTypes.map String.toList
        · rw [h2.mpr hp, decide_eq_true hp]
        · rw [Bool.eq_false_iff.mpr (fun h => hp (h2.mp h)), decide_eq_false hp]
      rw [hMA, hMF]
      by_cases hPA : sub ∈ applicationTypes.map String.toList <;>
        by_cases hPF : sub ∈ formattedTextTypes.map String.toList <;>
        by_cases happ : QString.startsWith mimetype "application".toList = true <;>
        by_cases htxt : QString.startsWith mimetype "text".toList = true <;>
        first
          | exact absurd htxt (fun h => hAT happ h)
          | simp only [hPA, hPF, happ, htxt, decide_True, decide_False, if_true, if_false,
              and_true, and_false, true_and, false_and, and_self, Bool.false_eq_true,
              not_true_eq_false, not_false_eq_true]
    · have hlt : ((-1 : Int) < 0) := by decide
      simp only [hs, if_false, hlt, if_true, not_false_eq_true]

end KAlarm


namespace KAlarm

/-! ### Accelerators -/

theorem take_succ_set (out : QString) (cout : Nat) (d : Char) (h : cout < out.length) :
    (out.set cout d).take (cout + 1) = out.take cout ++ [d] := by
  induction out generalizing cout with
  | nil => simp at h
  | cons c rest ih =>
    cases cout with
    | zero => simp
    | succ n =>
      simp only [List.length_cons, Nat.add_lt_add_iff_right] at h
      simp [ih n h]

theorem stripAccelSpec_cons_of_ne (c : Char) (l : QString) (h : c ≠ '&') :
    stripAccelSpec (c :: l) = c :: stripAccelSpec l := by
  cases l with
  | nil => simp [stripAccelSpec, h]
  | cons d rest => simp [stripAccelSpec, h]

/-- What the loop of `stripAccel` leaves: the characters before `cout` are the
ones that were there, followed by the stripped rest of the input. -/
theorem stripAccelLoop_take (fuel : Nat) (out : QString) (cin cout len : Nat)
    (h1 : cout ≤ cin) (h2 : cin + len = out.length) (h3 : len ≤ fuel) :
    (stripAccelLoop fuel out cin cout len).1.length = out.length
    ∧ (stripAccelLoop fuel out cin cout len).2 ≤ out.length
    ∧ (stripAccelLoop fuel out cin cout len).1.take (stripAccelLoop fuel out cin cout len).2
        = out.take cout ++ stripAccelSpec (out.drop cin) := by
  induction fuel generalizing out cin cout len with
  | zero =>
    have hlen : len = 0 := by omega
    have hdrop : out.drop cin = [] := List.drop_eq_nil_of_le (by omega)
    simp only [stripAccelLoop, hdrop, stripAccelSpec, List.append_nil, true_and]
    exact ⟨by omega, trivial⟩
  | succ fuel ih =>
    unfold stripAccelLoop
    by_cases hlen : len = 0
    · have hdrop : out.drop cin = [] := List.drop_eq_nil_of_le (by omega)
      simp only [hlen, if_true, hdrop, stripAccelSpec, List.append_nil, true_and]
      exact ⟨by omega, trivial⟩
    · have hcin : cin < out.length := by omega
      have hget : out.getD cin ' ' = out[cin] := by
        simp [List.getD_eq_getElem?_getD, List.getElem?_eq_getElem hcin]
      have hdrop : out.drop cin = out[cin] :: out.drop (cin + 1) :=
        List.drop_eq_getElem_cons hcin
      simp only [hlen, if_false, hget]
      by_cases hamp : out[cin] = '&'
      · simp only [hamp, if_true]
        by_cases hlast : len - 1 = 0
        · have hd2 : out.drop (cin + 1) = [] := List.drop_eq_nil_of_le (by omega)
          simp only [hlast, if_true, hdrop, hamp, hd2, stripAccelSpec, List.append_nil,
            true_and]
          exact ⟨by omega, trivial⟩
        · have hcin1 : cin + 1 < out.length := by omega
          have hget1 : out.getD (cin + 1) ' ' = out[cin + 1] := by
            simp [List.getD_eq_getElem?_getD, List.getElem?_eq_getElem hcin1]
          have hdrop1 : out.drop (cin + 1) = out[cin + 1] :: out.drop (cin + 1 + 1) :=
            List.drop_eq_getElem_cons hcin1
          simp only [hlast, if_false, hget1]
          have hIH := ih (out.set cout out[cin + 1]) (cin + 1 + 1) (cout + 1) (len - 1 - 1)
            (by omega) (by rw [List.length_set]; omega) (by omega)
          rw [List.length_set, take_succ_set out cout _ (by omega),
            List.drop_set_of_lt _ _ (by omega)] at hIH
          refine ⟨hIH.1, hIH.2.1, ?_⟩
          rw [hIH.2.2, hdrop, hamp, hdrop1]
          simp [stripAccelSpec]
      · simp only [hamp, if_false]
        have hIH := ih (out.set cout out[cin]) (cin + 1) (cout + 1) (len - 1)
          (by omega) (by rw [List.length_set]; omega) (by omega)
        rw [List.length_set, take_succ_set out cout _ (by omega),
          List.drop_set_of_lt _ _ (by omega)] at hIH
        refine ⟨hIH.1, hIH.2.1, ?_⟩
        rw [hIH.2.2, hdrop, stripAccelSpec_cons_of_ne _ _ hamp]
        simp

theorem stripAccel_eq_spec (text : QString) : stripAccel text = stripAccelSpec text := by
  have h := stripAccelLoop_take text.length text 0 0 text.length (Nat.le_refl 0)
    (by omega) (Nat.le_refl _)
  simp only [List.take_zero, List.nil_append, List.drop_zero] at h
  unfold stripAccel
  simp only
  split
  · exact h.2.2
  · next hc =>
    have heq : (stripAccelLoop text.length text 0 0 text.length).2
        = (stripAccelLoop text.length text 0 0 text.length).1.length := by
      by_contra hne
      exact hc hne
    rw [← h.2.2, heq, List.take_length]

theorem stripAccelSpec_of_no_amp (text : QString) (h : '&' ∉ text) :
    stripAccelSpec text = text := by
  induction text with
  | nil => rfl
  | cons c rest ih =>
    simp only [List.mem_cons, not_or] at h
    have hc : c ≠ '&' := fun e => h.1 e.symm
    rw [stripAccelSpec_cons_of_ne c rest hc, ih h.2]

theorem stripAccelSpec_length_le (n : Nat) (text : QString) (hn : text.length ≤ n) :
    (stripAccelSpec text).length ≤ text.length := by
  induction n generalizing text with
  | zero =>
    have : text = [] := List.length_eq_zero.mp (by omega)
    subst this
    simp [stripAccelSpec]
  | succ n ih =>
    cases text with
    | nil => simp [stripAccelSpec]
    | cons c rest =>
      cases rest with
      | nil =>
        unfold stripAccelSpec
        split <;> simp
      | cons d rest2 =>
        unfold stripAccelSpec
        simp only [List.length_cons] at hn
        split
        · have := ih rest2 (by omega)
          simp only [List.length_cons]
          omega
        · have := ih (d :: rest2) (by simp only [List.length_cons]; omega)
          simp only [List.length_cons] at this ⊢
          omega

/-- C18: `stripAccel` strips every accelerator code: each `&` is dropped and
the character after it kept, a lone `&` at the end is dropped, every other
character is kept in order. A string without `&` is returned unchanged and the
result is never longer than the input. -/
theorem C18_stripAccel (text : QString) :
    stripAccel text = stripAccelSpec text
    ∧ ('&' ∉ text → stripAccel text = text)
    ∧ (stripAccel text).length ≤ text.length := by
  refine ⟨stripAccel_eq_spec text, ?_, ?_⟩
  · intro h
    rw [stripAccel_eq_spec, stripAccelSpec_of_no_amp text h]
  · rw [stripAccel_eq_spec]
    exact stripAccelSpec_length_le text.length text (Nat.le_refl _)

theorem C18_stripAccel_witness :
    '&' ∉ "Exit".toList
    ∧ stripAccel "Exit".toList = "Exit".toList
    ∧ stripAccel "&File && E&xit&".toList = "File & Exit".toList :=
  ⟨by decide, (C18_stripAccel "Exit".toList).2.1 (by decide), by decide⟩

end KAlarm


/-! ## Theorems on eventid.cpp -/

namespace EventId

theorem rxBacktrack_self (w rest : QString) (hne : w ≠ []) :
    rxBacktrack (w ++ ':' :: rest) w.length = some (w.length + 1) := by
  cases hw : w.length with
  | zero => exact absurd (List.length_eq_zero.mp hw) hne
  | succ k =>
    have hget : (w ++ ':' :: rest)[k + 1]? = some ':' := by
      rw [← hw, List.getElem?_append_right (Nat.le_refl _)]
      simp
    simp only [rxBacktrack, hget, if_true]

theorem rxBacktrack_some (s : QString) (m n : Nat) (h : rxBacktrack s m = some n) :
    ∃ k, k < m ∧ n = k + 1 + 1 ∧ s[k + 1]? = some ':' := by
  induction m with
  | zero => simp [rxBacktrack] at h
  | succ k ih =>
    unfold rxBacktrack at h
    split at h
    · next hc =>
      simp only [Option.some.injEq] at h
      exact ⟨k, Nat.lt_succ_self k, h.symm, hc⟩
    · obtain ⟨j, hj, hn, hg⟩ := ih h
      exact ⟨j, Nat.lt_succ_of_lt hj, hn, hg⟩

/-- C20: `EventId(s)` parses `[rid:]eid`. If `s` begins with one or more word
characters followed by `:`, `second` is the text after that `:` and `first` is
the ID of the resource whose config name is the text before it; otherwise
`first` is -1 and `second` is the whole of `s`. -/
theorem C20_EventId_parse (q : QCharClasses) (resourceForConfigName : QString → Resource)
    (hq : isWordChar q ':' = false) :
    (∀ w rest : QString, w ≠ [] → (∀ c ∈ w, isWordChar q c = true) →
        ctor q resourceForConfigName (w ++ ':' :: rest)
          = { first := (resourceForConfigName w).id, second := rest })
    ∧ (∀ s : QString,
        (¬ ∃ w rest : QString, w ≠ [] ∧ (∀ c ∈ w, isWordChar q c = true) ∧ s = w ++ ':' :: rest) →
        ctor q resourceForConfigName s = { first := -1, second := s }) := by
  constructor
  · intro w rest hne hw
    have htw : (w ++ ':' :: rest).takeWhile (isWordChar q) = w := by
      rw [List.takeWhile_append_of_pos hw]
      simp [List.takeWhile, hq]
    unfold ctor rxMatchedLength
    rw [htw, rxBacktrack_self w rest hne]
    simp
  · intro s hno
    have hnone : rxMatchedLength q s = none := by
      cases hm : rxMatchedLength q s with
      | none => rfl
      | some n =>
        exfalso
        apply hno
        unfold rxMatchedLength at hm
        obtain ⟨k, hk, -, hget⟩ := rxBacktrack_some s _ n hm
        have hsplit : s.takeWhile (isWordChar q) ++ s.dropWhile (isWordChar q) = s :=
          List.takeWhile_append_dropWhile _ _
        have hword : ∀ c ∈ s.takeWhile (isWordChar q), isWordChar q c = true :=
          fun c hc => List.mem_takeWhile_imp hc
        have hkeq : k + 1 = (s.takeWhile (isWordChar q)).length := by
          by_contra hne
          have hlt : k + 1 < (s.takeWhile (isWordChar q)).length := by omega
          rw [← hsplit, List.getElem?_append_left hlt] at hget
          have hmem := List.getElem?_mem hget
          rw [hword ':' hmem] at hq
          cases hq
        rw [← hsplit, hkeq, List.getElem?_append_right (Nat.le_refl _)] at hget
        simp only [Nat.sub_self] at hget
        cases hd : s.dropWhile (isWordChar q) with
        | nil => rw [hd] at hget; simp at hget
        | cons d rest =>
          rw [hd] at hget
          simp only [List.getElem?_cons_zero, Option.some.injEq] at hget
          subst hget
          refine ⟨s.takeWhile (isWordChar q), rest, ?_, hword, ?_⟩
          · intro he
            rw [he] at hkeq
            simp at hkeq
          · rw [← hd, hsplit]
    unfold ctor
    rw [hnone]

theorem C20_EventId_parse_witness :
    isWordChar asciiClasses ':' = false
    ∧ ctor asciiClasses (fun n => ⟨n.length⟩) ("res_1".toList ++ ':' :: "abc:def".toList)
        = { first := 5, second := "abc:def".toList }
    ∧ ctor asciiClasses (fun n => ⟨n.length⟩) "a-b:abc".toList
        = { first := -1, second := "a-b:abc".toList } :=
  ⟨by decide,
    (C20_EventId_parse asciiClasses (fun n => ⟨n.length⟩) (by decide)).1 "res_1".toList
      "abc:def".toList (by decide) (by decide),
    by decide⟩

end EventId


namespace KAlarm

/-! ### The daemon check -/

theorem gatedByDaemonCheck_seen (l : List Action) : gatedByDaemonCheck true l = true := by
  induction l with
  | nil => rfl
  | cons a rest ih =>
    unfold gatedByDaemonCheck
    split
    · simp [ih]
    · simpa using ih

theorem gatedByDaemonCheck_of_no_mutation (seen : Bool) (l : List Action)
    (h : ∀ a ∈ l, a.isCalendarMutation = false) : gatedByDaemonCheck seen l = true := by
  induction l generalizing seen with
  | nil => rfl
  | cons a rest ih =>
    unfold gatedByDaemonCheck
    rw [h a (List.mem_cons_self _ _)]
    simp only [Bool.false_eq_true, if_false]
    exact ih _ (fun x hx => h x (List.mem_cons_of_mem _ hx))

theorem reportError_no_mutation {σ : Type} (W : World σ) (s : σ) (status : UpdateStatus)
    (errmsgParent : Bool) (code : UpdateError) (nAlarms : Int) (nKOrgAlarms : Option Int)
    (showKOrgErr : Option Bool) :
    ∀ a ∈ (reportError W s status errmsgParent code nAlarms nKOrgAlarms showKOrgErr).2,
      a.isCalendarMutation = false := by
  intro a ha
  unfold reportError at ha
  split at ha
  · simp only [List.mem_singleton] at ha
    subst ha
    rfl
  · cases ha

/-- The trace of `addEvent` starts with the daemon check, and holds no calendar
mutation when the check fails. -/
theorem addEvent_trace {σ : Type} (W : World σ) (s : σ) (event : KAEvent)
    (selectionView useEventID allowKOrgUpdate errmsgParent showKOrgErr : Bool) :
    (∃ rest, (addEvent W s event selectionView useEventID allowKOrgUpdate errmsgParent
        showKOrgErr).trace = Action.checkCalendarDaemon (W.checkCalendarDaemon s).1 :: rest)
    ∧ ((W.checkCalendarDaemon s).1 = false →
        ∀ a ∈ (addEvent W s event selectionView useEventID allowKOrgUpdate errmsgParent
          showKOrgErr).trace, a.isCalendarMutation = false) := by
  constructor
  · exact ⟨_, rfl⟩
  · intro hc a ha
    unfold addEvent at ha
    simp only [hc, Bool.not_false, if_true, List.nil_append, List.mem_cons] at ha
    rcases ha with ha | ha
    · subst ha; rfl
    · simp only [reduceCtorEq, if_false, List.nil_append] at ha
      exact reportError_no_mutation _ _ _ _ _ _ _ _ a ha

/-- The trace of `addEvents` is empty or starts with the daemon check, and
holds no calendar mutation when the check fails. -/
theorem addEvents_trace {σ : Type} (W : World σ) (s : σ) (events : List KAEvent)
    (selectionView allowKOrgUpdate errmsgParent showKOrgErr : Bool) :
    ((addEvents W s events selectionView allowKOrgUpdate errmsgParent showKOrgErr).trace = []
      ∨ ∃ rest, (addEvents W s events selectionView allowKOrgUpdate errmsgParent
          showKOrgErr).trace = Action.checkCalendarDaemon (W.checkCalendarDaemon s).1 :: rest)
    ∧ ((W.checkCalendarDaemon s).1 = false →
        ∀ a ∈ (addEvents W s events selectionView allowKOrgUpdate errmsgParent
          showKOrgErr).trace, a.isCalendarMutation = false) := by
  unfold addEvents
  by_cases he : events.isEmpty = true
  · simp only [he, if_true]
    exact ⟨Or.inl trivial, fun _ a ha => by cases ha⟩
  · simp only [he, Bool.false_eq_true, if_false]
    refine ⟨Or.inr ⟨_, rfl⟩, ?_⟩
    intro hc a ha
    simp only [hc, Bool.not_false, if_true, List.nil_append, List.mem_cons] at ha
    rcases ha with ha | ha
    · subst ha; rfl
    · exact reportError_no_mutation _ _ _ _ _ _ _ _ a ha

theorem gated_of_check_first (b : Bool) (rest : List Action)
    (h : b = false → ∀ a ∈ Action.checkCalendarDaemon b :: rest, a.isCalendarMutation = false) :
    gatedByDaemonCheck false (Action.checkCalendarDaemon b :: rest) = true := by
  cases b with
  | true =>
    unfold gatedByDaemonCheck
    simp only [Action.isCalendarMutation, Bool.false_eq_true, if_false, Bool.false_or, beq_self_eq_true]
    exact gatedByDaemonCheck_seen rest
  | false => exact gatedByDaemonCheck_of_no_mutation _ _ (h rfl)

end KAlarm


namespace KAlarm

theorem reportError_no_check {σ : Type} (W : World σ) (s : σ) (status : UpdateStatus)
    (errmsgParent : Bool) (code : UpdateError) (nAlarms : Int) (nKOrgAlarms : Option Int)
    (showKOrgErr : Option Bool) :
    (reportError W s status errmsgParent code nAlarms nKOrgAlarms showKOrgErr).2.all
      (fun a => !a.isDaemonCheck) = true := by
  unfold reportError
  split <;> rfl

theorem addArchivedEvent_no_check {σ : Type} (W : World σ) (s : σ) (event : KAEvent) :
    (addArchivedEvent W s event).trace.all (fun a => !a.isDaemonCheck) = true := by
  unfold addArchivedEvent
  simp only
  repeat' split
  all_goals simp [Action.isDaemonCheck]

theorem deleteFromCal_no_check {σ : Type} (W : World σ) (cal : Cal) (id : String)
    (v : DeleteEventsVars) (s : σ) :
    (deleteFromCal W cal id v s).trace.all (fun a => !a.isDaemonCheck) = true := by
  unfold deleteFromCal
  simp only
  repeat' split
  all_goals rfl

theorem deleteEventsLoop_no_check {σ : Type} (W : World σ) (archive : Bool)
    (events : List KAEvent) (v : DeleteEventsVars) (s : σ) :
    (deleteEventsLoop W archive events v s).trace.all (fun a => !a.isDaemonCheck) = true := by
  induction events generalizing v s with
  | nil => rfl
  | cons event rest ih =>
    unfold deleteEventsLoop
    simp only
    repeat' split
    all_goals
      try simp only [List.all_cons, List.all_append, List.all_nil, Bool.true_and,
        Bool.and_true, Bool.and_self, deleteFromCal_no_check, addArchivedEvent_no_check, ih]
    all_goals try simp [Action.isDaemonCheck]

theorem deleteEvents_no_check {σ : Type} (W : World σ) (s : σ) (events : List KAEvent)
    (archive errmsgParent : Bool) (showKOrgErr : Option Bool) :
    (deleteEvents W s events archive errmsgParent showKOrgErr).trace.all
      (fun a => !a.isDaemonCheck) = true := by
  unfold deleteEvents
  simp only
  repeat' split
  all_goals
    try simp only [List.all_cons, List.all_append, List.all_nil, Bool.true_and,
      Bool.and_true, Bool.and_self, deleteEventsLoop_no_check, reportError_no_check]
  all_goals try simp [Action.isDaemonCheck]

theorem updateEvent_no_check {σ : Type} (W : World σ) (s : σ) (event : KAEvent)
    (selectionView archiveOnDelete incRevision errmsgParent : Bool) :
    (updateEvent W s event selectionView archiveOnDelete incRevision errmsgParent).trace.all
      (fun a => !a.isDaemonCheck) = true := by
  unfold updateEvent deleteEvent
  simp only
  repeat' split
  all_goals
    try simp only [List.all_cons, List.all_append, List.all_nil, Bool.true_and,
      Bool.and_true, Bool.and_self, deleteEvents_no_check]
  all_goals try simp [Action.isDaemonCheck]

end KAlarm


namespace KAlarm

/-- C11 as stated fails for `updateEvent` and `deleteEvents`: with a daemon
check that would fail, both still update or delete in the active calendar and
save it, and their traces hold no call of `checkCalendarDaemon`. -/
theorem C11_update_delete_not_gated :
    (updateEvent worldNoDaemon () alarmA false true true false).trace
      = [Action.calUpdateEvent Cal.active "A1", Action.calSave Cal.active true,
         Action.listViewModifyEvent "A1" false]
    ∧ gatedByDaemonCheck false
        (updateEvent worldNoDaemon () alarmA false true true false).trace = false
    ∧ (deleteEvents worldNoDaemon () [alarmA] true false (some true)).trace
      = [Action.listViewDeleteEvent "A1", Action.calDeleteEvent Cal.active "A1" true,
         Action.calSave Cal.active true]
    ∧ gatedByDaemonCheck false
        (deleteEvents worldNoDaemon () [alarmA] true false (some true)).trace = false := by
  decide

/-- C11, amended: `addEvent` and `addEvents` are gated by the daemon check. Each
calendar mutation they make comes after a `checkCalendarDaemon()` that returned
true, and they make no calendar mutation when the check fails. `updateEvent`
and `deleteEvents` never call `checkCalendarDaemon()`. -/
theorem C11_add_gated_by_daemon_check {σ : Type} (W : World σ) (s : σ) :
    (∀ (event : KAEvent) (selectionView useEventID allowKOrgUpdate errmsgParent
          showKOrgErr : Bool),
        gatedByDaemonCheck false (addEvent W s event selectionView useEventID allowKOrgUpdate
          errmsgParent showKOrgErr).trace = true
        ∧ ((W.checkCalendarDaemon s).1 = false →
            ∀ a ∈ (addEvent W s event selectionView useEventID allowKOrgUpdate errmsgParent
              showKOrgErr).trace, a.isCalendarMutation = false))
    ∧ (∀ (events : List KAEvent) (selectionView allowKOrgUpdate errmsgParent
          showKOrgErr : Bool),
        gatedByDaemonCheck false (addEvents W s events selectionView allowKOrgUpdate
          errmsgParent showKOrgErr).trace = true
        ∧ ((W.checkCalendarDaemon s).1 = false →
            ∀ a ∈ (addEvents W s events selectionView allowKOrgUpdate errmsgParent
              showKOrgErr).trace, a.isCalendarMutation = false))
    ∧ (∀ (event : KAEvent) (selectionView archiveOnDelete incRevision errmsgParent : Bool),
        ∀ a ∈ (updateEvent W s event selectionView archiveOnDelete incRevision
          errmsgParent).trace, a.isDaemonCheck = false)
    ∧ (∀ (events : List KAEvent) (archive errmsgParent : Bool) (showKOrgErr : Option Bool),
        ∀ a ∈ (deleteEvents W s events archive errmsgParent showKOrgErr).trace,
          a.isDaemonCheck = false) := by
  refine ⟨?_, ?_, ?_, ?_⟩
  · intro event selectionView useEventID allowKOrgUpdate errmsgParent showKOrgErr
    obtain ⟨⟨rest, hrest⟩, hfail⟩ := addEvent_trace W s event selectionView useEventID
      allowKOrgUpdate errmsgParent showKOrgErr
    refine ⟨?_, hfail⟩
    rw [hrest] at hfail ⊢
    exact gated_of_check_first _ _ hfail
  · intro events selectionView allowKOrgUpdate errmsgParent showKOrgErr
    obtain ⟨hshape, hfail⟩ := addEvents_trace W s events selectionView allowKOrgUpdate
      errmsgParent showKOrgErr
    refine ⟨?_, hfail⟩
    rcases hshape with hnil | ⟨rest, hrest⟩
    · rw [hnil]; rfl
    · rw [hrest] at hfail ⊢
      exact gated_of_check_first _ _ hfail
  · intro event selectionView archiveOnDelete incRevision errmsgParent a ha
    have h := List.all_eq_true.mp (updateEvent_no_check W s event selectionView archiveOnDelete
      incRevision errmsgParent) a ha
    simpa using h
  · intro events archive errmsgParent showKOrgErr a ha
    have h := List.all_eq_true.mp (deleteEvents_no_check W s events archive errmsgParent
      showKOrgErr) a ha
    simpa using h

theorem C11_add_gated_by_daemon_check_witness :
    (worldNoDaemon.checkCalendarDaemon ()).1 = false
    ∧ (∀ a ∈ (addEvents worldNoDaemon () [alarmA] true true true true).trace,
        a.isCalendarMutation = false)
    ∧ (addEvents worldOk () [alarmA] true true false true).trace
        = [Action.checkCalendarDaemon true, Action.calAddEvent Cal.active "A1" true,
           Action.listViewAddEvent "A1" false, Action.calSave Cal.active true,
           Action.listViewSelect "A1"] :=
  ⟨rfl,
    ((C11_add_gated_by_daemon_check worldNoDaemon ()).2.1 [alarmA] true true true true).2 rfl,
    by decide⟩

end KAlarm


/-! ## Theorems on akonadiresource.cpp -/

namespace AkonadiResource

open Akonadi

/-- C19 at a sequence of calls where a change of item 5 is notified while its
`ItemModifyJob` is pending: `checkQueuedItemModifyJob` drops the mark of the
executing job (or starts the queued job), and `mPendingItemJobs` then holds two
`ItemModifyJob`s for item 5. -/
theorem C19_two_modify_jobs_for_one_item :
    (run empty callsNotifyWhilePending).mPendingItemJobs
      = [(⟨1, JobClass.ItemModifyJob, item5⟩, 5), (⟨3, JobClass.ItemModifyJob, item5b⟩, 5)]
    ∧ pendingModifyJobs (run empty callsNotifyWhilePending) 5 = 2
    ∧ (run empty callsNotifyWithQueued).mPendingItemJobs
      = [(⟨1, JobClass.ItemModifyJob, item5⟩, 5), (⟨3, JobClass.ItemModifyJob, item5b⟩, 5)]
    ∧ pendingModifyJobs (run empty callsNotifyWithQueued) 5 = 2 := by
  decide

end AkonadiResource


namespace AkonadiResource

open Akonadi

/-! ### The queue when calls come in order -/

/-- The count of `pendingModifyJobs` on a list of entries. -/
theorem pendingModifyJobs_eq (this : AkonadiResource) (id : Int) :
    pendingModifyJobs this id
      = (this.mPendingItemJobs.filter
          (fun e => e.1.jobClass = JobClass.ItemModifyJob ∧ e.2 = id)).length := rfl

theorem queueFind_queueSet (q : List (Int × Item)) (k : Int) (v : Item) (k2 : Int) :
    queueFind (queueSet q k v) k2 = if k2 = k then some v else queueFind q k2 := by
  induction q with
  | nil =>
    by_cases h : k2 = k
    · simp [queueSet, queueFind, h]
    · have h2 : ¬ k = k2 := fun e => h e.symm
      simp [queueSet, queueFind, h, h2]
  | cons p rest ih =>
    obtain ⟨a, b⟩ := p
    by_cases hak : a = k
    · subst hak
      by_cases h : k2 = a
      · simp [queueSet, queueFind, h]
      · have h2 : ¬ a = k2 := fun e => h e.symm
        simp [queueSet, queueFind, h, h2]
    · by_cases ha2 : a = k2
      · subst ha2
        simp [queueSet, queueFind, hak]
      · simp only [queueSet, hak, if_false, queueFind, ha2, ih]

theorem queueFind_queueErase (q : List (Int × Item)) (k k2 : Int) :
    queueFind (queueErase q k) k2 = if k2 = k then none else queueFind q k2 := by
  induction q with
  | nil => simp [queueErase, queueFind]
  | cons p rest ih =>
    obtain ⟨a, b⟩ := p
    unfold queueErase at ih ⊢
    by_cases hak : a = k
    · rw [List.filter_cons_of_neg (by simpa using hak), ih]
      by_cases h : k2 = k
      · simp only [h, if_true]
      · have h2 : ¬ a = k2 := fun e => h (e.symm.trans hak)
        simp only [h, if_false, queueFind, h2]
    · rw [List.filter_cons_of_pos (by simpa using hak)]
      by_cases ha2 : a = k2
      · have h : ¬ k2 = k := fun e => hak (ha2.trans e)
        simp only [queueFind, ha2, if_true, h, if_false]
      · simp only [queueFind, ha2, if_false, ih]

theorem count_pendingSet_le (p : List (KJob × Int)) (job : KJob) (id2 id : Int) :
    ((pendingSet p job id2).filter
        (fun e => e.1.jobClass = JobClass.ItemModifyJob ∧ e.2 = id)).length
      ≤ (p.filter (fun e => e.1.jobClass = JobClass.ItemModifyJob ∧ e.2 = id)).length
        + (if id2 = id then 1 else 0) := by
  have hone : ∀ (e : KJob × Int) (l : List (KJob × Int)),
      ((e :: l).filter (fun e => e.1.jobClass = JobClass.ItemModifyJob ∧ e.2 = id)).length
        ≤ (l.filter (fun e => e.1.jobClass = JobClass.ItemModifyJob ∧ e.2 = id)).length + 1
      ∧ (l.filter (fun e => e.1.jobClass = JobClass.ItemModifyJob ∧ e.2 = id)).length
        ≤ ((e :: l).filter
            (fun e => e.1.jobClass = JobClass.ItemModifyJob ∧ e.2 = id)).length := by
    intro e l
    rw [List.filter_cons]
    split
    · simp only [List.length_cons]; omega
    · omega
  have hother : ∀ (e : KJob × Int) (l : List (KJob × Int)), ¬ e.2 = id →
      ((e :: l).filter (fun e => e.1.jobClass = JobClass.ItemModifyJob ∧ e.2 = id)).length
        = (l.filter (fun e => e.1.jobClass = JobClass.ItemModifyJob ∧ e.2 = id)).length := by
    intro e l he
    rw [List.filter_cons_of_neg (by simp [he])]
  induction p with
  | nil =>
    unfold pendingSet
    by_cases h : id2 = id
    · have := (hone (job, id2) []).1
      simp only [h, if_true] at this ⊢
      simpa using this
    · rw [hother (job, id2) [] h]
      simp
  | cons e rest ih =>
    obtain ⟨k, v⟩ := e
    unfold pendingSet
    by_cases hk : k.addr = job.addr
    · simp only [hk, if_true]
      by_cases h : id2 = id
      · have h1 := (hone (job, id2) rest).1
        have h2 := (hone (k, v) rest).2
        simp only [h, if_true] at h1 ⊢
        omega
      · rw [hother (job, id2) rest h]
        have h2 := (hone (k, v) rest).2
        simp only [h, if_false]
        omega
    · simp only [hk, if_false]
      rw [List.filter_cons, List.filter_cons]
      split
      · simp only [List.length_cons]
        omega
      · exact ih

theorem count_pendingErase_le (p : List (KJob × Int)) (j : KJob) (id : Int) :
    ((pendingErase p j).filter
        (fun e => e.1.jobClass = JobClass.ItemModifyJob ∧ e.2 = id)).length
      ≤ (p.filter (fun e => e.1.jobClass = JobClass.ItemModifyJob ∧ e.2 = id)).length := by
  unfold pendingErase
  rw [List.filter_filter]
  apply List.Sublist.length_le
  apply List.monotone_filter_right
  intro e he
  simp only [Bool.and_eq_true] at he
  exact he.1

end AkonadiResource


namespace AkonadiResource

open Akonadi

theorem count_pos_of_mem (p : List (KJob × Int)) (j : KJob) (id : Int)
    (hm : (j, id) ∈ p) (hj : j.jobClass = JobClass.ItemModifyJob) :
    0 < (p.filter (fun e => e.1.jobClass = JobClass.ItemModifyJob ∧ e.2 = id)).length := by
  apply List.length_pos_of_mem (a := (j, id))
  rw [List.mem_filter]
  exact ⟨hm, by simp [hj]⟩

theorem count_pendingErase_zero (p : List (KJob × Int)) (j : KJob) (id : Int)
    (hm : (j, id) ∈ p) (hj : j.jobClass = JobClass.ItemModifyJob)
    (hle : (p.filter (fun e => e.1.jobClass = JobClass.ItemModifyJob ∧ e.2 = id)).length ≤ 1) :
    ((pendingErase p j).filter
        (fun e => e.1.jobClass = JobClass.ItemModifyJob ∧ e.2 = id)).length = 0 := by
  induction p with
  | nil => cases hm
  | cons e rest ih =>
    rcases List.mem_cons.mp hm with he | hrest
    · subst he
      rw [List.filter_cons_of_pos (by simp [hj])] at hle
      simp only [List.length_cons] at hle
      have h0 : (rest.filter
          (fun e => e.1.jobClass = JobClass.ItemModifyJob ∧ e.2 = id)).length = 0 := by omega
      have h1 := count_pendingErase_le rest j id
      unfold pendingErase at h1 ⊢
      rw [List.filter_cons_of_neg (by simp)]
      omega
    · have hpos := count_pos_of_mem rest j id hrest hj
      rw [List.filter_cons] at hle
      split at hle
      · simp only [List.length_cons] at hle
        omega
      · next hne =>
        have h1 := ih hrest hle
        unfold pendingErase at h1 ⊢
        rw [List.filter_cons]
        split
        · rw [List.filter_cons, if_neg hne]
          exact h1
        · exact h1

theorem queueInv_empty : QueueInv empty := by
  refine ⟨fun id => by simp [pendingModifyJobs, empty], ?_, ?_⟩
  · intro id h
    simp [pendingModifyJobs, empty] at h
  · intro id v h
    simp [empty, queueFind] at h

/-- Starting a job for an item of which none is pending keeps the queue in
order. -/
theorem queueInv_start (this : AkonadiResource) (hinv : QueueInv this) (id : Int) (job : KJob)
    (h0 : pendingModifyJobs this id = 0) :
    QueueInv { this with
      mItemModifyJobQueue := queueSet this.mItemModifyJobQueue id Item.null,
      mPendingItemJobs := pendingSet this.mPendingItemJobs job id } := by
  obtain ⟨ha, hb, hd⟩ := hinv
  refine ⟨?_, ?_, ?_⟩
  · intro id2
    have h1 := count_pendingSet_le this.mPendingItemJobs job id id2
    have h2 := ha id2
    simp only [pendingModifyJobs] at h0 h2 ⊢
    by_cases he : id = id2
    · subst he
      simp only [if_true] at h1
      omega
    · simp only [he, if_false] at h1
      omega
  · intro id2 hpos
    simp only [queueFind_queueSet]
    by_cases he : id2 = id
    · simp [he]
    · simp only [he, if_false]
      apply hb
      have h1 := count_pendingSet_le this.mPendingItemJobs job id id2
      have he2 : ¬ id = id2 := fun e => he e.symm
      simp only [he2, if_false] at h1
      simp only [pendingModifyJobs] at hpos ⊢
      omega
  · intro id2 v hf hv
    simp only [queueFind_queueSet] at hf
    by_cases he : id2 = id
    · simp only [he, if_true, Option.some.injEq] at hf
      subst hf
      simp [Item.isValid, Item.null] at hv
    · simp only [he, if_false] at hf
      exact hd id2 v hf hv

/-- Writing an item into the queue under its own ID keeps the queue in order. -/
theorem queueInv_queueSet (this : AkonadiResource) (hinv : QueueInv this) (item : Item) :
    QueueInv { this with
      mItemModifyJobQueue := queueSet this.mItemModifyJobQueue item.id item } := by
  obtain ⟨ha, hb, hd⟩ := hinv
  refine ⟨ha, ?_, ?_⟩
  · intro id2 hpos
    simp only [queueFind_queueSet]
    by_cases he : id2 = item.id
    · simp [he]
    · simp only [he, if_false]
      exact hb id2 hpos
  · intro id2 v hf hv
    simp only [queueFind_queueSet] at hf
    by_cases he : id2 = item.id
    · simp only [he, if_true, Option.some.injEq] at hf
      subst hf
      exact he.symm
    · simp only [he, if_false] at hf
      exact hd id2 v hf hv

theorem queueInv_queueItemModifyJob (this : AkonadiResource) (hinv : QueueInv this)
    (item : Item) (newJob : Nat) (refresh : Option Int) :
    QueueInv (queueItemModifyJob this item newJob refresh) := by
  unfold queueItemModifyJob
  cases hf : queueFind this.mItemModifyJobQueue item.id with
  | some v => exact queueInv_queueSet this hinv item
  | none =>
    simp only
    split
    · exact queueInv_queueSet this hinv item
    · apply queueInv_start this hinv
      by_contra hne
      have hpos : 0 < pendingModifyJobs this item.id := Nat.pos_of_ne_zero hne
      have := hinv.2.1 item.id hpos
      rw [hf] at this
      cases this

theorem queueInv_checkQueuedItemModifyJob (this : AkonadiResource) (hinv : QueueInv this)
    (item : Item) (newJob : Nat) (h0 : pendingModifyJobs this item.id = 0) :
    QueueInv (checkQueuedItemModifyJob this item newJob) := by
  unfold checkQueuedItemModifyJob
  split
  · exact hinv
  · cases hf : queueFind this.mItemModifyJobQueue item.id with
    | none => exact hinv
    | some qitem =>
      simp only
      split
      · obtain ⟨ha, hb, hd⟩ := hinv
        refine ⟨ha, ?_, ?_⟩
        · intro id2 hpos
          simp only [queueFind_queueErase]
          have hpos2 : 0 < pendingModifyJobs this id2 := hpos
          have he : ¬ id2 = item.id := by
            intro e
            rw [e] at hpos2
            omega
          simp only [he, if_false]
          exact hb id2 hpos2
        · intro id2 v hfind hv
          simp only [queueFind_queueErase] at hfind
          by_cases he : id2 = item.id
          · simp [he] at hfind
          · simp only [he, if_false] at hfind
            exact hd id2 v hfind hv
      · next hvalid =>
        have hv : qitem.isValid = true := by simpa using hvalid
        have hid : qitem.id = item.id := hinv.2.2 item.id qitem hf hv
        simp only [hid]
        exact queueInv_start this hinv item.id _ h0

end AkonadiResource


namespace AkonadiResource

open Akonadi

theorem queueInv_pendingErase (this : AkonadiResource) (hinv : QueueInv this) (j : KJob) :
    QueueInv { this with mPendingItemJobs := pendingErase this.mPendingItemJobs j } := by
  obtain ⟨ha, hb, hd⟩ := hinv
  refine ⟨?_, ?_, hd⟩
  · intro id
    have h1 := count_pendingErase_le this.mPendingItemJobs j id
    have h2 := ha id
    simp only [pendingModifyJobs] at h2 ⊢
    omega
  · intro id hpos
    apply hb
    have h1 := count_pendingErase_le this.mPendingItemJobs j id
    simp only [pendingModifyJobs] at hpos ⊢
    omega

theorem queueInv_itemJobDone (this : AkonadiResource) (hinv : QueueInv this) (j : KJob)
    (error : Bool) (current : Item) (createdId : Int) (newJob : Nat)
    (hord : CallInOrder this (QueueCall.itemJobDone j error current createdId newJob)) :
    QueueInv (itemJobDone this j error current createdId newJob) := by
  obtain ⟨id, hfind, hmem, hcur⟩ := hord
  have herase := queueInv_pendingErase this hinv j
  unfold itemJobDone
  simp only [hfind, Option.getD_some, Option.isSome_some, if_true]
  split
  · split
    · next hcond =>
      apply queueInv_checkQueuedItemModifyJob _ herase
      rw [hcur]
      have hle := hinv.1 id
      simp only [pendingModifyJobs] at hle ⊢
      exact count_pendingErase_zero this.mPendingItemJobs j id hmem hcond.2 hle
    · exact herase
  · split
    · exact ⟨herase.1, herase.2.1, herase.2.2⟩
    · exact herase

theorem queueInv_notifyItemChanged (this : AkonadiResource) (hinv : QueueInv this) (item : Item)
    (created : Bool) (newJob : Nat)
    (hord : CallInOrder this (QueueCall.notifyItemChanged item created newJob)) :
    QueueInv (notifyItemChanged this item created newJob) := by
  have hakres : QueueInv
      { this with mItemsBeingCreated := this.mItemsBeingCreated.filter (· ≠ item.id) } :=
    ⟨hinv.1, hinv.2.1, hinv.2.2⟩
  unfold notifyItemChanged
  simp only
  split
  · exact queueInv_checkQueuedItemModifyJob _ hakres item newJob hord
  · exact hakres

theorem queueInv_run (this : AkonadiResource) (calls : List QueueCall) (hinv : QueueInv this)
    (hord : CallsInOrder this calls) : QueueInv (run this calls) := by
  induction calls generalizing this with
  | nil => exact hinv
  | cons c rest ih =>
    obtain ⟨hc, hrest⟩ := hord
    apply ih _ _ hrest
    cases c with
    | queueItemModifyJob item newJob refresh =>
      exact queueInv_queueItemModifyJob this hinv item newJob refresh
    | itemJobDone j error current createdId newJob =>
      exact queueInv_itemJobDone this hinv j error current createdId newJob hc
    | notifyItemChanged item created newJob =>
      exact queueInv_notifyItemChanged this hinv item created newJob hc

/-- When every finished job is a pending one and a change of an item is
notified only while no `ItemModifyJob` of the item is pending, at most one
`ItemModifyJob` is pending per item ID after any sequence of calls. -/
theorem one_modify_job_when_calls_in_order (calls : List QueueCall)
    (hord : CallsInOrder empty calls) (id : Int) :
    pendingModifyJobs (run empty calls) id ≤ 1 :=
  (queueInv_run empty calls queueInv_empty hord).1 id

end AkonadiResource


namespace AkonadiResource

open Akonadi

/-! ### Queueing for an item that has an entry -/

theorem queueItemModifyJob_of_entry (this : AkonadiResource) (item : Item) (newJob : Nat)
    (refresh : Option Int) (h : (queueFind this.mItemModifyJobQueue item.id).isSome = true) :
    queueItemModifyJob this item newJob refresh
      = { this with mItemModifyJobQueue := queueSet this.mItemModifyJobQueue item.id item } := by
  unfold queueItemModifyJob
  cases hf : queueFind this.mItemModifyJobQueue item.id with
  | none => rw [hf] at h; cases h
  | some v => rfl

/-- Calls of `queueItemModifyJob` for an ID that has an entry leave the pending
jobs and the items being created as they were; the entry holds the last item
passed and the other entries are untouched. -/
theorem requeue_of_entry (id : Int) (calls : List (Item × Nat × Option Int))
    (last : Item × Nat × Option Int) (hlast : last.1.id = id) :
    ∀ (this : AkonadiResource), (queueFind this.mItemModifyJobQueue id).isSome = true →
      (∀ c ∈ calls, c.1.id = id) →
      (requeue this (calls ++ [last])).mPendingItemJobs = this.mPendingItemJobs
      ∧ (requeue this (calls ++ [last])).mItemsBeingCreated = this.mItemsBeingCreated
      ∧ ∀ id2, queueFind (requeue this (calls ++ [last])).mItemModifyJobQueue id2
          = if id2 = id then some last.1 else queueFind this.mItemModifyJobQueue id2 := by
  induction calls with
  | nil =>
    intro this hentry _
    have hstep : requeue this ([] ++ [last])
        = queueItemModifyJob this last.1 last.2.1 last.2.2 := rfl
    rw [hstep, queueItemModifyJob_of_entry this last.1 last.2.1 last.2.2 (by rw [hlast]; exact hentry)]
    refine ⟨rfl, rfl, ?_⟩
    intro id2
    simp only [queueFind_queueSet, hlast]
  | cons c rest ih =>
    intro this hentry hids
    have hc : c.1.id = id := hids c (List.mem_cons_self _ _)
    have hstep : requeue this (c :: rest ++ [last])
        = requeue (queueItemModifyJob this c.1 c.2.1 c.2.2) (rest ++ [last]) := rfl
    rw [hstep, queueItemModifyJob_of_entry this c.1 c.2.1 c.2.2 (by rw [hc]; exact hentry)]
    have h := ih { this with mItemModifyJobQueue := queueSet this.mItemModifyJobQueue c.1.id c.1 }
      (by simp [queueFind_queueSet, hc])
      (fun d hd => hids d (List.mem_cons_of_mem _ hd))
    refine ⟨h.1, h.2.1, ?_⟩
    intro id2
    rw [h.2.2 id2]
    by_cases he : id2 = id
    · simp only [he, if_true]
    · simp only [he, if_false, queueFind_queueSet, hc]

/-- A job whose address no pending job has is put at the end of
`mPendingItemJobs`. -/
theorem pendingSet_fresh (p : List (KJob × Int)) (job : KJob) (id : Int)
    (h : ∀ e ∈ p, e.1.addr ≠ job.addr) : pendingSet p job id = p ++ [(job, id)] := by
  induction p with
  | nil => rfl
  | cons e rest ih =>
    obtain ⟨k, v⟩ := e
    have hk : ¬ k.addr = job.addr := h (k, v) (List.mem_cons_self _ _)
    simp only [pendingSet, hk, if_false, List.cons_append]
    rw [ih (fun d hd => h d (List.mem_cons_of_mem _ hd))]

end AkonadiResource



namespace AkonadiResource

open Akonadi

/-- C23: when `queueItemModifyJob` is called one or more times for an item ID
that has an entry in `mItemModifyJobQueue` (the ID of a valid item, which is
not negative: `updateEvent` and `handleCommandErrorChange` pass no other), no
job is started (`mPendingItemJobs` stays as it was) and the entry holds the last item
passed. The next `checkQueuedItemModifyJob` for that ID, the item not being
created, starts one `ItemModifyJob`: its item is the last one queued with the
revision of the item passed to `checkQueuedItemModifyJob`, it is registered
under the ID (and is the one entry added when its address is new), and the
entry becomes the mark of an executing job. A following
`checkQueuedItemModifyJob` removes the entry and starts no job. -/
theorem C23_requeue_then_one_job (this : AkonadiResource) (id : Int)
    (calls : List (Item × Nat × Option Int)) (last : Item) (lastJob : Nat)
    (lastRefresh : Option Int) (item item2 : Item) (newJob newJob2 : Nat)
    (hentry : (queueFind this.mItemModifyJobQueue id).isSome = true)
    (hids : ∀ c ∈ calls, c.1.id = id) (hlast : last.id = id) (hvalid : 0 ≤ id)
    (hitem : item.id = id) (hitem2 : item2.id = id)
    (hcreated : this.mItemsBeingCreated.contains id = false) :
    (requeue this (calls ++ [(last, lastJob, lastRefresh)])).mPendingItemJobs
        = this.mPendingItemJobs
    ∧ queueFind (requeue this (calls ++ [(last, lastJob, lastRefresh)])).mItemModifyJobQueue id
        = some last
    ∧ (checkQueuedItemModifyJob (requeue this (calls ++ [(last, lastJob, lastRefresh)]))
          item newJob).mPendingItemJobs
        = pendingSet this.mPendingItemJobs
            ⟨newJob, JobClass.ItemModifyJob, { last with revision := item.revision }⟩ id
    ∧ ((∀ e ∈ this.mPendingItemJobs, e.1.addr ≠ newJob) →
        (checkQueuedItemModifyJob (requeue this (calls ++ [(last, lastJob, lastRefresh)]))
            item newJob).mPendingItemJobs
          = this.mPendingItemJobs
              ++ [(⟨newJob, JobClass.ItemModifyJob, { last with revision := item.revision }⟩, id)])
    ∧ queueFind (checkQueuedItemModifyJob
          (requeue this (calls ++ [(last, lastJob, lastRefresh)])) item newJob).mItemModifyJobQueue
          id
        = some Item.null
    ∧ queueFind (checkQueuedItemModifyJob (checkQueuedItemModifyJob
          (requeue this (calls ++ [(last, lastJob, lastRefresh)])) item newJob)
          item2 newJob2).mItemModifyJobQueue id
        = none
    ∧ (checkQueuedItemModifyJob (checkQueuedItemModifyJob
          (requeue this (calls ++ [(last, lastJob, lastRefresh)])) item newJob)
          item2 newJob2).mPendingItemJobs
        = (checkQueuedItemModifyJob (requeue this (calls ++ [(last, lastJob, lastRefresh)]))
            item newJob).mPendingItemJobs := by
  obtain ⟨hp, hc, hq⟩ := requeue_of_entry id calls (last, lastJob, lastRefresh) hlast this hentry hids
  generalize requeue this (calls ++ [(last, lastJob, lastRefresh)]) = queued at hp hc hq ⊢
  have hfind : queueFind queued.mItemModifyJobQueue item.id = some last := by
    rw [hq item.id]
    simp only [hitem, if_true]
  have hnot : queued.mItemsBeingCreated.contains item.id = false := by
    rw [hc, hitem]
    exact hcreated
  have hlastValid : last.isValid = true := by
    simp only [Item.isValid, hlast, decide_eq_true_eq]
    exact hvalid
  have hchecked : checkQueuedItemModifyJob queued item newJob
      = { queued with
          mItemModifyJobQueue := queueSet queued.mItemModifyJobQueue item.id Item.null,
          mPendingItemJobs := pendingSet queued.mPendingItemJobs
            ⟨newJob, JobClass.ItemModifyJob, { last with revision := item.revision }⟩ last.id } := by
    unfold checkQueuedItemModifyJob
    rw [hnot, hfind]
    simp [hlastValid]
  have hfind2 : queueFind (checkQueuedItemModifyJob queued item newJob).mItemModifyJobQueue
      item2.id = some Item.null := by
    rw [hchecked]
    simp only [queueFind_queueSet, hitem, hitem2, if_true]
  have hnot2 : (checkQueuedItemModifyJob queued item newJob).mItemsBeingCreated.contains item2.id
      = false := by
    rw [hchecked]
    simp only
    rw [hc, hitem2]
    exact hcreated
  have hchecked2 : checkQueuedItemModifyJob (checkQueuedItemModifyJob queued item newJob)
      item2 newJob2
      = { checkQueuedItemModifyJob queued item newJob with
          mItemModifyJobQueue := queueErase
            (checkQueuedItemModifyJob queued item newJob).mItemModifyJobQueue item2.id } := by
    generalize checkQueuedItemModifyJob queued item newJob = checked at hfind2 hnot2 ⊢
    unfold checkQueuedItemModifyJob
    rw [hnot2, hfind2]
    simp [Item.isValid, Item.null]
  refine ⟨hp, ?_, ?_, ?_, ?_, ?_, ?_⟩
  · rw [hq id]
    simp only [if_true]
  · rw [hchecked]
    simp only [hp, hlast]
  · intro hfresh
    rw [hchecked]
    simp only [hp, hlast]
    exact pendingSet_fresh _ _ _ hfresh
  · rw [← hitem2]
    exact hfind2
  · rw [hchecked2]
    simp only [queueFind_queueErase, hitem2, if_true]
  · rw [hchecked2]

/-- C23 at item 5 while its first job (address 1) is executing: two further
updates are queued, the change of item 5 to revision 2 is notified, and then a
second change. -/
theorem C23_requeue_then_one_job_witness :
    (requeue resourceJob5 ([(item5b, 2, none)] ++ [(item5c, 3, none)])).mPendingItemJobs
        = resourceJob5.mPendingItemJobs
    ∧ queueFind (requeue resourceJob5
          ([(item5b, 2, none)] ++ [(item5c, 3, none)])).mItemModifyJobQueue 5
        = some item5c
    ∧ (checkQueuedItemModifyJob (requeue resourceJob5
          ([(item5b, 2, none)] ++ [(item5c, 3, none)])) item5rev2 4).mPendingItemJobs
        = [(⟨1, JobClass.ItemModifyJob, item5⟩, 5), (⟨4, JobClass.ItemModifyJob, ⟨5, 2, 300⟩⟩, 5)]
    ∧ queueFind (checkQueuedItemModifyJob (checkQueuedItemModifyJob (requeue resourceJob5
          ([(item5b, 2, none)] ++ [(item5c, 3, none)])) item5rev2 4)
          item5rev2 5).mItemModifyJobQueue 5
        = none :=
  have h := C23_requeue_then_one_job resourceJob5 5 [(item5b, 2, none)] item5c 3 none
    item5rev2 item5rev2 4 5 (by decide) (by decide) (by decide) (by decide) (by decide)
    (by decide) (by decide)
  ⟨h.1, h.2.1, h.2.2.1, h.2.2.2.2.2.1⟩

end AkonadiResource



/-! ## Theorems on alarmlistview.cpp -/

namespace QHeaderView

theorem count_setSectionHidden (h : QHeaderView) (i : Int) (b : Bool) :
    (h.setSectionHidden i b).count = h.count := by
  unfold setSectionHidden
  split
  · rfl
  · simp [count]

/-- A section that has been shown is not hidden. -/
theorem isSectionHidden_shown (h : QHeaderView) (i : Int) :
    (h.setSectionHidden i false).isSectionHidden i = false := by
  unfold isSectionHidden
  rw [count_setSectionHidden]
  split
  · rfl
  · next hr =>
    unfold setSectionHidden
    rw [if_neg hr]
    simp only [count, not_or, not_lt, ge_iff_le, not_le] at hr
    have hlt : i.toNat < h.hidden.length := by omega
    simp [List.getD_eq_getElem?_getD, List.getElem?_set, hlt]

/-- Hiding or showing a section leaves the other sections as they were. -/
theorem isSectionHidden_other (h : QHeaderView) (i j : Int) (b : Bool) (hij : i ≠ j) :
    (h.setSectionHidden i b).isSectionHidden j = h.isSectionHidden j := by
  unfold isSectionHidden
  rw [count_setSectionHidden]
  split
  · rfl
  · next hr =>
    unfold setSectionHidden
    split
    · rfl
    · next hi =>
      simp only [count, not_or, not_lt, ge_iff_le, not_le] at hr hi
      have hne : i.toNat ≠ j.toNat := by omega
      simp [List.getD_eq_getElem?_getD, List.getElem?_set, hne]

end QHeaderView

namespace AlarmListView

/-- The action that the loop of `enableTimeColumns` reaches for a column is
disabled afterwards. -/
theorem disableFirst_find (column : Int) (menu : List QAction) (act : QAction)
    (h : (disableFirst column menu).find? (fun a => decide (a.data = column)) = some act) :
    act.enabled = false := by
  induction menu with
  | nil => simp [disableFirst] at h
  | cons a rest ih =>
    unfold disableFirst at h
    by_cases ha : a.data = column
    · simp only [ha, if_true] at h
      rw [List.find?_cons_of_pos _ (by simp [ha])] at h
      cases h
      rfl
    · simp only [ha, if_false] at h
      rw [List.find?_cons_of_neg _ (by simp [ha])] at h
      exact ih h

/-- The loop of `enableTimeColumns` changes no action's data. -/
theorem disableFirst_data (column : Int) (menu : List QAction) :
    (disableFirst column menu).map (fun a => a.data) = menu.map (fun a => a.data) := by
  induction menu with
  | nil => rfl
  | cons a rest ih =>
    unfold disableFirst
    split
    · rfl
    · simp only [List.map_cons, ih]

end AlarmListView



namespace AlarmListView

/-- C22: after `enableTimeColumns`, whatever the hidden flags of the header
were, at least one of `TimeColumn` and `TimeToColumn` is not hidden; when Time
To is hidden afterwards (Time alone is shown), the action of the menu that the
loop reaches for `TimeColumn` is disabled, and when Time is hidden afterwards
the one for `TimeToColumn` is; the data of the actions is unchanged.
`showHideColumn` keeps one of the two columns shown, and leaves one shown
whenever the action is that of a time column. -/
theorem C22_enableTimeColumns_keeps_a_time_column (M : AlarmListModel) (header : QHeaderView)
    (menu : List QAction) :
    ((enableTimeColumns M header menu).1.isSectionHidden M.TimeColumn = false
      ∨ (enableTimeColumns M header menu).1.isSectionHidden M.TimeToColumn = false)
    ∧ ((enableTimeColumns M header menu).1.isSectionHidden M.TimeToColumn = true →
        ∀ act, (enableTimeColumns M header menu).2.find?
            (fun a => decide (a.data = M.TimeColumn)) = some act →
          act.enabled = false)
    ∧ ((enableTimeColumns M header menu).1.isSectionHidden M.TimeColumn = true →
        ∀ act, (enableTimeColumns M header menu).2.find?
            (fun a => decide (a.data = M.TimeToColumn)) = some act →
          act.enabled = false)
    ∧ (enableTimeColumns M header menu).2.map (fun a => a.data) = menu.map (fun a => a.data)
    ∧ (∀ act : QAction,
        (act.data = M.TimeColumn ∨ act.data = M.TimeToColumn
          ∨ header.isSectionHidden M.TimeColumn = false
          ∨ header.isSectionHidden M.TimeToColumn = false) →
        ((showHideColumn M header menu act).1.isSectionHidden M.TimeColumn = false
          ∨ (showHideColumn M header menu act).1.isSectionHidden M.TimeToColumn = false)) := by
  have hone : ∀ (hd : QHeaderView),
      (enableTimeColumns M hd menu).1.isSectionHidden M.TimeColumn = false
      ∨ (enableTimeColumns M hd menu).1.isSectionHidden M.TimeToColumn = false := by
    intro hd
    unfold enableTimeColumns
    cases hTo : hd.isSectionHidden M.TimeToColumn
    · cases hT : hd.isSectionHidden M.TimeColumn
      · simp [hT]
      · simp [QHeaderView.isSectionHidden_shown]
    · simp [QHeaderView.isSectionHidden_shown]
  refine ⟨hone header, ?_, ?_, ?_, ?_⟩
  · unfold enableTimeColumns
    cases hTo : header.isSectionHidden M.TimeToColumn
    · cases hT : header.isSectionHidden M.TimeColumn
      · simp [hTo]
      · simp [QHeaderView.isSectionHidden_shown]
    · intro _ act hfind
      simp only [Bool.not_true, Bool.not_false, if_true] at hfind
      exact disableFirst_find M.TimeColumn menu act hfind
  · unfold enableTimeColumns
    cases hTo : header.isSectionHidden M.TimeToColumn
    · cases hT : header.isSectionHidden M.TimeColumn
      · simp [hT]
      · intro _ act hfind
        simp only [Bool.not_true, Bool.not_false, if_true, Bool.false_eq_true, if_false] at hfind
        exact disableFirst_find M.TimeToColumn menu act hfind
    · simp [QHeaderView.isSectionHidden_shown]
  · unfold enableTimeColumns
    simp only
    split
    · exact disableFirst_data _ _
    · split
      · exact disableFirst_data _ _
      · rfl
  · intro act hact
    unfold showHideColumn
    simp only
    split
    · next hrange =>
      have hout : header.isSectionHidden act.data = false := by
        unfold QHeaderView.isSectionHidden
        rw [if_pos hrange]
      rcases hact with h | h | h | h
      · exact Or.inl (h ▸ hout)
      · exact Or.inr (h ▸ hout)
      · exact Or.inl h
      · exact Or.inr h
    · split
      · exact hone _
      · next hcol =>
        simp only [not_or] at hcol
        rw [QHeaderView.isSectionHidden_other _ _ _ _ hcol.1,
          QHeaderView.isSectionHidden_other _ _ _ _ hcol.2]
        rcases hact with h | h | h | h
        · exact absurd h hcol.1
        · exact absurd h hcol.2
        · exact Or.inl h
        · exact Or.inr h

end AlarmListView



namespace AlarmListView

/-- C22 at a header in which both time columns are hidden and at one in which
Time To alone is shown: Time is shown and its action disabled in the first,
the action of Time To is disabled in the second. -/
theorem C22_enableTimeColumns_keeps_a_time_column_witness :
    enableTimeColumns alarmColumns headerNoTime menuSix
        = (⟨[false, true, false, false, false, false]⟩,
           [⟨0, false, false⟩, ⟨1, false, true⟩, ⟨2, true, true⟩, ⟨3, true, true⟩,
            ⟨4, true, true⟩, ⟨5, true, false⟩])
    ∧ (enableTimeColumns alarmColumns headerTimeTo menuSix).2
        = [⟨0, false, true⟩, ⟨1, false, false⟩, ⟨2, true, true⟩, ⟨3, true, true⟩,
           ⟨4, true, true⟩, ⟨5, true, false⟩]
    ∧ ((enableTimeColumns alarmColumns headerNoTime menuSix).1.isSectionHidden
          alarmColumns.TimeColumn = false
        ∨ (enableTimeColumns alarmColumns headerNoTime menuSix).1.isSectionHidden
          alarmColumns.TimeToColumn = false) :=
  ⟨by decide, by decide,
    (C22_enableTimeColumns_keeps_a_time_column alarmColumns headerNoTime menuSix).1⟩

/-! ### The menu that the view builds -/

/-- When no two actions carry the same column, every action of the column is
disabled by the loop of `enableTimeColumns`. -/
theorem disableFirst_all (column : Int) (menu : List QAction)
    (hnodup : (menu.map (fun a => a.data)).Nodup) :
    ∀ a ∈ disableFirst column menu, a.data = column → a.enabled = false := by
  induction menu with
  | nil =>
    intro a ha
    simp [disableFirst] at ha
  | cons b rest ih =>
    rw [List.map_cons, List.nodup_cons] at hnodup
    intro a ha hdata
    unfold disableFirst at ha
    by_cases hb : b.data = column
    · simp only [hb, if_true] at ha
      rcases List.mem_cons.mp ha with h | h
      · rw [h]
      · exfalso
        apply hnodup.1
        rw [hb, ← hdata]
        exact List.mem_map_of_mem (fun a => a.data) h
    · simp only [hb, if_false] at ha
      rcases List.mem_cons.mp ha with h | h
      · rw [h] at hdata
        exact absurd hdata hb
      · exact ih hnodup.2 a h hdata

/-- The loop of `headerContextMenuRequested` gives each column at most one
action. -/
theorem addColumnActions_nodup (M : AlarmListModel) (header : QHeaderView)
    (titleEmpty : Int → Bool) (fuel : Nat) :
    ∀ (col : Int) (menu : List QAction), (menu.map (fun a => a.data)).Nodup →
      (∀ d ∈ menu.map (fun a => a.data), d < col) →
      ((addColumnActions M header titleEmpty fuel col menu).map (fun a => a.data)).Nodup := by
  induction fuel with
  | zero =>
    intro col menu hn _
    exact hn
  | succ n ih =>
    intro col menu hn hlt
    unfold addColumnActions
    split
    · split
      · apply ih
        · rw [List.map_append, List.nodup_append]
          refine ⟨hn, by simp, ?_⟩
          intro d hd1 hd2
          have h1 := hlt d hd1
          simp only [List.map_cons, List.map_nil, List.mem_singleton] at hd2
          omega
        · intro d hd
          rw [List.map_append, List.mem_append] at hd
          rcases hd with h | h
          · have := hlt d h
            omega
          · simp only [List.map_cons, List.map_nil, List.mem_singleton] at h
            omega
      · apply ih _ _ hn
        intro d hd
        have := hlt d hd
        omega
    · exact hn

/-- In the menu that `headerContextMenuRequested` shows, every action of the
one time column that is shown is disabled. -/
theorem headerContextMenuRequested_time_actions (M : AlarmListModel) (header : QHeaderView)
    (titleEmpty : Int → Bool) :
    ((headerContextMenuRequested M header titleEmpty).1.isSectionHidden M.TimeToColumn = true →
      ∀ a ∈ (headerContextMenuRequested M header titleEmpty).2,
        a.data = M.TimeColumn → a.enabled = false)
    ∧ ((headerContextMenuRequested M header titleEmpty).1.isSectionHidden M.TimeColumn = true →
      ∀ a ∈ (headerContextMenuRequested M header titleEmpty).2,
        a.data = M.TimeToColumn → a.enabled = false) := by
  have hn := addColumnActions_nodup M header titleEmpty header.hidden.length 0 []
    (by simp) (by simp)
  unfold headerContextMenuRequested
  generalize addColumnActions M header titleEmpty header.hidden.length 0 [] = menu at hn ⊢
  unfold enableTimeColumns
  cases hTo : header.isSectionHidden M.TimeToColumn
  · cases hT : header.isSectionHidden M.TimeColumn
    · simp [hT, hTo]
    · refine ⟨by simp [QHeaderView.isSectionHidden_shown], ?_⟩
      intro _
      simp only [Bool.not_true, Bool.not_false, if_true, Bool.false_eq_true, if_false]
      exact disableFirst_all M.TimeToColumn menu hn
  · refine ⟨?_, by simp [QHeaderView.isSectionHidden_shown]⟩
    intro _
    simp only [Bool.not_true, Bool.not_false, if_true]
    exact disableFirst_all M.TimeColumn menu hn

end AlarmListView



namespace KAlarm

/-! ### Reactivating archived alarms -/

theorem reactivateSendToKOrganizer_calls {σ : Type} (W : World σ) (ev : KAEvent)
    (v : ReactivateEventsVars) (s : σ) :
    (reactivateSendToKOrganizer W ev v s).value.ineligibleIDs = v.ineligibleIDs
    ∧ (reactivateSendToKOrganizer W ev v s).trace.filterMap Action.added = []
    ∧ (reactivateSendToKOrganizer W ev v s).trace.filterMap Action.deleted = [] := by
  unfold reactivateSendToKOrganizer
  simp only []
  split_ifs <;> simp [Action.added, Action.deleted]

theorem reactivateDeleteArchived_calls {σ : Type} (W : World σ) (oldid : String)
    (v : ReactivateEventsVars) (s : σ) :
    (reactivateDeleteArchived W oldid v s).value.ineligibleIDs = v.ineligibleIDs
    ∧ (reactivateDeleteArchived W oldid v s).trace.filterMap Action.added = []
    ∧ ((reactivateDeleteArchived W oldid v s).trace.filterMap Action.deleted).Sublist
        [(Cal.archive, oldid)] := by
  unfold reactivateDeleteArchived
  simp only []
  split_ifs <;> simp [Action.added, Action.deleted]

/-- One turn of the loop for an eligible event leaves `ineligibleIDs` as it
was, calls `addEvent` of the active calendar once, and `deleteEvent` of the
archive calendar at most once, with the old ID of the event. -/
theorem reactivateEligible_calls {σ : Type} (W : World σ) (M : KAEventMethods)
    (now : QDateTime) (event : KAEvent) (v : ReactivateEventsVars) (s : σ) :
    (reactivateEligible W M now event v s).value.ineligibleIDs = v.ineligibleIDs
    ∧ (reactivateEligible W M now event v s).trace.filterMap Action.added
        = [(Cal.active, (toReactivate M now event).id)]
    ∧ ((reactivateEligible W M now event v s).trace.filterMap Action.deleted).Sublist
        [(Cal.archive, event.id)] := by
  have htr : M.setArchive (if M.recurs event then M.setNextOccurrence event now true else event)
      = toReactivate M now event := rfl
  unfold reactivateEligible
  simp only []
  rw [htr]
  generalize W.calAddEvent Cal.active (toReactivate M now event) true s = a
  cases ha : a.1.1
  · simp [Action.added, Action.deleted]
  · simp only [Bool.not_true, Bool.false_eq_true, if_false]
    obtain ⟨k1, k2, k3⟩ := reactivateSendToKOrganizer_calls W a.1.2
      { v with count := v.count + 1 } a.2
    generalize reactivateSendToKOrganizer W a.1.2 { v with count := v.count + 1 } a.2 = k
      at k1 k2 k3 ⊢
    refine ⟨?_, ?_, ?_⟩
    · rw [(reactivateDeleteArchived_calls W _ _ _).1]
      exact k1
    · simp [List.filterMap_cons, List.filterMap_append, k2,
        (reactivateDeleteArchived_calls W _ _ _).2.1, Action.added]
    · simp only [List.filterMap_cons, List.filterMap_append, k3, Action.deleted, List.nil_append]
      exact (reactivateDeleteArchived_calls W _ _ _).2.2

/-- The loop of `reactivateEvents` appends to `ineligibleIDs` the IDs of the
ineligible events, in order; it calls `addEvent` of the active calendar for
each eligible event, in order, and `deleteEvent` of the archive calendar only
for eligible events, in order. -/
theorem reactivateEventsLoop_calls {σ : Type} (W : World σ) (M : KAEventMethods)
    (now : QDateTime) (events : List KAEvent) :
    ∀ (v : ReactivateEventsVars) (s : σ),
      (reactivateEventsLoop W M now events v s).value.ineligibleIDs
        = v.ineligibleIDs ++ (events.filter (isIneligible M now)).map (fun e => e.id)
      ∧ (reactivateEventsLoop W M now events v s).trace.filterMap Action.added
        = (events.filter (fun e => !isIneligible M now e)).map
            (fun e => (Cal.active, (toReactivate M now e).id))
      ∧ ((reactivateEventsLoop W M now events v s).trace.filterMap Action.deleted).Sublist
          ((events.filter (fun e => !isIneligible M now e)).map
            (fun e => (Cal.archive, e.id))) := by
  induction events with
  | nil =>
    intro v s
    simp [reactivateEventsLoop]
  | cons event rest ih =>
    intro v s
    by_cases hin : event.category ≠ KAEventStatus.ARCHIVED ∨ M.occursAfter event now true = false
    · have hspec : isIneligible M now event = true := by
        unfold isIneligible
        rcases hin with h | h
        · simp [h]
        · simp [h]
      have hloop : reactivateEventsLoop W M now (event :: rest) v s
          = reactivateEventsLoop W M now rest
              { v with ineligibleIDs := v.ineligibleIDs ++ [event.id],
                       events := v.events ++ [event] } s := by
        rw [reactivateEventsLoop, if_pos hin]
      rw [hloop]
      obtain ⟨h1, h2, h3⟩ := ih
        { v with ineligibleIDs := v.ineligibleIDs ++ [event.id],
                 events := v.events ++ [event] } s
      refine ⟨?_, ?_, ?_⟩
      · rw [h1]
        simp [List.filter_cons, hspec]
      · rw [h2]
        simp [List.filter_cons, hspec]
      · simpa [List.filter_cons, hspec] using h3
    · have hspec : isIneligible M now event = false := by
        unfold isIneligible
        simp only [not_or, not_not] at hin
        simp [hin.1] at hin ⊢
        exact hin
      have ih1 := fun v s => (ih v s).1
      have ih2 := fun v s => (ih v s).2.1
      have ih3 := fun v s => (ih v s).2.2
      have hloop : reactivateEventsLoop W M now (event :: rest) v s
          = ⟨(reactivateEventsLoop W M now rest (reactivateEligible W M now event v s).value
                (reactivateEligible W M now event v s).world).value,
              (reactivateEventsLoop W M now rest (reactivateEligible W M now event v s).value
                (reactivateEligible W M now event v s).world).world,
              (reactivateEligible W M now event v s).trace
                ++ (reactivateEventsLoop W M now rest (reactivateEligible W M now event v s).value
                    (reactivateEligible W M now event v s).world).trace⟩ := by
        rw [reactivateEventsLoop, if_neg hin]
      rw [hloop]
      obtain ⟨t1, t2, t3⟩ := reactivateEligible_calls W M now event v s
      obtain ⟨h1, h2, h3⟩ := ih (reactivateEligible W M now event v s).value
        (reactivateEligible W M now event v s).world
      refine ⟨?_, ?_, ?_⟩
      · simp only [h1, t1]
        simp [List.filter_cons, hspec]
      · simp only [List.filterMap_append, t2, h2]
        simp [List.filter_cons, hspec]
      · simp only [List.filterMap_append]
        have := List.Sublist.append t3 h3
        simpa [List.filter_cons, hspec] using this

end KAlarm

namespace KAlarm

theorem reportError_calls {σ : Type} (W : World σ) (s : σ) (status : UpdateStatus)
    (errmsgParent : Bool) (code : UpdateError) (nAlarms : Int) (nKOrgAlarms : Option Int)
    (showKOrgErr : Option Bool) :
    (reportError W s status errmsgParent code nAlarms nKOrgAlarms showKOrgErr).2.filterMap
        Action.added = []
    ∧ (reportError W s status errmsgParent code nAlarms nKOrgAlarms showKOrgErr).2.filterMap
        Action.deleted = [] := by
  unfold reportError
  split <;> simp [Action.added, Action.deleted]

/-- C21: after `reactivateEvents`, `ineligibleIDs` holds the IDs, in the order
of the list, of the events that are ineligible at the time read at the start
(category not ARCHIVED, or not occurring after that time), whatever it held
before the call. The calls of `addEvent` are those of the active calendar for
the eligible events, one each and in order, and the calls of `deleteEvent` are
calls of the archive calendar for eligible events, in order: no ineligible
event is added or deleted. -/
theorem C21_reactivateEvents_ineligibleIDs {σ : Type} (W : World σ) (M : KAEventMethods)
    (s : σ) (events : List KAEvent) (ineligibleIDs : List String) (selectionView : Bool)
    (errmsgParent : Bool) (showKOrgErr : Bool) :
    (reactivateEvents W M s events ineligibleIDs selectionView errmsgParent
        showKOrgErr).value.2.2
      = (events.filter (isIneligible M (W.currentDateTime s).1)).map (fun e => e.id)
    ∧ (reactivateEvents W M s events ineligibleIDs selectionView errmsgParent
        showKOrgErr).trace.filterMap Action.added
      = (events.filter (fun e => !isIneligible M (W.currentDateTime s).1 e)).map
          (fun e => (Cal.active, (toReactivate M (W.currentDateTime s).1 e).id))
    ∧ ((reactivateEvents W M s events ineligibleIDs selectionView errmsgParent
        showKOrgErr).trace.filterMap Action.deleted).Sublist
        ((events.filter (fun e => !isIneligible M (W.currentDateTime s).1 e)).map
          (fun e => (Cal.archive, e.id))) := by
  unfold reactivateEvents
  simp only []
  split
  · next hempty =>
    have he : events = [] := by simpa using hempty
    subst he
    simp [QStringList.clear]
  · obtain ⟨h1, h2, h3⟩ := reactivateEventsLoop_calls W M (W.currentDateTime s).1 events
      ⟨UpdateStatus.UPDATE_OK, 0, 0, "", 0, false, QStringList.clear ineligibleIDs, []⟩
      (W.currentDateTime s).2
    generalize reactivateEventsLoop W M (W.currentDateTime s).1 events
      ⟨UpdateStatus.UPDATE_OK, 0, 0, "", 0, false, QStringList.clear ineligibleIDs, []⟩
      (W.currentDateTime s).2 = l at h1 h2 h3 ⊢
    refine ⟨?_, ?_, ?_⟩
    · rw [h1]
      simp [QStringList.clear]
    · simp only [List.filterMap_append, List.filterMap_cons, h2, Action.added,
        (reportError_calls W _ _ _ _ _ _ _).1]
      split_ifs <;> simp [Action.added]
    · simp only [List.filterMap_append, List.filterMap_cons, Action.deleted,
        (reportError_calls W _ _ _ _ _ _ _).2]
      split_ifs <;> simpa [Action.deleted] using h3

/-- C21 at a list of an active alarm, an archived alarm that occurs again and
one that does not, with `ineligibleIDs` holding an old entry: the IDs of the
first and the third are returned, and the second alone is added to the active
calendar and deleted from the archive. -/
theorem C21_reactivateEvents_ineligibleIDs_witness :
    (reactivateEvents worldOk methodsSample () [alarmA, archivedX1, archivedX2] ["old"]
        false false false).value.2.2 = ["A1", "X2"]
    ∧ (reactivateEvents worldOk methodsSample () [alarmA, archivedX1, archivedX2] ["old"]
        false false false).trace
      = [Action.calAddEvent Cal.active "X1" true, Action.listViewUndeleteEvent "X1" "X1",
         Action.archiveCalendarOpen true, Action.calDeleteEvent Cal.archive "X1" true,
         Action.calSave Cal.active true, Action.calSave Cal.archive true]
    ∧ (reactivateEvents worldOk methodsSample () [alarmA, archivedX1, archivedX2] ["old"]
        false false false).trace.filterMap Action.added
      = ([alarmA, archivedX1, archivedX2].filter
          (fun e => !isIneligible methodsSample (worldOk.currentDateTime ()).1 e)).map
          (fun e => (Cal.active, (toReactivate methodsSample (worldOk.currentDateTime ()).1 e).id)) :=
  ⟨by decide, by decide,
    (C21_reactivateEvents_ineligibleIDs worldOk methodsSample () [alarmA, archivedX1, archivedX2]
      ["old"] false false false).2.1⟩

end KAlarm



end Kalarmd
